import Mathlib

/-!
Verification of the intrusive-list / signal library.

The development shallowly embeds the two C++ headers:
  * `intrusive_list.h` — the generic circular doubly linked list with a
    sentinel ("fake") node.  We model the pointer graph as a heap
    `Nat → Node` assigning to every node id its `next`/`prev` pointers; the
    sentinel is the fixed node `0`.  Every list operation is translated
    statement by statement from the C++ source (including the sequential
    order of the pointer writes and the `non_const_transform` detour).
  * `signals.h` (variant A) and the alternate header shipped as
    `unnamed/part_000` (variant B) — the signal/connection layer with its
    stack of iteration tokens.  Callbacks are modelled as programs in a
    small action language; a fuel-indexed interpreter `run` mirrors
    `signal::operator()`, `connection::disconnect`, the move operations and
    the destructors of both variants (selected by a boolean flag).

The model is a single-signal world: every claim of the specification
concerns one signal and its connections.  Reads or writes of signal members
performed after the signal has been destroyed set a sticky `uaf` flag in
the state (the C++ would be touching freed memory there).
-/

namespace Intrusive

/-- One intrusive `list_element`: its `next` and `prev` pointers, as node
ids.  A node with `next = prev = self` is unlinked. -/
structure Node where
  next : Nat
  prev : Nat
deriving DecidableEq, Repr

/-- The pointer heap: every node id has a current `next`/`prev` pair. -/
def Heap : Type := Nat → Node

/-- Write the `next` field of node `i` (other nodes and the `prev` field of
`i` are untouched). -/
def hsetNext (h : Heap) (i v : Nat) : Heap :=
  fun j => if j = i then { h i with next := v } else h j

/-- Write the `prev` field of node `i`. -/
def hsetPrev (h : Heap) (i v : Nat) : Heap :=
  fun j => if j = i then { h i with prev := v } else h j

@[simp] theorem hsetNext_same (h : Heap) (i v : Nat) :
    hsetNext h i v i = { h i with next := v } := by
  simp [hsetNext]

@[simp] theorem hsetNext_other (h : Heap) (i v j : Nat) (hj : j ≠ i) :
    hsetNext h i v j = h j := by
  simp [hsetNext, hj]

@[simp] theorem hsetPrev_same (h : Heap) (i v : Nat) :
    hsetPrev h i v i = { h i with prev := v } := by
  simp [hsetPrev]

@[simp] theorem hsetPrev_other (h : Heap) (i v j : Nat) (hj : j ≠ i) :
    hsetPrev h i v j = h j := by
  simp [hsetPrev, hj]

/-- The `prev` field is unaffected by a `next` write on any node. -/
@[simp] theorem hsetNext_prev (h : Heap) (i v j : Nat) :
    (hsetNext h i v j).prev = (h j).prev := by
  by_cases hj : j = i <;> simp [hsetNext, hj]

theorem hsetNext_next (h : Heap) (i v j : Nat) :
    (hsetNext h i v j).next = if j = i then v else (h j).next := by
  by_cases hj : j = i <;> simp [hsetNext, hj]

theorem hsetPrev_prev (h : Heap) (i v j : Nat) :
    (hsetPrev h i v j).prev = if j = i then v else (h j).prev := by
  by_cases hj : j = i <;> simp [hsetPrev, hj]

/-- The `next` field is unaffected by a `prev` write on any node. -/
@[simp] theorem hsetPrev_next (h : Heap) (i v j : Nat) :
    (hsetPrev h i v j).next = (h j).next := by
  by_cases hj : j = i <;> simp [hsetPrev, hj]

/-- Source: `list_element::is_linked` — `next != this || prev != this`. -/
def isLinked (h : Heap) (x : Nat) : Prop :=
  (h x).next ≠ x ∨ (h x).prev ≠ x

instance (h : Heap) (x : Nat) : Decidable (isLinked h x) := by
  unfold isLinked; infer_instance

/-- Source: `list_element::unlink` —
`next->prev = prev; prev->next = next; next = this; prev = this;`,
translated statement by statement (each later statement re-reads the heap
produced by the earlier ones, exactly as the C++ does). -/
def unlink (h : Heap) (x : Nat) : Heap :=
  let h1 := hsetPrev h (h x).next (h x).prev
  let h2 := hsetNext h1 (h1 x).prev (h1 x).next
  let h3 := hsetNext h2 x x
  hsetPrev h3 x x

/-- Source: `list::push_back` — four pointer writes in source order. -/
def pushBack (h : Heap) (s n : Nat) : Heap :=
  let h1 := hsetNext h (h s).prev n
  let h2 := hsetPrev h1 n (h1 s).prev
  let h3 := hsetNext h2 n s
  hsetPrev h3 s n

/-- Source: `list::push_front` — four pointer writes in source order. -/
def pushFront (h : Heap) (s n : Nat) : Heap :=
  let h1 := hsetPrev h (h s).next n
  let h2 := hsetNext h1 n (h1 s).next
  let h3 := hsetPrev h2 n s
  hsetNext h3 s n

/-- Source: `list::pop_back` — `fake_node.prev->unlink()`. -/
def popBack (h : Heap) (s : Nat) : Heap :=
  unlink h (h s).prev

/-- Source: `list::pop_front` — `fake_node.next->unlink()`. -/
def popFront (h : Heap) (s : Nat) : Heap :=
  unlink h (h s).next

/-- Source: `list::non_const_transform` — `iterator(cur->prev->next)`. -/
def nct (h : Heap) (p : Nat) : Nat :=
  (h (h p).prev).next

/-- Source: `list::insert(pos, node)` — the `non_const_transform` step and
the four pointer writes, in source order. -/
def insertAt (h : Heap) (pos n : Nat) : Heap :=
  let p := nct h pos
  let h1 := hsetNext h (h p).prev n
  let h2 := hsetNext h1 n p
  let h3 := hsetPrev h2 n ((h2 p).prev)
  hsetPrev h3 p n

/-- Source: `list::erase(pos)` — converts the iterator, advances it to the
successor, unlinks `pos` and returns the successor. -/
def eraseAt (h : Heap) (pos : Nat) : Heap × Nat :=
  let p := nct h pos
  let p2 := (h p).next
  (unlink h ((h p2).prev), p2)

/-- Source: `list::splice(pos, l, first, last)` — the guard and the seven
pointer operations, in source order. -/
def splice (h : Heap) (pos first last : Nat) : Heap :=
  if first = last then h else
  let p := nct h pos
  let f := nct h first
  let l := nct h last
  let h1 := hsetNext h (h p).prev f
  let h2 := hsetNext h1 (h1 f).prev l
  let h3 := hsetNext h2 (h2 l).prev p
  let tmp := (h3 f).prev
  let h4 := hsetPrev h3 f ((h3 p).prev)
  let h5 := hsetPrev h4 p ((h4 l).prev)
  hsetPrev h5 l tmp

/-- Source: `list::empty` — `fake_node.next == &fake_node`. -/
def emptyL (h : Heap) (s : Nat) : Prop := (h s).next = s

/-- Source: `list::begin` — iterator at `fake_node.next`. -/
def beginI (h : Heap) (s : Nat) : Nat := (h s).next

/-- Source: `list::end` — iterator at the sentinel itself. -/
def endI (_h : Heap) (s : Nat) : Nat := s

/-! ### The list representation predicate

`chain h a l b` states that, in heap `h`, starting from node `a` the nodes
of `l` follow in order via `next` pointers, ending at `b`, with every
`prev` pointer the exact inverse.  `represents h s l` says the circular
list with sentinel `s` holds exactly the nodes `l` in order. -/

def chain (h : Heap) : Nat → List Nat → Nat → Prop
  | a, [], b => (h a).next = b ∧ (h b).prev = a
  | a, x :: xs, b => (h a).next = x ∧ (h x).prev = a ∧ chain h x xs b

/-- The circular list with sentinel `s` contains exactly `l`, in order. -/
def represents (h : Heap) (s : Nat) (l : List Nat) : Prop :=
  chain h s l s ∧ (s :: l).Nodup

theorem chain_append (h : Heap) (a x b : Nat) (l₁ l₂ : List Nat) :
    chain h a (l₁ ++ x :: l₂) b ↔ chain h a l₁ x ∧ chain h x l₂ b := by
  induction l₁ generalizing a with
  | nil => simp [chain]; tauto
  | cons y ys ih => simp [chain, ih]; tauto

theorem chain_snoc (h : Heap) (a u b : Nat) (l : List Nat) :
    chain h a (l ++ [u]) b ↔ chain h a l u ∧ (h u).next = b ∧ (h b).prev = u := by
  have := chain_append h a u b l []
  simpa [chain] using this

/-- Helper predicate for splitting a chain at an arbitrary point: the part
of the chain strictly after the split. -/
def chainD (h : Heap) : List Nat → Nat → Prop
  | [], _ => True
  | x :: xs, b => chain h x xs b

theorem chain_split (h : Heap) (a b : Nat) (l₁ l₂ : List Nat) :
    chain h a (l₁ ++ l₂) b ↔ chain h a l₁ (l₂.headD b) ∧ chainD h l₂ b := by
  cases l₂ with
  | nil => simp [chainD]
  | cons x xs => simpa [chainD] using chain_append h a x b l₁ xs

/-- The fields a chain reads: the `next` of `a :: l` and the `prev` of
`l ++ [b]`.  Two heaps agreeing there satisfy the same chain. -/
theorem chain_frame (h h' : Heap) (a b : Nat) (l : List Nat)
    (hn : ∀ x ∈ a :: l, (h' x).next = (h x).next)
    (hp : ∀ x ∈ l ++ [b], (h' x).prev = (h x).prev) :
    chain h a l b → chain h' a l b := by
  induction l generalizing a with
  | nil =>
    intro ⟨h1, h2⟩
    exact ⟨by rw [hn a (by simp)]; exact h1, by rw [hp b (by simp)]; exact h2⟩
  | cons x xs ih =>
    intro ⟨h1, h2, h3⟩
    refine ⟨by rw [hn a (by simp)]; exact h1, by rw [hp x (by simp)]; exact h2, ?_⟩
    exact ih x (fun y hy => hn y (List.mem_cons_of_mem a hy))
      (fun y hy => hp y (List.mem_cons_of_mem x hy)) h3

/-- The boundary facts a chain provides about its last node. -/
theorem chain_last (h : Heap) (a b : Nat) (l : List Nat) :
    chain h a l b → (h (l.getLastD a)).next = b ∧ (h b).prev = l.getLastD a := by
  induction l generalizing a with
  | nil => intro ⟨h1, h2⟩; exact ⟨h1, h2⟩
  | cons x xs ih =>
    intro ⟨_, _, h3⟩
    rw [List.getLastD_cons a x xs]
    exact ih x h3

/-- Rewire a chain segment onto a new endpoint: if the heap changed only
outside the segment's reads, except for the final `next` pointer which now
goes to `c` (whose `prev` points back), the segment chains to `c`. -/
theorem chain_retarget (h h' : Heap) (a b c : Nat) (l : List Nat)
    (hchain : chain h a l b)
    (hnd : (a :: l).Nodup)
    (hn : ∀ x ∈ a :: l, x ≠ l.getLastD a → (h' x).next = (h x).next)
    (hp : ∀ x ∈ l, (h' x).prev = (h x).prev)
    (hlast : (h' (l.getLastD a)).next = c)
    (hc : (h' c).prev = l.getLastD a) :
    chain h' a l c := by
  induction l generalizing a with
  | nil => exact ⟨hlast, hc⟩
  | cons x xs ih =>
    obtain ⟨h1, h2, h3⟩ := hchain
    have hxl : (x :: xs).getLastD a = xs.getLastD x := List.getLastD_cons a x xs
    have hmem : xs.getLastD x ∈ x :: xs := by
      cases xs with
      | nil => simp
      | cons y ys =>
        have := List.getLastD_mem_cons (y :: ys) x
        simpa using this
    have hane : a ≠ xs.getLastD x := by
      intro he
      have : a ∈ x :: xs := he ▸ hmem
      exact (List.nodup_cons.mp hnd).1 this
    refine ⟨by rw [hn a (by simp) (by rw [hxl]; exact hane)]; exact h1,
      by rw [hp x (by simp)]; exact h2, ?_⟩
    exact ih x h3 ((List.nodup_cons.mp hnd).2)
      (fun y hy hyne => hn y (List.mem_cons_of_mem a hy) (by rw [hxl]; exact hyne))
      (fun y hy => hp y (List.mem_cons_of_mem x hy))
      (by rw [← hxl]; exact hlast) (by rw [← hxl]; exact hc)

/-- The head-side boundary facts a chain provides. -/
theorem chain_head (h : Heap) (a b : Nat) (l : List Nat) :
    chain h a l b → (h a).next = l.headD b ∧ (h (l.headD b)).prev = a := by
  cases l with
  | nil => intro ⟨h1, h2⟩; exact ⟨h1, h2⟩
  | cons x xs => intro ⟨h1, h2, _⟩; exact ⟨h1, h2⟩

/-- Pointwise effect of `unlink` on a node `c` whose current neighbours are
`u` (prev) and `y` (next), provided `c ≠ y`. -/
theorem unlink_eval (h : Heap) (c u y : Nat)
    (hu : (h c).prev = u) (hy : (h c).next = y) (hcy : c ≠ y) (x : Nat) :
    ((unlink h c) x).next = (if x = c then c else if x = u then y else (h x).next) ∧
    ((unlink h c) x).prev = (if x = c then c else if x = y then u else (h x).prev) := by
  have hyc : y ≠ c := fun he => hcy he.symm
  unfold unlink
  simp only [hy, hu, hsetPrev_next, hsetNext_prev, hsetPrev_other _ _ _ _ hyc]
  by_cases hxc : x = c
  · subst hxc; simp [hsetNext, hsetPrev]
  · by_cases hxu : x = u
    · subst hxu
      by_cases hxy : x = y <;>
        simp_all [hsetNext, hsetPrev]
    · by_cases hxy : x = y <;>
        simp_all [hsetNext, hsetPrev]

/-- Pointwise effect of `pushFront`. -/
theorem pushFront_eval (h : Heap) (s n : Nat) (hns : n ≠ s) (x : Nat) :
    ((pushFront h s n) x).next =
      (if x = s then n else if x = n then (h s).next else (h x).next) ∧
    ((pushFront h s n) x).prev =
      (if x = n then s else if x = (h s).next then n else (h x).prev) := by
  have hsn : s ≠ n := fun he => hns he.symm
  unfold pushFront
  simp only [hsetPrev_next, hsetNext_prev]
  by_cases hxs : x = s <;> by_cases hxn : x = n <;>
    by_cases hxf : x = (h s).next <;>
      simp_all [hsetNext, hsetPrev]

/-- Pointwise effect of `pushBack`. -/
theorem pushBack_eval (h : Heap) (s n : Nat) (hns : n ≠ s) (x : Nat) :
    ((pushBack h s n) x).next =
      (if x = n then s else if x = (h s).prev then n else (h x).next) ∧
    ((pushBack h s n) x).prev =
      (if x = s then n else if x = n then (h s).prev else (h x).prev) := by
  have hsn : s ≠ n := fun he => hns he.symm
  unfold pushBack
  simp only [hsetPrev_next, hsetNext_prev]
  by_cases hxs : x = s <;> by_cases hxn : x = n <;>
    by_cases hxf : x = (h s).prev <;>
      simp_all [hsetNext, hsetPrev]

/-- Pointwise effect of `insertAt` at a coherent position (`nct` is the
identity there), with `U` the predecessor of `pos`. -/
theorem insertAt_eval (h : Heap) (pos n U : Nat)
    (hnct : nct h pos = pos) (hU : (h pos).prev = U) (hnp : n ≠ pos) (x : Nat) :
    ((insertAt h pos n) x).next =
      (if x = n then pos else if x = U then n else (h x).next) ∧
    ((insertAt h pos n) x).prev =
      (if x = pos then n else if x = n then U else (h x).prev) := by
  have hpn : pos ≠ n := fun he => hnp he.symm
  unfold insertAt
  simp only [hnct, hU, hsetPrev_next, hsetNext_prev]
  by_cases hxp : x = pos <;> by_cases hxn : x = n <;>
    by_cases hxU : x = U <;>
      simp_all [hsetNext, hsetPrev]

/-- Distinctness facts packaged from the Nodup invariant of a ring split
around one member `c`. -/
theorem ring_facts (s c : Nat) (l₁ l₂ : List Nat)
    (hnd : (s :: (l₁ ++ c :: l₂)).Nodup) :
    (s :: l₁).Nodup ∧ c ∉ l₁ ∧ c ∉ l₂ ∧ c ≠ s ∧ s ∉ l₁ ∧ s ∉ l₂ ∧
    l₂.Nodup ∧ (∀ x ∈ l₁, x ∉ l₂) := by
  obtain ⟨hs, hrest⟩ := List.nodup_cons.mp hnd
  obtain ⟨h1, h2, hdisj⟩ := List.nodup_append.mp hrest
  obtain ⟨hc, h3⟩ := List.nodup_cons.mp h2
  have hs1 : s ∉ l₁ := fun hx => hs (List.mem_append.mpr (Or.inl hx))
  have hs2 : s ∉ l₂ := fun hx => hs (List.mem_append.mpr (Or.inr (List.mem_cons_of_mem c hx)))
  have hcs : c ≠ s := fun he => hs (List.mem_append.mpr (Or.inr (by simp [he])))
  have hc1 : c ∉ l₁ := fun hx => (hdisj hx) (by simp)
  refine ⟨List.nodup_cons.mpr ⟨hs1, h1⟩, hc1, hc, hcs, hs1, hs2, h3, ?_⟩
  exact fun x hx hx2 => (hdisj hx) (List.mem_cons_of_mem c hx2)

/-- The `getLastD` of a list is a member of the list extended with the
default. -/
theorem getLastD_mem (s : Nat) (l : List Nat) : l.getLastD s ∈ s :: l := by
  cases l with
  | nil => simp
  | cons a as =>
    rw [List.getLastD_cons s a as]
    exact List.mem_cons_of_mem s (List.getLastD_mem_cons as a)

/-- Unlinking a member of the list removes exactly it from the
representation. -/
theorem unlink_repr (h : Heap) (s c : Nat) (l₁ l₂ : List Nat)
    (hr : represents h s (l₁ ++ c :: l₂)) :
    represents (unlink h c) s (l₁ ++ l₂) := by
  obtain ⟨hch, hnd⟩ := hr
  obtain ⟨hnd₁, hc1, hc2, hcs, hs1, hs2, hnd₂, hdisj⟩ := ring_facts s c l₁ l₂ hnd
  have hnd' : (s :: (l₁ ++ l₂)).Nodup := by
    have hsub : (s :: (l₁ ++ l₂)).Sublist (s :: (l₁ ++ c :: l₂)) :=
      List.Sublist.cons₂ s
        (List.Sublist.append (List.Sublist.refl l₁) (List.sublist_cons_self c l₂))
    exact hsub.nodup hnd
  obtain ⟨hch₁, hch₂⟩ := (chain_append h s c s l₁ l₂).mp hch
  have hlast := chain_last h s c l₁ hch₁
  have hcsl : c ∉ s :: l₁ := by
    intro hx
    rcases List.mem_cons.mp hx with h1 | h1
    · exact hcs h1
    · exact hc1 h1
  have humem : l₁.getLastD s ∈ s :: l₁ := getLastD_mem s l₁
  have hcu : c ≠ l₁.getLastD s := fun he => hcsl (he ▸ humem)
  refine ⟨?_, hnd'⟩
  cases l₂ with
  | nil =>
    obtain ⟨hcnext, hsprev⟩ := hch₂
    have heval := unlink_eval h c (l₁.getLastD s) s hlast.2 hcnext hcs
    simp only [List.append_nil]
    refine chain_retarget h (unlink h c) s c s l₁ hch₁ hnd₁ ?_ ?_ ?_ ?_
    · intro x hx hxu
      have hxc : x ≠ c := fun he => hcsl (he ▸ hx)
      rw [(heval x).1, if_neg hxc, if_neg hxu]
    · intro x hx
      have hxc : x ≠ c := fun he => hc1 (he ▸ hx)
      have hxs : x ≠ s := fun he => hs1 (he ▸ hx)
      rw [(heval x).2, if_neg hxc, if_neg hxs]
    · have huc : l₁.getLastD s ≠ c := fun he => hcu he.symm
      rw [(heval _).1, if_neg huc, if_pos rfl]
    · have hsc : s ≠ c := fun he => hcs he.symm
      rw [(heval s).2, if_neg hsc, if_pos rfl]
  | cons z zs =>
    obtain ⟨hcz, hzp, hch₃⟩ := hch₂
    have hzc : c ≠ z := fun he => hc2 (by rw [he]; exact List.mem_cons_self z zs)
    have heval := unlink_eval h c (l₁.getLastD s) z hlast.2 hcz hzc
    refine (chain_append (unlink h c) s z s l₁ zs).mpr ⟨?_, ?_⟩
    · refine chain_retarget h (unlink h c) s c z l₁ hch₁ hnd₁ ?_ ?_ ?_ ?_
      · intro x hx hxu
        have hxc : x ≠ c := fun he => hcsl (he ▸ hx)
        rw [(heval x).1, if_neg hxc, if_neg hxu]
      · intro x hx
        have hxc : x ≠ c := fun he => hc1 (he ▸ hx)
        have hxz : x ≠ z := fun he =>
          hdisj x hx (by rw [he]; exact List.mem_cons_self z zs)
        rw [(heval x).2, if_neg hxc, if_neg hxz]
      · have huc : l₁.getLastD s ≠ c := fun he => hcu he.symm
        rw [(heval _).1, if_neg huc, if_pos rfl]
      · have hzcs : z ≠ c := fun he => hzc he.symm
        rw [(heval z).2, if_neg hzcs, if_pos rfl]
    · refine chain_frame h (unlink h c) z s zs ?_ ?_ hch₃
      · intro x hx
        have hxc : x ≠ c := fun he => hc2 (he ▸ hx)
        have hxu : x ≠ l₁.getLastD s := by
          intro he
          rcases List.mem_cons.mp humem with h1 | h1
          · exact hs2 (h1 ▸ he ▸ hx)
          · exact hdisj _ h1 (he ▸ hx)
        rw [(heval x).1, if_neg hxc, if_neg hxu]
      · intro x hx
        rcases List.mem_append.mp hx with h1 | h1
        · have hxc : x ≠ c := fun he => hc2 (he ▸ List.mem_cons_of_mem z h1)
          have hxz : x ≠ z := fun he => (List.nodup_cons.mp hnd₂).1 (he ▸ h1)
          rw [(heval x).2, if_neg hxc, if_neg hxz]
        · have hxs : x = s := by simpa using h1
          subst hxs
          have hsc : x ≠ c := fun he => hcs he.symm
          have hsz : x ≠ z := fun he =>
            hs2 (by rw [he]; exact List.mem_cons_self z zs)
          rw [(heval x).2, if_neg hsc, if_neg hsz]

/-- On a well-formed ring, `non_const_transform` is the identity on every
position (members and sentinel alike). -/
theorem nct_ring (h : Heap) (s : Nat) (l : List Nat) (hr : represents h s l) :
    ∀ x ∈ s :: l, nct h x = x := by
  intro x hx
  rcases List.mem_cons.mp hx with h1 | h1
  · subst h1
    have hlast := chain_last h x x l hr.1
    unfold nct
    rw [hlast.2, hlast.1]
  · obtain ⟨t₁, t₂, rfl⟩ := List.append_of_mem h1
    obtain ⟨hch₁, _⟩ := (chain_append h s x s t₁ t₂).mp hr.1
    have hlast := chain_last h s x t₁ hch₁
    unfold nct
    rw [hlast.2, hlast.1]

/-- Pushing a fresh node at the front prepends it to the representation. -/
theorem pushFront_repr (h : Heap) (s n : Nat) (l : List Nat)
    (hr : represents h s l) (hn : n ∉ s :: l) :
    represents (pushFront h s n) s (n :: l) := by
  obtain ⟨hch, hnd⟩ := hr
  have hns : n ≠ s := fun he => hn (by simp [he])
  have hnl : n ∉ l := fun he => hn (List.mem_cons_of_mem s he)
  have heval := pushFront_eval h s n hns
  have hsl := List.nodup_cons.mp hnd
  refine ⟨?_, List.nodup_cons.mpr ⟨?_, List.nodup_cons.mpr ⟨hnl, hsl.2⟩⟩⟩
  case refine_2 =>
    intro hx
    rcases List.mem_cons.mp hx with h1 | h1
    · exact hns h1.symm
    · exact hsl.1 h1
  refine ⟨?_, ?_, ?_⟩
  · rw [(heval s).1, if_pos rfl]
  · rw [(heval n).2, if_pos rfl]
  · have hsnl : s ∉ l := (List.nodup_cons.mp hnd).1
    cases l with
    | nil =>
      obtain ⟨h1, h2⟩ := hch
      refine ⟨?_, ?_⟩
      · rw [(heval n).1, if_neg hns, if_pos rfl]; exact h1
      · rw [(heval s).2, if_neg (fun he => hns he.symm), if_pos h1.symm]
    | cons x xs =>
      obtain ⟨h1, h2, h3⟩ := hch
      have hxs : x ≠ s := fun he => hsnl (by rw [← he]; exact List.mem_cons_self x xs)
      have hxn : x ≠ n := fun he => hnl (by rw [← he]; exact List.mem_cons_self x xs)
      refine ⟨?_, ?_, ?_⟩
      · rw [(heval n).1, if_neg hns, if_pos rfl]; exact h1
      · rw [(heval x).2, if_neg hxn, if_pos (h1 ▸ rfl)]
      · refine chain_frame h (pushFront h s n) x s xs ?_ ?_ h3
        · intro y hy
          have hys : y ≠ s := fun he => hsnl (he ▸ hy)
          have hyn : y ≠ n := fun he => hnl (he ▸ hy)
          rw [(heval y).1, if_neg hys, if_neg hyn]
        · intro y hy
          have hnds := List.nodup_cons.mp ((List.nodup_cons.mp hnd).2)
          rcases List.mem_append.mp hy with h4 | h4
          · have hyn : y ≠ n := fun he => hnl (he ▸ List.mem_cons_of_mem x h4)
            have hyx : y ≠ (h s).next := fun he => hnds.1 ((h1 ▸ he) ▸ h4)
            rw [(heval y).2, if_neg hyn, if_neg hyx]
          · have hys : y = s := by simpa using h4
            have hyn : y ≠ n := fun he => hns (he.symm.trans hys)
            have hyx : y ≠ (h s).next := fun he => hxs ((h1 ▸ he).symm.trans hys)
            rw [(heval y).2, if_neg hyn, if_neg hyx]

/-- Pushing a fresh node at the back appends it to the representation. -/
theorem pushBack_repr (h : Heap) (s n : Nat) (l : List Nat)
    (hr : represents h s l) (hn : n ∉ s :: l) :
    represents (pushBack h s n) s (l ++ [n]) := by
  obtain ⟨hch, hnd⟩ := hr
  have hns : n ≠ s := fun he => hn (by simp [he])
  have hnl : n ∉ l := fun he => hn (List.mem_cons_of_mem s he)
  have heval := pushBack_eval h s n hns
  have hlast := chain_last h s s l hch
  have humem : l.getLastD s ∈ s :: l := getLastD_mem s l
  have hnu : n ≠ l.getLastD s := fun he => hn (he ▸ humem)
  refine ⟨?_, ?_⟩
  · refine (chain_snoc (pushBack h s n) s n s l).mpr ⟨?_, ?_, ?_⟩
    · refine chain_retarget h (pushBack h s n) s s n l hch
        (List.nodup_cons.mp (List.nodup_cons.mpr ⟨hn, hnd⟩)).2 ?_ ?_ ?_ ?_
      · intro x hx hxu
        have hxn : x ≠ n := fun he => hn (he ▸ hx)
        have hxp : x ≠ (h s).prev := fun he => hxu (he.trans hlast.2)
        rw [(heval x).1, if_neg hxn, if_neg hxp]
      · intro x hx
        have hxn : x ≠ n := fun he => hnl (he ▸ hx)
        have hxs : x ≠ s := fun he => (List.nodup_cons.mp hnd).1 (he ▸ hx)
        rw [(heval x).2, if_neg hxs, if_neg hxn]
      · rw [(heval _).1, if_neg (fun he => hnu he.symm), if_pos hlast.2.symm]
      · rw [(heval n).2, if_neg hns, if_pos rfl]; exact hlast.2
    · rw [(heval n).1, if_pos rfl]
    · rw [(heval s).2, if_pos rfl]
  · have hperm : (s :: (l ++ [n])).Perm (n :: s :: l) := by
      exact List.Perm.trans (List.Perm.cons s (List.perm_append_singleton n l))
        (List.Perm.swap n s l)
    refine hperm.nodup_iff.mpr (List.nodup_cons.mpr ⟨hn, hnd⟩)

/-- Inserting a fresh node before a member places it exactly before that
member in the representation. -/
theorem insertAt_repr (h : Heap) (s p n : Nat) (l₁ l₂ : List Nat)
    (hr : represents h s (l₁ ++ p :: l₂)) (hn : n ∉ s :: (l₁ ++ p :: l₂)) :
    represents (insertAt h p n) s (l₁ ++ n :: p :: l₂) := by
  obtain ⟨hch, hnd⟩ := hr
  obtain ⟨hnd₁, hp1, hp2, hps, hs1, hs2, hnd₂, hdisj⟩ := ring_facts s p l₁ l₂ hnd
  have hnp : n ≠ p := fun he => hn (by simp [he])
  have hns : n ≠ s := fun he => hn (by simp [he])
  have hn1 : n ∉ l₁ := fun he => hn (by simp [he])
  have hn2 : n ∉ l₂ := fun he => hn (by simp [he])
  obtain ⟨hch₁, hch₂⟩ := (chain_append h s p s l₁ l₂).mp hch
  have hlast := chain_last h s p l₁ hch₁
  have hnct : nct h p = p := by unfold nct; rw [hlast.2, hlast.1]
  have humem : l₁.getLastD s ∈ s :: l₁ := getLastD_mem s l₁
  have hnu : n ≠ l₁.getLastD s := by
    intro he
    rcases List.mem_cons.mp (he ▸ humem) with h1 | h1
    · exact hns h1
    · exact hn1 h1
  have hpu : p ≠ l₁.getLastD s := by
    intro he
    rcases List.mem_cons.mp (he ▸ humem) with h1 | h1
    · exact hps h1
    · exact hp1 h1
  have heval := insertAt_eval h p n (l₁.getLastD s) hnct hlast.2 hnp
  refine ⟨?_, ?_⟩
  · refine (chain_append (insertAt h p n) s n s l₁ (p :: l₂)).mpr ⟨?_, ?_⟩
    · refine chain_retarget h (insertAt h p n) s p n l₁ hch₁ hnd₁ ?_ ?_ ?_ ?_
      · intro x hx hxu
        have hxn : x ≠ n := by
          intro he
          rcases List.mem_cons.mp (he ▸ hx) with h1 | h1
          · exact hns h1
          · exact hn1 h1
        rw [(heval x).1, if_neg hxn, if_neg hxu]
      · intro x hx
        have hxp : x ≠ p := fun he => hp1 (he ▸ hx)
        have hxn : x ≠ n := fun he => hn1 (he ▸ hx)
        rw [(heval x).2, if_neg hxp, if_neg hxn]
      · rw [(heval _).1, if_neg (fun he => hnu he.symm), if_pos rfl]
      · rw [(heval n).2, if_neg hnp, if_pos rfl]
    · refine ⟨?_, ?_, ?_⟩
      · rw [(heval n).1, if_pos rfl]
      · rw [(heval p).2, if_pos rfl]
      · refine chain_frame h (insertAt h p n) p s l₂ ?_ ?_ hch₂
        · intro y hy
          rcases List.mem_cons.mp hy with h1 | h1
          · subst h1
            have hyu : y ≠ l₁.getLastD s := hpu
            rw [(heval y).1, if_neg (fun he => hnp he.symm), if_neg hyu]
          · have hyn : y ≠ n := fun he => hn2 (he ▸ h1)
            have hyu : y ≠ l₁.getLastD s := by
              intro he
              rcases List.mem_cons.mp (he ▸ humem) with h2 | h2
              · exact hs2 (h2 ▸ h1)
              · exact hdisj _ h2 (he ▸ h1)
            rw [(heval y).1, if_neg hyn, if_neg hyu]
        · intro y hy
          rcases List.mem_append.mp hy with h1 | h1
          · have hyp : y ≠ p := fun he => hp2 (he ▸ h1)
            have hyn : y ≠ n := fun he => hn2 (he ▸ h1)
            rw [(heval y).2, if_neg hyp, if_neg hyn]
          · have hys : y = s := by simpa using h1
            subst hys
            rw [(heval y).2, if_neg (fun he => hps he.symm),
              if_neg (fun he => hns he.symm)]
  · have hperm : (s :: (l₁ ++ n :: p :: l₂)).Perm (n :: s :: (l₁ ++ p :: l₂)) := by
      refine List.Perm.trans (List.Perm.cons s ?_) (List.Perm.swap n s _)
      exact List.perm_middle
    exact hperm.nodup_iff.mpr (List.nodup_cons.mpr ⟨hn, hnd⟩)

/-- Inserting a fresh node before the sentinel (`end()`) appends it. -/
theorem insertAt_end_repr (h : Heap) (s n : Nat) (l : List Nat)
    (hr : represents h s l) (hn : n ∉ s :: l) :
    represents (insertAt h s n) s (l ++ [n]) := by
  obtain ⟨hch, hnd⟩ := hr
  have hns : n ≠ s := fun he => hn (by simp [he])
  have hnl : n ∉ l := fun he => hn (List.mem_cons_of_mem s he)
  have hlast := chain_last h s s l hch
  have hnct : nct h s = s := by unfold nct; rw [hlast.2, hlast.1]
  have humem : l.getLastD s ∈ s :: l := getLastD_mem s l
  have hnu : n ≠ l.getLastD s := fun he => hn (he ▸ humem)
  have heval := insertAt_eval h s n (l.getLastD s) hnct hlast.2 hns
  refine ⟨?_, ?_⟩
  · refine (chain_snoc (insertAt h s n) s n s l).mpr ⟨?_, ?_, ?_⟩
    · refine chain_retarget h (insertAt h s n) s s n l hch
        (List.nodup_cons.mp (List.nodup_cons.mpr ⟨hn, hnd⟩)).2 ?_ ?_ ?_ ?_
      · intro x hx hxu
        have hxn : x ≠ n := fun he => hn (he ▸ hx)
        rw [(heval x).1, if_neg hxn, if_neg hxu]
      · intro x hx
        have hxn : x ≠ n := fun he => hnl (he ▸ hx)
        have hxs : x ≠ s := fun he => (List.nodup_cons.mp hnd).1 (he ▸ hx)
        rw [(heval x).2, if_neg hxs, if_neg hxn]
      · rw [(heval _).1, if_neg (fun he => hnu he.symm), if_pos rfl]
      · rw [(heval n).2, if_neg hns, if_pos rfl]
    · rw [(heval n).1, if_pos rfl]
    · rw [(heval s).2, if_pos rfl]
  · have hperm : (s :: (l ++ [n])).Perm (n :: s :: l) := by
      exact List.Perm.trans (List.Perm.cons s (List.perm_append_singleton n l))
        (List.Perm.swap n s l)
    exact hperm.nodup_iff.mpr (List.nodup_cons.mpr ⟨hn, hnd⟩)

/-! ### Iteration: forward and reverse traversal from the sentinel -/

/-- Forward traversal: repeatedly follow `next` from `cur` until the
sentinel is reached (fuel-bounded). -/
def travF (h : Heap) (s : Nat) : Nat → Nat → List Nat
  | 0, _ => []
  | n + 1, cur => if cur = s then [] else cur :: travF h s n ((h cur).next)

/-- Reverse traversal: repeatedly follow `prev` from `cur`. -/
def travB (h : Heap) (s : Nat) : Nat → Nat → List Nat
  | 0, _ => []
  | n + 1, cur => if cur = s then [] else cur :: travB h s n ((h cur).prev)

/-- Forward traversal starting at `begin()`. -/
def traverseFwd (h : Heap) (s n : Nat) : List Nat := travF h s n (beginI h s)

/-- Reverse traversal starting at the last element (`fake_node.prev`). -/
def traverseBwd (h : Heap) (s n : Nat) : List Nat := travB h s n ((h s).prev)

theorem travF_of_chain (h : Heap) (s : Nat) :
    ∀ (l : List Nat) (a : Nat), chain h a l s → s ∉ l →
      travF h s (l.length + 1) ((h a).next) = l := by
  intro l
  induction l with
  | nil =>
    intro a ⟨h1, _⟩ _
    simp [travF, h1]
  | cons x xs ih =>
    intro a ⟨h1, _, h3⟩ hs
    have hxs : x ≠ s := fun he => hs (by simp [he])
    simp only [List.length_cons, travF, h1, if_neg hxs]
    exact congrArg (x :: ·) (ih x h3 (fun hc => hs (List.mem_cons_of_mem x hc)))

theorem travB_of_chain (h : Heap) (s : Nat) :
    ∀ (l : List Nat) (b : Nat), chain h s l b → s ∉ l →
      travB h s (l.length + 1) ((h b).prev) = l.reverse := by
  intro l
  induction l using List.reverseRecOn with
  | nil =>
    intro b ⟨_, h2⟩ _
    simp [travB, h2]
  | append_singleton l' u ih =>
    intro b hch hs
    obtain ⟨hch', hun, hbp⟩ := (chain_snoc h s u b l').mp hch
    have hus : u ≠ s := fun he => hs (by simp [he])
    have hsl : s ∉ l' := fun hc => hs (by simp [hc])
    rw [hbp]
    rw [show (l' ++ [u]).length + 1 = l'.length + 1 + 1 from by simp]
    rw [show travB h s (l'.length + 1 + 1) u
        = if u = s then [] else u :: travB h s (l'.length + 1) ((h u).prev) from rfl]
    rw [if_neg hus, ih u hch' hsl]
    simp

theorem traverseFwd_repr (h : Heap) (s : Nat) (l : List Nat)
    (hr : represents h s l) : traverseFwd h s (l.length + 1) = l :=
  travF_of_chain h s l s hr.1 (List.nodup_cons.mp hr.2).1

theorem traverseBwd_repr (h : Heap) (s : Nat) (l : List Nat)
    (hr : represents h s l) : traverseBwd h s (l.length + 1) = l.reverse :=
  travB_of_chain h s l s hr.1 (List.nodup_cons.mp hr.2).1

/-- The `empty()` test agrees with the abstract contents and with the
`begin() == end()` test. -/
theorem repr_empty_iff (h : Heap) (s : Nat) (l : List Nat)
    (hr : represents h s l) :
    (emptyL h s ↔ l = []) ∧ (emptyL h s ↔ beginI h s = endI h s) := by
  refine ⟨?_, Iff.rfl⟩
  cases l with
  | nil => simpa [emptyL] using hr.1.1
  | cons x xs =>
    have h1 : (h s).next = x := hr.1.1
    have hxs : x ≠ s := by
      intro he
      exact (List.nodup_cons.mp hr.2).1 (by rw [← he]; exact List.mem_cons_self x xs)
    simp [emptyL, h1, hxs]

/-! ### Sequences of list operations (claim C8) -/

/-- One structural operation on the list with sentinel `s`. -/
inductive LOp where
  | pushF (n : Nat)
  | pushB (n : Nat)
  | popF
  | popB
  | ins (pos n : Nat)
  | ers (pos : Nat)
deriving DecidableEq, Repr

/-- Execute one operation on the pointer heap (exactly the C++ calls). -/
def applyLOp (h : Heap) (s : Nat) : LOp → Heap
  | .pushF n => pushFront h s n
  | .pushB n => pushBack h s n
  | .popF => popFront h s
  | .popB => popBack h s
  | .ins pos n => insertAt h pos n
  | .ers pos => (eraseAt h pos).1

/-- Abstract insertion of `n` immediately before the first occurrence of
`posv`. -/
def insB (n posv : Nat) : List Nat → List Nat
  | [] => []
  | x :: xs => if x = posv then n :: x :: xs else x :: insB n posv xs

/-- The abstract effect of one operation on the list contents, `none` when
the operation's precondition (per the list contract) is violated. -/
def specLOp (s : Nat) (l : List Nat) : LOp → Option (List Nat)
  | .pushF n => if n ∉ s :: l then some (n :: l) else none
  | .pushB n => if n ∉ s :: l then some (l ++ [n]) else none
  | .popF => match l with | [] => none | _ :: xs => some xs
  | .popB => match l with | [] => none | _ :: _ => some l.dropLast
  | .ins pos n =>
      if n ∉ s :: l ∧ n ≠ pos then
        (if pos = s then some (l ++ [n])
         else if pos ∈ l then some (insB n pos l) else none)
      else none
  | .ers pos => if pos ∈ l then some (l.erase pos) else none

def applyLOps (h : Heap) (s : Nat) : List LOp → Heap
  | [] => h
  | op :: ops => applyLOps (applyLOp h s op) s ops

def specLOps (s : Nat) (l : List Nat) : List LOp → Option (List Nat)
  | [] => some l
  | op :: ops =>
    match specLOp s l op with
    | none => none
    | some l' => specLOps s l' ops

theorem insB_eq (n pos : Nat) :
    ∀ (t₁ t₂ : List Nat), pos ∉ t₁ →
      insB n pos (t₁ ++ pos :: t₂) = t₁ ++ n :: pos :: t₂ := by
  intro t₁
  induction t₁ with
  | nil => intro t₂ _; simp [insB]
  | cons x xs ih =>
    intro t₂ hpos
    have hxp : x ≠ pos := fun he => hpos (by simp [he])
    simp only [List.cons_append, insB, if_neg hxp]
    exact congrArg (x :: ·) (ih t₂ (fun hc => hpos (List.mem_cons_of_mem x hc)))

/-- A member of a Nodup list splits it with the member absent from the
prefix. -/
theorem nodup_mem_split (x : Nat) (l : List Nat) (hx : x ∈ l) (hnd : l.Nodup) :
    ∃ t₁ t₂, l = t₁ ++ x :: t₂ ∧ x ∉ t₁ := by
  obtain ⟨t₁, t₂, rfl⟩ := List.append_of_mem hx
  refine ⟨t₁, t₂, rfl, ?_⟩
  obtain ⟨_, h2, hdisj⟩ := List.nodup_append.mp hnd
  exact fun hc => (hdisj hc) (List.mem_cons_self x t₂)

/-- Single-operation preservation: a valid operation takes a well-formed
heap to a well-formed heap realising the specified contents. -/
theorem applyLOp_repr (h : Heap) (s : Nat) (l l' : List Nat) (op : LOp)
    (hr : represents h s l) (hspec : specLOp s l op = some l') :
    represents (applyLOp h s op) s l' := by
  cases op with
  | pushF n =>
    simp only [specLOp] at hspec
    split at hspec
    · obtain rfl : n :: l = l' := by simpa using hspec
      exact pushFront_repr h s n l hr (by assumption)
    · exact absurd hspec (by simp)
  | pushB n =>
    simp only [specLOp] at hspec
    split at hspec
    · obtain rfl : l ++ [n] = l' := by simpa using hspec
      exact pushBack_repr h s n l hr (by assumption)
    · exact absurd hspec (by simp)
  | popF =>
    simp only [specLOp] at hspec
    match l, hspec with
    | x :: xs, hspec =>
      obtain rfl : xs = l' := by simpa using hspec
      have hx : (h s).next = x := hr.1.1
      show represents (unlink h (h s).next) s xs
      rw [hx]
      simpa using unlink_repr h s x [] xs hr
  | popB =>
    simp only [specLOp] at hspec
    match l, hspec with
    | x :: xs, hspec =>
      obtain rfl : (x :: xs).dropLast = l' := by simpa using hspec
      rcases List.eq_nil_or_concat (x :: xs) with hnil | ⟨t, u, ht⟩
      · exact absurd hnil (by simp)
      · have ht' : x :: xs = t ++ [u] := by simpa [List.concat_eq_append] using ht
        have hprev : (h s).prev = u := by
          have hl := (chain_last h s s (x :: xs) hr.1).2
          rw [ht'] at hl
          simpa using hl
        show represents (unlink h (h s).prev) s ((x :: xs).dropLast)
        rw [hprev, ht', List.dropLast_concat]
        simpa using unlink_repr h s u t [] (ht' ▸ hr)
  | ins pos n =>
    simp only [specLOp] at hspec
    split at hspec
    · rename_i hcond
      split at hspec
      · rename_i hpos
        obtain rfl : l ++ [n] = l' := by simpa using hspec
        show represents (insertAt h pos n) s (l ++ [n])
        rw [hpos]
        exact insertAt_end_repr h s n l hr hcond.1
      · split at hspec
        · rename_i hmem
          obtain ⟨t₁, t₂, rfl, hnot⟩ :=
            nodup_mem_split pos l hmem (List.nodup_cons.mp hr.2).2
          obtain rfl : insB n pos (t₁ ++ pos :: t₂) = l' := by simpa using hspec
          show represents (insertAt h pos n) s (insB n pos (t₁ ++ pos :: t₂))
          rw [insB_eq n pos t₁ t₂ hnot]
          exact insertAt_repr h s pos n t₁ t₂ hr hcond.1
        · exact absurd hspec (by simp)
    · exact absurd hspec (by simp)
  | ers pos =>
    simp only [specLOp] at hspec
    split at hspec
    · rename_i hmem
      obtain ⟨t₁, t₂, rfl, hnot⟩ :=
        nodup_mem_split pos l hmem (List.nodup_cons.mp hr.2).2
      obtain rfl : (t₁ ++ pos :: t₂).erase pos = l' := by simpa using hspec
      have hErase : (t₁ ++ pos :: t₂).erase pos = t₁ ++ t₂ := by
        rw [List.erase_append_right (pos :: t₂) hnot, List.erase_cons_head]
      obtain ⟨hch₁, hch₂⟩ := (chain_append h s pos s t₁ t₂).mp hr.1
      have hnct : nct h pos = pos :=
        nct_ring h s (t₁ ++ pos :: t₂) hr pos (by simp)
      have hnext : (h pos).next = t₂.headD s := (chain_head h pos s t₂ hch₂).1
      have hprev : (h (t₂.headD s)).prev = pos := (chain_head h pos s t₂ hch₂).2
      have heq : (eraseAt h pos).1 = unlink h pos := by
        simp only [eraseAt]
        rw [hnct, hnext, hprev]
      show represents (eraseAt h pos).1 s ((t₁ ++ pos :: t₂).erase pos)
      rw [heq, hErase]
      exact unlink_repr h s pos t₁ t₂ hr
    · exact absurd hspec (by simp)

/-- Sequence preservation: any valid sequence of operations keeps the ring
well formed with the specified contents. -/
theorem applyLOps_repr (s : Nat) :
    ∀ (ops : List LOp) (h : Heap) (l l' : List Nat),
      represents h s l → specLOps s l ops = some l' →
      represents (applyLOps h s ops) s l' := by
  intro ops
  induction ops with
  | nil =>
    intro h l l' hr hspec
    obtain rfl : l = l' := by simpa [specLOps] using hspec
    simpa [applyLOps] using hr
  | cons op ops ih =>
    intro h l l' hr hspec
    simp only [specLOps] at hspec
    match hmid : specLOp s l op with
    | none => rw [hmid] at hspec; exact absurd hspec (by simp)
    | some lmid =>
      rw [hmid] at hspec
      exact ih (applyLOp h s op) lmid l' (applyLOp_repr h s l lmid op hr hmid) hspec

/-- Pointwise effect of `splice` at coherent positions.  The write targets
are `u₁ := (h pos).prev`, `e₂ := (h fst).prev` and `mE := (h lst).prev` for
the `next` fields, and `fst`, `pos`, `lst` for the `prev` fields; the `if`
chains list the later C++ writes first. -/
theorem splice_eval (h : Heap) (pos fst lst : Nat)
    (hnp : nct h pos = pos) (hnf : nct h fst = fst) (hnl : nct h lst = lst)
    (hfl : fst ≠ lst) (x : Nat) :
    ((splice h pos fst lst) x).next =
      (if x = (h lst).prev then pos else if x = (h fst).prev then lst
       else if x = (h pos).prev then fst else (h x).next) ∧
    ((splice h pos fst lst) x).prev =
      (if x = lst then (h fst).prev else if x = pos then (h lst).prev
       else if x = fst then (h pos).prev else (h x).prev) := by
  have hlf : lst ≠ fst := fun he => hfl he.symm
  unfold splice
  rw [if_neg hfl]
  simp only [hnp, hnf, hnl, hsetPrev_next, hsetNext_prev,
    hsetNext_next, hsetPrev_prev, hlf, if_false]
  exact ⟨trivial, trivial⟩

/-- An empty range makes `splice` a no-op (the C++ guard). -/
theorem splice_self (h : Heap) (p f : Nat) : splice h p f f = h := by
  unfold splice
  rw [if_pos rfl]

/-- Nodup facts for a ring split into three segments. -/
theorem ring3_facts (s : Nat) (b₁ m b₂ : List Nat)
    (hnd : (s :: (b₁ ++ m ++ b₂)).Nodup) :
    (s :: b₁).Nodup ∧ m.Nodup ∧ (s :: b₂).Nodup ∧ s ∉ m ∧
    (∀ x ∈ b₁, x ∉ m) ∧ (∀ x ∈ b₁, x ∉ b₂) ∧ (∀ x ∈ m, x ∉ b₂) := by
  obtain ⟨hs, hrest⟩ := List.nodup_cons.mp hnd
  obtain ⟨h1, hmb, hd1⟩ := List.nodup_append.mp
    (by rw [← List.append_assoc]; exact hrest)
  obtain ⟨h2, h3, hd2⟩ := List.nodup_append.mp hmb
  have hsb₁ : s ∉ b₁ := fun hx => hs (by simp [hx])
  have hsm : s ∉ m := fun hx => hs (by simp [hx])
  have hsb₂ : s ∉ b₂ := fun hx => hs (by simp [hx])
  exact ⟨List.nodup_cons.mpr ⟨hsb₁, h1⟩, h2, List.nodup_cons.mpr ⟨hsb₂, h3⟩, hsm,
    fun x hx hm => hd1 hx (by simp [hm]),
    fun x hx hb => hd1 hx (by simp [hb]),
    fun x hx hb => hd2 hx hb⟩

/-- Splicing the non-empty range `fst :: mr` out of ring 2 before position
`a₂.headD s₁` of ring 1 (the sentinel when `a₂ = []`, i.e. `end()`) moves
the range exactly there and removes it from ring 2. -/
theorem splice_repr (h : Heap) (s₁ s₂ fst : Nat) (a₁ a₂ b₁ mr b₂ : List Nat)
    (hr₁ : represents h s₁ (a₁ ++ a₂))
    (hr₂ : represents h s₂ (b₁ ++ (fst :: mr) ++ b₂))
    (hdisj : ∀ x ∈ s₁ :: (a₁ ++ a₂), x ∉ s₂ :: (b₁ ++ (fst :: mr) ++ b₂)) :
    represents (splice h (a₂.headD s₁) fst (b₂.headD s₂)) s₁
      (a₁ ++ (fst :: mr) ++ a₂) ∧
    represents (splice h (a₂.headD s₁) fst (b₂.headD s₂)) s₂ (b₁ ++ b₂) := by
  obtain ⟨hndA₁, hndM, hndB₂c, hs₂m, hb₁m, hb₁b₂, hmb₂⟩ :=
    ring3_facts s₂ b₁ (fst :: mr) b₂ hr₂.2
  have hndA := hr₂.2
  -- ring-1 Nodup pieces
  obtain ⟨hndS₁a₁, ha₂a₁x, hs₁a₂x, hxx, hs₁a₁, hs₁a₂', hndA₂, ha₁a₂⟩ :
      (s₁ :: a₁).Nodup ∧ True ∧ True ∧ True ∧ s₁ ∉ a₁ ∧ s₁ ∉ a₂ ∧
      a₂.Nodup ∧ (∀ x ∈ a₁, x ∉ a₂) := by
    obtain ⟨hs, hrest⟩ := List.nodup_cons.mp hr₁.2
    obtain ⟨h1, h2, hd⟩ := List.nodup_append.mp hrest
    have hs₁a₁ : s₁ ∉ a₁ := fun hx => hs (by simp [hx])
    have hs₁a₂ : s₁ ∉ a₂ := fun hx => hs (by simp [hx])
    exact ⟨List.nodup_cons.mpr ⟨hs₁a₁, h1⟩, trivial, trivial, trivial,
      hs₁a₁, hs₁a₂, h2, fun x hx => hd hx⟩
  -- memberships
  have hposR1 : a₂.headD s₁ ∈ s₁ :: (a₁ ++ a₂) := by
    cases a₂ with
    | nil => simp
    | cons z zs => simp
  have hfstR2 : fst ∈ s₂ :: (b₁ ++ (fst :: mr) ++ b₂) := by simp
  have hlstR2 : b₂.headD s₂ ∈ s₂ :: (b₁ ++ (fst :: mr) ++ b₂) := by
    cases b₂ with
    | nil => simp
    | cons z zs => simp
  have hu₁mem : a₁.getLastD s₁ ∈ s₁ :: (a₁ ++ a₂) := by
    rcases List.mem_cons.mp (getLastD_mem s₁ a₁) with h1 | h1
    · rw [h1]; exact List.mem_cons_self _ _
    · exact List.mem_cons_of_mem _ (List.mem_append.mpr (Or.inl h1))
  have he₂mem : b₁.getLastD s₂ ∈ s₂ :: (b₁ ++ (fst :: mr) ++ b₂) := by
    rcases List.mem_cons.mp (getLastD_mem s₂ b₁) with h1 | h1
    · rw [h1]; exact List.mem_cons_self _ _
    · exact List.mem_cons_of_mem _
        (List.mem_append.mpr (Or.inl (List.mem_append.mpr (Or.inl h1))))
  have hmEmem : mr.getLastD fst ∈ s₂ :: (b₁ ++ (fst :: mr) ++ b₂) :=
    List.mem_cons_of_mem _
      (List.mem_append.mpr (Or.inl (List.mem_append.mpr
        (Or.inr (getLastD_mem fst mr)))))
  have hxr : ∀ x ∈ s₁ :: (a₁ ++ a₂), ∀ y ∈ s₂ :: (b₁ ++ (fst :: mr) ++ b₂),
      x ≠ y := fun x hx y hy he => (hdisj x hx) (he ▸ hy)
  -- chains from the hypotheses
  obtain ⟨hchA₁, hchDA₂⟩ := (chain_split h s₁ s₁ a₁ a₂).mp hr₁.1
  have hchB : chain h s₂ (b₁ ++ fst :: (mr ++ b₂)) s₂ := by
    have := hr₂.1
    rwa [List.append_assoc, List.cons_append] at this
  obtain ⟨hchB₁, hchM'⟩ := (chain_append h s₂ fst s₂ b₁ (mr ++ b₂)).mp hchB
  obtain ⟨hchM, hchDB₂⟩ := (chain_split h fst s₂ mr b₂).mp hchM'
  -- boundary pointers
  have hpu : (h (a₂.headD s₁)).prev = a₁.getLastD s₁ :=
    (chain_last h s₁ (a₂.headD s₁) a₁ hchA₁).2
  have hupos : (h (a₁.getLastD s₁)).next = a₂.headD s₁ :=
    (chain_last h s₁ (a₂.headD s₁) a₁ hchA₁).1
  have hfe : (h fst).prev = b₁.getLastD s₂ := (chain_last h s₂ fst b₁ hchB₁).2
  have hefst : (h (b₁.getLastD s₂)).next = fst := (chain_last h s₂ fst b₁ hchB₁).1
  have hlm : (h (b₂.headD s₂)).prev = mr.getLastD fst :=
    (chain_last h fst (b₂.headD s₂) mr hchM).2
  have hmlst : (h (mr.getLastD fst)).next = b₂.headD s₂ :=
    (chain_last h fst (b₂.headD s₂) mr hchM).1
  -- nct coherence
  have hnp : nct h (a₂.headD s₁) = a₂.headD s₁ :=
    nct_ring h s₁ (a₁ ++ a₂) hr₁ (a₂.headD s₁) hposR1
  have hnf : nct h fst = fst :=
    nct_ring h s₂ (b₁ ++ (fst :: mr) ++ b₂) hr₂ fst hfstR2
  have hnl : nct h (b₂.headD s₂) = b₂.headD s₂ :=
    nct_ring h s₂ (b₁ ++ (fst :: mr) ++ b₂) hr₂ (b₂.headD s₂) hlstR2
  -- the guard
  have hfl : fst ≠ b₂.headD s₂ := by
    intro he
    cases b₂ with
    | nil => exact hs₂m (by rw [← (by simpa using he : fst = s₂)]; simp)
    | cons z zs =>
      exact hmb₂ fst (by simp) (by rw [(by simpa using he : fst = z)]; simp)
  have heval := splice_eval h (a₂.headD s₁) fst (b₂.headD s₂) hnp hnf hnl hfl
  simp only [hpu, hfe, hlm] at heval
  -- abbreviations for readability in the sub-proofs
  have hmr_ne : ∀ x ∈ fst :: mr, x ∉ s₂ :: b₁ := by
    intro x hx hy
    rcases List.mem_cons.mp hy with h1 | h1
    · rcases List.mem_cons.mp hx with h2 | h2
      · exact hs₂m (by rw [← h1, ← h2]; simp)
      · exact hs₂m (by rw [← h1]; exact List.mem_cons_of_mem fst h2)
    · rcases List.mem_cons.mp hx with h2 | h2
      · exact hb₁m x h1 (by rw [h2]; simp)
      · exact hb₁m x h1 (List.mem_cons_of_mem fst h2)
  have hmr_nb₂ : ∀ x ∈ fst :: mr, x ∉ s₂ :: b₂ := by
    intro x hx hy
    rcases List.mem_cons.mp hy with h1 | h1
    · exact hs₂m (h1 ▸ hx)
    · exact hmb₂ x hx h1
  have hb₁_nb₂ : ∀ x ∈ s₂ :: b₁, x ∉ b₂ := by
    intro x hx hy
    rcases List.mem_cons.mp hx with h1 | h1
    · exact (List.nodup_cons.mp hndB₂c).1 (h1 ▸ hy)
    · exact hb₁b₂ x h1 hy
  constructor
  · -- ring 1 gains the range
    refine ⟨?_, ?_⟩
    · refine (chain_split _ s₁ s₁ (a₁ ++ fst :: mr) a₂).mpr ⟨?_, ?_⟩
      · refine (chain_append _ s₁ fst (a₂.headD s₁) a₁ mr).mpr ⟨?_, ?_⟩
        · -- a₁ rewired to end at fst
          refine chain_retarget h _ s₁ (a₂.headD s₁) fst a₁ hchA₁ hndS₁a₁ ?_ ?_ ?_ ?_
          · intro x hx hxu
            have h1 : x ≠ mr.getLastD fst := hxr x (by
                rcases List.mem_cons.mp hx with h1 | h1
                · simp [h1]
                · simp [h1]) _ hmEmem
            have h2 : x ≠ b₁.getLastD s₂ := hxr x (by
                rcases List.mem_cons.mp hx with h1 | h1
                · simp [h1]
                · simp [h1]) _ he₂mem
            rw [(heval x).1, if_neg h1, if_neg h2, if_neg hxu]
          · intro x hx
            have hxR1 : x ∈ s₁ :: (a₁ ++ a₂) := by simp [hx]
            have h1 : x ≠ b₂.headD s₂ := hxr x hxR1 _ hlstR2
            have h2 : x ≠ a₂.headD s₁ := by
              intro he
              cases a₂ with
              | nil =>
                have hxs : x = s₁ := by simpa using he
                exact hs₁a₁ (hxs ▸ hx)
              | cons z zs =>
                exact ha₁a₂ x hx (by rw [(by simpa using he : x = z)]; simp)
            have h3 : x ≠ fst := hxr x hxR1 _ hfstR2
            rw [(heval x).2, if_neg h1, if_neg h2, if_neg h3]
          · have h1 : a₁.getLastD s₁ ≠ mr.getLastD fst :=
              hxr _ hu₁mem _ hmEmem
            have h2 : a₁.getLastD s₁ ≠ b₁.getLastD s₂ :=
              hxr _ hu₁mem _ he₂mem
            rw [(heval _).1, if_neg h1, if_neg h2, if_pos rfl]
          · have h1 : fst ≠ b₂.headD s₂ := hfl
            have h2 : fst ≠ a₂.headD s₁ := fun he => hxr _ hposR1 _ hfstR2 he.symm
            rw [(heval fst).2, if_neg h1, if_neg h2, if_pos rfl]
        · -- the moved range rewired to end at pos
          refine chain_retarget h _ fst (b₂.headD s₂) (a₂.headD s₁) mr hchM
            hndM ?_ ?_ ?_ ?_
          · intro x hx hxm
            have hxM : x ∈ fst :: mr := hx
            have h2 : x ≠ b₁.getLastD s₂ := by
              intro he
              rcases List.mem_cons.mp (getLastD_mem s₂ b₁) with h1 | h1
              · exact hmr_ne x hxM (by rw [he, h1]; simp)
              · exact hmr_ne x hxM (by rw [he]; exact List.mem_cons_of_mem s₂ h1)
            have h3 : x ≠ a₁.getLastD s₁ :=
              fun he => hxr _ hu₁mem _ (by
                rcases List.mem_cons.mp hxM with h4 | h4
                · simp [h4]
                · simp [h4]) he.symm
            rw [(heval x).1, if_neg hxm, if_neg h2, if_neg h3]
          · intro x hx
            have hxM : x ∈ fst :: mr := List.mem_cons_of_mem fst hx
            have h1 : x ≠ b₂.headD s₂ := by
              intro he
              cases b₂ with
              | nil => exact hs₂m ((by simpa using he : x = s₂) ▸ hxM)
              | cons z zs =>
                exact hmb₂ x hxM (by rw [(by simpa using he : x = z)]; simp)
            have h2 : x ≠ a₂.headD s₁ :=
              fun he => hxr _ hposR1 _
                (List.mem_cons_of_mem s₂ (List.mem_append.mpr
                  (Or.inl (List.mem_append.mpr (Or.inr hxM))))) he.symm
            have h3 : x ≠ fst := fun he => (List.nodup_cons.mp hndM).1 (he ▸ hx)
            rw [(heval x).2, if_neg h1, if_neg h2, if_neg h3]
          · rw [(heval (mr.getLastD fst)).1, if_pos rfl]
          · have h1 : a₂.headD s₁ ≠ b₂.headD s₂ := hxr _ hposR1 _ hlstR2
            rw [(heval (a₂.headD s₁)).2, if_neg h1, if_pos rfl]
      · -- the a₂ tail is untouched
        cases a₂ with
        | nil => trivial
        | cons z zs =>
          show chain _ z zs s₁
          have hchZ : chain h z zs s₁ := hchDA₂
          refine chain_frame h _ z s₁ zs ?_ ?_ hchZ
          · intro x hx
            have hxR1 : x ∈ s₁ :: (a₁ ++ z :: zs) :=
              List.mem_cons_of_mem s₁ (List.mem_append.mpr (Or.inr hx))
            have h1 : x ≠ mr.getLastD fst := hxr x hxR1 _ hmEmem
            have h2 : x ≠ b₁.getLastD s₂ := hxr x hxR1 _ he₂mem
            have h3 : x ≠ a₁.getLastD s₁ := by
              intro he
              rcases List.mem_cons.mp (getLastD_mem s₁ a₁) with h4 | h4
              · have hxs : x = s₁ := he.trans h4
                rcases List.mem_cons.mp hx with h5 | h5
                · exact hs₁a₂' (by rw [← hxs, h5]; simp)
                · exact hs₁a₂' (by rw [← hxs]; exact List.mem_cons_of_mem z h5)
              · rcases List.mem_cons.mp hx with h5 | h5
                · exact ha₁a₂ _ (he ▸ h4) (by rw [← h5]; simp)
                · exact ha₁a₂ _ (he ▸ h4) (List.mem_cons_of_mem z h5)
            rw [(heval x).1, if_neg h1, if_neg h2, if_neg h3]
          · intro x hx
            have hxR1 : x ∈ s₁ :: (a₁ ++ z :: zs) := by
              rcases List.mem_append.mp hx with h1 | h1
              · exact List.mem_cons_of_mem s₁
                  (List.mem_append.mpr (Or.inr (List.mem_cons_of_mem z h1)))
              · rw [(by simpa using h1 : x = s₁)]
                exact List.mem_cons_self _ _
            have h1 : x ≠ b₂.headD s₂ := hxr x hxR1 _ hlstR2
            have h2 : x ≠ (z :: zs).headD s₁ := by
              intro he
              have hez : x = z := he
              rcases List.mem_append.mp hx with h1 | h1
              · exact (List.nodup_cons.mp hndA₂).1 (hez ▸ h1)
              · exact hs₁a₂' (by rw [← (by simpa using h1 : x = s₁), hez]; simp)
            have h3 : x ≠ fst := hxr x hxR1 _ hfstR2
            rw [(heval x).2, if_neg h1, if_neg h2, if_neg h3]
    · -- Nodup of the enlarged ring 1
      have hperm : (s₁ :: (a₁ ++ (fst :: mr) ++ a₂)).Perm
          ((fst :: mr) ++ (s₁ :: (a₁ ++ a₂))) := by
        refine List.Perm.trans (List.Perm.cons s₁ ?_) (List.perm_middle.symm)
        refine List.Perm.trans
          ((@List.perm_append_comm _ a₁ (fst :: mr)).append_right a₂) ?_
        rw [List.append_assoc]
      refine hperm.nodup_iff.mpr (List.nodup_append.mpr ⟨hndM, hr₁.2, ?_⟩)
      intro x hxm hxr1
      exact hdisj x hxr1 (List.mem_cons_of_mem s₂
        (List.mem_append.mpr (Or.inl (List.mem_append.mpr (Or.inr hxm)))))
  · -- ring 2 loses the range
    refine ⟨?_, ?_⟩
    · refine (chain_split _ s₂ s₂ b₁ b₂).mpr ⟨?_, ?_⟩
      · refine chain_retarget h _ s₂ fst (b₂.headD s₂) b₁ hchB₁
          (by exact hndA₁) ?_ ?_ ?_ ?_
        · intro x hx hxe
          have h1 : x ≠ mr.getLastD fst := by
            intro he
            exact hmr_ne _ (he ▸ getLastD_mem fst mr) hx
          rw [(heval x).1, if_neg h1, if_neg hxe]
          have h3 : x ≠ a₁.getLastD s₁ := by
            intro he
            refine hxr _ hu₁mem x ?_ he.symm
            rcases List.mem_cons.mp hx with h4 | h4
            · simp [h4]
            · simp [h4]
          rw [if_neg h3]
        · intro x hx
          have h1 : x ≠ b₂.headD s₂ := by
            intro he
            cases b₂ with
            | nil =>
              exact (List.nodup_cons.mp hndA₁).1 ((by simpa using he : x = s₂) ▸ hx)
            | cons z zs =>
              exact hb₁b₂ x hx (by rw [(by simpa using he : x = z)]; simp)
          have h2 : x ≠ a₂.headD s₁ :=
            fun he => hxr _ hposR1 x (List.mem_cons_of_mem s₂
              (List.mem_append.mpr (Or.inl (List.mem_append.mpr (Or.inl hx))))) he.symm
          have h3 : x ≠ fst := fun he => hmr_ne fst (by simp)
            (by rw [← he]; exact List.mem_cons_of_mem s₂ hx)
          rw [(heval x).2, if_neg h1, if_neg h2, if_neg h3]
        · have h1 : b₁.getLastD s₂ ≠ mr.getLastD fst := by
            intro he
            exact hmr_ne _ (he ▸ getLastD_mem fst mr) (getLastD_mem s₂ b₁)
          rw [(heval (b₁.getLastD s₂)).1, if_neg h1, if_pos rfl]
        · rw [(heval (b₂.headD s₂)).2, if_pos rfl]
      · cases b₂ with
        | nil => trivial
        | cons z zs =>
          show chain _ z zs s₂
          have hchZ : chain h z zs s₂ := hchDB₂
          refine chain_frame h _ z s₂ zs ?_ ?_ hchZ
          · intro x hx
            have hxB : x ∈ s₂ :: (z :: zs) := List.mem_cons_of_mem s₂ hx
            have h1 : x ≠ mr.getLastD fst := by
              intro he
              exact hmr_nb₂ _ (he ▸ getLastD_mem fst mr) hxB
            have h2 : x ≠ b₁.getLastD s₂ := by
              intro he
              rcases List.mem_cons.mp (getLastD_mem s₂ b₁) with h4 | h4
              · exact (List.nodup_cons.mp hndB₂c).1 ((he.trans h4) ▸ hx)
              · exact hb₁b₂ _ (he ▸ h4) hx
            have h3 : x ≠ a₁.getLastD s₁ := by
              intro he
              refine hxr _ hu₁mem x ?_ he.symm
              simp [hx]
            rw [(heval x).1, if_neg h1, if_neg h2, if_neg h3]
          · intro x hx
            have hxB : x ∈ s₂ :: (z :: zs) := by
              rcases List.mem_append.mp hx with h1 | h1
              · exact List.mem_cons_of_mem s₂ (List.mem_cons_of_mem z h1)
              · simp [by simpa using h1]
            have h1 : x ≠ (z :: zs).headD s₂ := by
              intro he
              have hez : x = z := he
              rcases List.mem_append.mp hx with h1 | h1
              · exact (List.nodup_cons.mp hndB₂c.of_cons).1 (hez ▸ h1)
              · exact (List.nodup_cons.mp hndB₂c).1
                  (by rw [← (by simpa using h1 : x = s₂), hez]; simp)
            have h2 : x ≠ a₂.headD s₁ := by
              intro he
              refine hxr _ hposR1 x ?_ he.symm
              rcases List.mem_cons.mp hxB with h4 | h4
              · simp [h4]
              · simp [h4]
            have h3 : x ≠ fst := by
              intro he
              exact hmr_nb₂ fst (by simp) (he ▸ hxB)
            rw [(heval x).2, if_neg h1, if_neg h2, if_neg h3]
    · have hsub : (s₂ :: (b₁ ++ b₂)).Sublist
          (s₂ :: (b₁ ++ (fst :: mr) ++ b₂)) := by
        refine List.Sublist.cons₂ s₂ ?_
        rw [List.append_assoc]
        exact List.Sublist.append (List.Sublist.refl b₁)
          (List.sublist_append_right (fst :: mr) b₂)
      exact hsub.nodup hr₂.2

/-- Pointer coherence of the successor link for every node of the ring. -/
theorem ncp_ring (h : Heap) (s : Nat) (l : List Nat) (hr : represents h s l) :
    ∀ x ∈ s :: l, (h (h x).next).prev = x := by
  intro x hx
  rcases List.mem_cons.mp hx with h1 | h1
  · subst h1
    have hh := chain_head h x x l hr.1
    rw [hh.1, hh.2]
  · obtain ⟨t₁, t₂, rfl⟩ := List.append_of_mem h1
    obtain ⟨_, hch₂⟩ := (chain_append h s x s t₁ t₂).mp hr.1
    have hh := chain_head h x s t₂ hch₂
    rw [hh.1, hh.2]

end Intrusive

namespace Signals

open Intrusive

/-- The callback side-effect language: what a slot's body may do to the
signal world when invoked.  `connectNew`/`moveFrom` allocate fresh ids from
the state's counter; a slot's body is `tbl key` for its stored `key`. -/
inductive Act where
  | nop
  | throwErr
  | disconnect (c : Nat)
  | connectNew (key : Nat)
  | moveFrom (src : Nat)
  | moveAssign (dst src : Nat)
  | destroySig
  | emit
deriving DecidableEq, Repr

/-- The connection's `signal *sig` back-reference: default-constructed
(indeterminate), pointing at the signal, or null. -/
inductive CSig where
  | undef
  | ptr
  | nullp
deriving DecidableEq, Repr

/-- One `iteration_token`.  `cur` is the cursor (node id; the sentinel `0`
is `end()`); `nxt` the next-token link of the per-signal stack; `dead` the
signal-destroyed mark (variant A: `sig == nullptr`; variant B:
`destroyed`). -/
structure Token where
  cur : Nat
  nxt : Option Nat
  dead : Bool
deriving DecidableEq, Repr

/-- The single-signal world state.  Node `0` is the sentinel of the
signal's connection list; connection ids are allocated from `fresh`. -/
@[ext]
structure St where
  heap : Heap
  slot : Nat → Option Nat
  csig : Nat → CSig
  tokH : Nat → Token
  topTok : Option Nat
  alive : Bool
  uaf : Bool
  fresh : Nat
  tfresh : Nat

/-- Mark the use-after-free flag when a signal member is accessed after
destruction. -/
def touchSig (s : St) : St := if s.alive then s else { s with uaf := true }

def setTok (s : St) (tid : Nat) (t : Token) : St :=
  { s with tokH := fun j => if j = tid then t else s.tokH j }

/-- Walk the token stack from `start` (bounded by `n`), applying `g` to
every token on it — the shape of the three `for (tok = top_token; ...)`
loops in the source. -/
def tokWalk (g : Token → Token) : (Nat → Token) → Nat → Option Nat → (Nat → Token)
  | tokH, 0, _ => tokH
  | tokH, _ + 1, none => tokH
  | tokH, n + 1, some t =>
    let tokH' := fun j => if j = t then g (tokH t) else tokH j
    tokWalk g tokH' n (tokH' t).nxt

/-- Source: `connection::disconnect`.  Note the source order: `unlink()`
first, then the token-patch loop — so the patch's `++tok->current` reads
the `next` pointer of the already self-linked node.  Variant A additionally
nulls the `sig` back-reference at the end. -/
def discStep (v : Bool) (s : St) (c : Nat) : St :=
  if isLinked s.heap c then
    let h' := unlink s.heap c
    let s₁ : St := { s with
      heap := h'
      slot := fun j => if j = c then none else s.slot j }
    let s₂ := touchSig s₁
    let patched := tokWalk
      (fun t => if t.cur ≠ 0 ∧ t.cur = c then { t with cur := (h' t.cur).next } else t)
      s₂.tokH s₂.tfresh s₂.topTok
    let s₃ := { s₂ with tokH := patched }
    if v then { s₃ with csig := fun j => if j = c then CSig.nullp else s₃.csig j }
    else s₃
  else s

/-- Source: the private `connection(signal*, slot_t)` constructor reached
through `signal::connect` — base-class self-link, field init, then
`push_front`. -/
def connectStep (s : St) (key : Nat) : St × Nat :=
  let id := s.fresh
  let s₁ : St := { s with
    heap := fun j => if j = id then (⟨id, id⟩ : Node) else s.heap j
    csig := fun j => if j = id then CSig.ptr else s.csig j
    slot := fun j => if j = id then some key else s.slot j
    fresh := s.fresh + 1 }
  let s₂ := touchSig s₁
  ({ s₂ with heap := pushFront s₂.heap 0 id }, id)

/-- Source: `connection::safe_move` — insert `dst` before `src`, unlink
`src`, then repoint every token whose cursor is exactly at `src`. -/
def safeMove (s : St) (src dst : Nat) : St :=
  if isLinked s.heap src then
    let s₁ := touchSig s
    let h₂ := unlink (insertAt s₁.heap src dst) src
    let s₂ : St := { s₁ with heap := h₂ }
    let patched := tokWalk
      (fun t => if t.cur ≠ 0 ∧ t.cur = src then { t with cur := dst } else t)
      s₂.tokH s₂.tfresh s₂.topTok
    { s₂ with tokH := patched }
  else s

/-- Source: the move constructor `connection(connection&&)` — the new
object self-links (base default constructor), `sig(other.sig)`,
`slot(other.slot)` (a copy: the source keeps its callback), then
`safe_move`. -/
def moveCtorStep (s : St) (src : Nat) : St × Nat :=
  let dst := s.fresh
  let s₁ : St := { s with
    heap := fun j => if j = dst then (⟨dst, dst⟩ : Node) else s.heap j
    csig := fun j => if j = dst then s.csig src else s.csig j
    slot := fun j => if j = dst then s.slot src else s.slot j
    fresh := s.fresh + 1 }
  (safeMove s₁ src dst, dst)

/-- Source: the move assignment operator — self-assignment guard,
`disconnect()`, field transfer (`slot = std::move(other.slot)`, modelled
as emptying the source), then `safe_move`. -/
def moveAssignStep (v : Bool) (s : St) (dst src : Nat) : St :=
  if dst = src then s
  else
    let s₁ := discStep v s dst
    let s₂ : St := { s₁ with
      csig := fun j => if j = dst then s₁.csig src else s₁.csig j
      slot := fun j => if j = dst then s₁.slot src
                       else if j = src then none else s₁.slot j }
    safeMove s₂ src dst

/-- Variant A destructor body: `while (!connections.empty())` clear the
front connection's slot and sig and unlink it. -/
def clearFrontN : Nat → St → St
  | 0, s => s
  | n + 1, s =>
    if (s.heap 0).next = 0 then s
    else
      let c := (s.heap 0).next
      clearFrontN n { s with
        slot := fun j => if j = c then none else s.slot j
        csig := fun j => if j = c then CSig.nullp else s.csig j
        heap := unlink s.heap c }

/-- Variant B: the member list's destructor (`clear()` = `pop_back` until
empty) — only unlinks, never touching slots. -/
def clearBackN : Nat → St → St
  | 0, s => s
  | n + 1, s =>
    if (s.heap 0).next = 0 then s
    else clearBackN n { s with heap := popBack s.heap 0 }

/-- Source: `signal::~signal` of both variants — mark every token whose
cursor is NOT already at `end()` (the guard from the source), then clear
the connections: variant A unlinks from the front clearing slot and sig,
variant B relies on the member list destructor (unlink only). -/
def destroyStep (v : Bool) (s : St) : St :=
  let marked := tokWalk
    (fun t => if t.cur ≠ 0 then { t with dead := true } else t)
    s.tokH s.tfresh s.topTok
  let s₁ := { s with tokH := marked }
  let s₂ := if v then clearFrontN s₁.fresh s₁ else clearBackN s₁.fresh s₁
  { s₂ with alive := false }

/-- Popping the token: `sig->top_token = tok.next`.  Variant A's token
destructor guards on `sig != nullptr` (`dead`); variant B's explicit
assignments are unconditional. -/
def popStep (v : Bool) (s : St) (tid : Nat) : St :=
  if v then
    (if (s.tokH tid).dead then s
     else { touchSig s with topTok := (s.tokH tid).nxt })
  else { touchSig s with topTok := (s.tokH tid).nxt }

/-- Source: the `iteration_token` constructor — cursor at `begin()`, link
atop the signal's token stack. -/
def pushTok (s : St) : St × Nat :=
  let tid := s.tfresh
  let s₁ := touchSig s
  let s₂ : St := { s₁ with
    tokH := fun j => if j = tid then ⟨(s₁.heap 0).next, s₁.topTok, false⟩ else s₁.tokH j
    topTok := some tid
    tfresh := s.tfresh + 1 }
  (s₂, tid)

/-- Failure outcomes: a callback's failure, invoking an empty
`std::function` (`bad_function_call`), or interpreter fuel exhaustion (a
model artifact, never C++ behaviour). -/
inductive Exc where
  | thrown
  | badCall
  | fuelOut
deriving DecidableEq, Repr

/-- What the interpreter is currently executing. -/
inductive Mode where
  | acts (l : List Act)
  | emitT
  | loopT (tid : Nat)

/-- The interpreter.  `Mode.emitT`/`Mode.loopT` mirror
`signal::operator()`: construct the token, loop `while (tok.current !=
connections.end())`, capture, post-increment the token's cursor, invoke
the captured slot, then check the destroyed mark; pop the token on every
exit path except the destroyed-early-return (per both variants'
source). -/
def run (v : Bool) (tbl : Nat → List Act) : Nat → St → Mode → St × List Nat × Option Exc
  | 0, s, _ => (s, [], some Exc.fuelOut)
  | _ + 1, s, Mode.acts [] => (s, [], none)
  | f + 1, s, Mode.acts (a :: rest) =>
    match a with
    | Act.nop => run v tbl f s (Mode.acts rest)
    | Act.throwErr => (s, [], some Exc.thrown)
    | Act.disconnect c => run v tbl f (discStep v s c) (Mode.acts rest)
    | Act.connectNew k => run v tbl f (connectStep s k).1 (Mode.acts rest)
    | Act.moveFrom src => run v tbl f (moveCtorStep s src).1 (Mode.acts rest)
    | Act.moveAssign dst src => run v tbl f (moveAssignStep v s dst src) (Mode.acts rest)
    | Act.destroySig => run v tbl f (destroyStep v s) (Mode.acts rest)
    | Act.emit =>
      match run v tbl f s Mode.emitT with
      | (s', tr, some e) => (s', tr, some e)
      | (s', tr, none) =>
        match run v tbl f s' (Mode.acts rest) with
        | (s'', tr', e') => (s'', tr ++ tr', e')
  | f + 1, s, Mode.emitT =>
    let p := pushTok s
    run v tbl f p.1 (Mode.loopT p.2)
  | f + 1, s, Mode.loopT tid =>
    let s₀ := touchSig s
    let t := s₀.tokH tid
    if t.cur = 0 then
      (popStep v s₀ tid, [], none)
    else
      let copy := t.cur
      let s₁ := setTok s₀ tid { t with cur := (s₀.heap copy).next }
      match s₁.slot copy with
      | none => (popStep v s₁ tid, [], some Exc.badCall)
      | some k =>
        match run v tbl f s₁ (Mode.acts (tbl k)) with
        | (s₂, tr, some e) => (popStep v s₂ tid, copy :: tr, some e)
        | (s₂, tr, none) =>
          if (s₂.tokH tid).dead then
            (s₂, copy :: tr, none)
          else
            match run v tbl f s₂ (Mode.loopT tid) with
            | (s₃, tr', e') => (s₃, copy :: tr ++ tr', e')

/-! ### Basic stepping lemmas -/

theorem touchSig_alive (s : St) (h : s.alive = true) : touchSig s = s := by
  simp [touchSig, h]

theorem setTok_self (s : St) (tid : Nat) : setTok s tid (s.tokH tid) = s := by
  unfold setTok
  ext <;> simp_all

theorem setTok_setTok (s : St) (tid : Nat) (t₁ t₂ : Token) :
    setTok (setTok s tid t₁) tid t₂ = setTok s tid t₂ := by
  unfold setTok
  ext <;> simp_all

@[simp] theorem setTok_tokH_same (s : St) (tid : Nat) (t : Token) :
    (setTok s tid t).tokH tid = t := by
  simp [setTok]

/-- Walking a one-token stack just applies the update to that token. -/
theorem tokWalk_one (g : Token → Token) (tokH : Nat → Token) (n t : Nat)
    (hnxt : (g (tokH t)).nxt = none) :
    tokWalk g tokH (n + 1) (some t) =
      fun j => if j = t then g (tokH t) else tokH j := by
  show tokWalk g (fun j => if j = t then g (tokH t) else tokH j) n
      ((if t = t then g (tokH t) else tokH t).nxt) = _
  rw [if_pos rfl, hnxt]
  cases n <;> rfl

/-- Traversal of `l` by `next` pointers starting from value `a`, ending at
value `b`. -/
def nexts (h : Heap) : Nat → List Nat → Nat → Prop
  | a, [], b => a = b
  | a, x :: xs, b => a = x ∧ nexts h ((h x).next) xs b

theorem chain_nexts (h : Heap) (a b : Nat) (l : List Nat) :
    chain h a l b → nexts h ((h a).next) l b := by
  induction l generalizing a with
  | nil => intro ⟨h1, _⟩; exact h1
  | cons x xs ih => intro ⟨h1, _, h3⟩; exact ⟨h1, ih x h3⟩

/-- One iteration of the emission loop over a connection with an empty
(`nop`) program. -/
theorem run_loop_nop (v : Bool) (tbl : Nat → List Act) (f : Nat) (s : St)
    (tid x k : Nat)
    (halive : s.alive = true)
    (hcur : (s.tokH tid).cur = x) (hx0 : x ≠ 0)
    (hslot : s.slot x = some k) (htbl : tbl k = [])
    (hdead : (s.tokH tid).dead = false)
    (hf : 1 ≤ f) :
    run v tbl (f + 1) s (Mode.loopT tid) =
      ((run v tbl f
          (setTok s tid ⟨(s.heap x).next, (s.tokH tid).nxt, (s.tokH tid).dead⟩)
          (Mode.loopT tid)).1,
       x :: (run v tbl f
          (setTok s tid ⟨(s.heap x).next, (s.tokH tid).nxt, (s.tokH tid).dead⟩)
          (Mode.loopT tid)).2.1,
       (run v tbl f
          (setTok s tid ⟨(s.heap x).next, (s.tokH tid).nxt, (s.tokH tid).dead⟩)
          (Mode.loopT tid)).2.2) := by
  obtain ⟨f, rfl⟩ : ∃ g, f = g + 1 := ⟨f - 1, by omega⟩
  show (let s₀ := touchSig s
        let t := s₀.tokH tid
        if t.cur = 0 then (popStep v s₀ tid, [], none)
        else
          let copy := t.cur
          let s₁ := setTok s₀ tid { t with cur := (s₀.heap copy).next }
          match s₁.slot copy with
          | none => (popStep v s₁ tid, [], some Exc.badCall)
          | some k =>
            match run v tbl (f + 1) s₁ (Mode.acts (tbl k)) with
            | (s₂, tr, some e) => (popStep v s₂ tid, copy :: tr, some e)
            | (s₂, tr, none) =>
              if (s₂.tokH tid).dead then (s₂, copy :: tr, none)
              else
                match run v tbl (f + 1) s₂ (Mode.loopT tid) with
                | (s₃, tr', e') => (s₃, copy :: tr ++ tr', e')) = _
  rw [touchSig_alive s halive]
  simp only [hcur, if_neg hx0]
  have hsl : (setTok s tid
      ⟨(s.heap x).next, (s.tokH tid).nxt, (s.tokH tid).dead⟩).slot x
      = some k := hslot
  rw [hsl]
  dsimp only
  have hacts : run v tbl (f + 1)
      (setTok s tid ⟨(s.heap x).next, (s.tokH tid).nxt, (s.tokH tid).dead⟩)
      (Mode.acts (tbl k)) =
      (setTok s tid ⟨(s.heap x).next, (s.tokH tid).nxt, (s.tokH tid).dead⟩,
       [], none) := by
    rw [htbl]
    rfl
  rw [hacts]
  dsimp only
  have hdead2 : ((setTok s tid
      ⟨(s.heap x).next, (s.tokH tid).nxt, (s.tokH tid).dead⟩).tokH
      tid).dead = false := by
    rw [setTok_tokH_same]
    exact hdead
  simp only [hdead2, if_false, Bool.false_eq_true]
  rcases hr : run v tbl (f + 1)
      (setTok s tid ⟨(s.heap x).next, (s.tokH tid).nxt, (s.tokH tid).dead⟩)
      (Mode.loopT tid) with ⟨s₃, tr', e'⟩
  simp

/-- Running the emission loop across a segment of connections whose slots
are all `nop` programs: they are invoked in order and only the token's
cursor moves. -/
theorem run_loop_seg (v : Bool) (tbl : Nat → List Act) (seg : List Nat) :
    ∀ (f : Nat) (s : St) (tid tgt : Nat),
      1 ≤ f →
      s.alive = true →
      (s.tokH tid).dead = false →
      nexts s.heap ((s.tokH tid).cur) seg tgt →
      (∀ x ∈ seg, x ≠ 0 ∧ ∃ k, s.slot x = some k ∧ tbl k = []) →
      run v tbl (seg.length + f) s (Mode.loopT tid) =
        ((run v tbl f (setTok s tid ⟨tgt, (s.tokH tid).nxt, false⟩)
            (Mode.loopT tid)).1,
         seg ++ (run v tbl f (setTok s tid ⟨tgt, (s.tokH tid).nxt, false⟩)
            (Mode.loopT tid)).2.1,
         (run v tbl f (setTok s tid ⟨tgt, (s.tokH tid).nxt, false⟩)
            (Mode.loopT tid)).2.2) := by
  induction seg with
  | nil =>
    intro f s tid tgt hf halive hdead hnx _
    have hcur : (s.tokH tid).cur = tgt := hnx
    have hst : setTok s tid ⟨tgt, (s.tokH tid).nxt, false⟩ = s := by
      have ht : (⟨tgt, (s.tokH tid).nxt, false⟩ : Token) = s.tokH tid := by
        cases htk : s.tokH tid with
        | mk c n d =>
          have h1 : c = tgt := by rw [← hcur, htk]
          have h2 : d = false := by rw [← hdead, htk]
          simp [h1, h2, htk]
      rw [ht, setTok_self]
    rw [hst]
    simp
  | cons x xs ih =>
    intro f s tid tgt hf halive hdead hnx hslots
    obtain ⟨hcx, hnx'⟩ := hnx
    obtain ⟨hx0, k, hk, htblk⟩ := hslots x (by simp)
    have hlen : (x :: xs).length + f = (xs.length + f) + 1 := by
      simp [Nat.add_assoc, Nat.add_comm]
    rw [hlen]
    rw [run_loop_nop v tbl (xs.length + f) s tid x k halive
      (hcx ▸ rfl) hx0 hk htblk hdead (by omega)]
    set s₁ := setTok s tid ⟨(s.heap x).next, (s.tokH tid).nxt, (s.tokH tid).dead⟩
      with hs₁def
    have hih := ih f s₁ tid tgt hf halive (by simp [hs₁def, hdead]) ?_ ?_
    · rw [hih]
      have hcomp : setTok s₁ tid ⟨tgt, (s₁.tokH tid).nxt, false⟩
          = setTok s tid ⟨tgt, (s.tokH tid).nxt, false⟩ := by
        rw [hs₁def]
        rw [show ((setTok s tid
            ⟨(s.heap x).next, (s.tokH tid).nxt, (s.tokH tid).dead⟩).tokH tid).nxt
            = (s.tokH tid).nxt from by rw [setTok_tokH_same]]
        exact setTok_setTok s tid _ _
      rw [hcomp]
      simp
    · show nexts s₁.heap ((s₁.tokH tid).cur) xs tgt
      have hh : s₁.heap = s.heap := by rw [hs₁def]; rfl
      have hc : (s₁.tokH tid).cur = (s.heap x).next := by
        rw [hs₁def, setTok_tokH_same]
      rw [hh, hc]
      exact hnx'
    · intro y hy
      obtain ⟨hy0, k', hk', htbl'⟩ := hslots y (by simp [hy])
      exact ⟨hy0, k', hk', htbl'⟩

/-- Exiting the emission loop when the cursor is at `end()`: the token is
popped (`top_token = tok.next`, via the destructor in variant A, the
explicit statement in variant B). -/
theorem run_loop_end (v : Bool) (tbl : Nat → List Act) (f : Nat) (s : St)
    (tid : Nat)
    (halive : s.alive = true)
    (hdead : (s.tokH tid).dead = false)
    (hcur : (s.tokH tid).cur = 0) :
    run v tbl (f + 1) s (Mode.loopT tid) =
      ({ s with topTok := (s.tokH tid).nxt }, [], none) := by
  show (let s₀ := touchSig s
        let t := s₀.tokH tid
        if t.cur = 0 then (popStep v s₀ tid, [], none)
        else _) = _
  rw [touchSig_alive s halive]
  simp only [hcur, if_pos rfl]
  unfold popStep
  rw [touchSig_alive s halive]
  cases v <;> simp [hdead]

/-- Entering an emission: push a fresh token whose cursor is `begin()`. -/
theorem run_emitT (v : Bool) (tbl : Nat → List Act) (f : Nat) (s : St) :
    run v tbl (f + 1) s Mode.emitT =
      run v tbl f (pushTok s).1 (Mode.loopT s.tfresh) := rfl

/-- One iteration of the emission loop with an arbitrary slot program:
capture, advance the token's cursor, invoke, then dispatch on the
program's outcome. -/
theorem run_loop_step (v : Bool) (tbl : Nat → List Act) (f : Nat) (s : St)
    (tid x k : Nat)
    (halive : s.alive = true)
    (hcur : (s.tokH tid).cur = x) (hx0 : x ≠ 0)
    (hslot : s.slot x = some k) :
    run v tbl (f + 1) s (Mode.loopT tid) =
      (match run v tbl f
          (setTok s tid ⟨(s.heap x).next, (s.tokH tid).nxt, (s.tokH tid).dead⟩)
          (Mode.acts (tbl k)) with
       | (s₂, tr, some e) => (popStep v s₂ tid, x :: tr, some e)
       | (s₂, tr, none) =>
         if (s₂.tokH tid).dead then (s₂, x :: tr, none)
         else
           ((run v tbl f s₂ (Mode.loopT tid)).1,
            x :: tr ++ (run v tbl f s₂ (Mode.loopT tid)).2.1,
            (run v tbl f s₂ (Mode.loopT tid)).2.2)) := by
  show (let s₀ := touchSig s
        let t := s₀.tokH tid
        if t.cur = 0 then (popStep v s₀ tid, [], none)
        else
          let copy := t.cur
          let s₁ := setTok s₀ tid { t with cur := (s₀.heap copy).next }
          match s₁.slot copy with
          | none => (popStep v s₁ tid, [], some Exc.badCall)
          | some k =>
            match run v tbl f s₁ (Mode.acts (tbl k)) with
            | (s₂, tr, some e) => (popStep v s₂ tid, copy :: tr, some e)
            | (s₂, tr, none) =>
              if (s₂.tokH tid).dead then (s₂, copy :: tr, none)
              else
                match run v tbl f s₂ (Mode.loopT tid) with
                | (s₃, tr', e') => (s₃, copy :: tr ++ tr', e')) = _
  rw [touchSig_alive s halive]
  simp only [hcur, if_neg hx0]
  have hsl : (setTok s tid
      ⟨(s.heap x).next, (s.tokH tid).nxt, (s.tokH tid).dead⟩).slot x
      = some k := hslot
  rw [hsl]

theorem popStep_eval (v : Bool) (s : St) (tid : Nat)
    (halive : s.alive = true) (hdead : (s.tokH tid).dead = false) :
    popStep v s tid = { s with topTok := (s.tokH tid).nxt } := by
  cases v <;> simp [popStep, touchSig, halive, hdead]

theorem pushTok_eval (s : St) (halive : s.alive = true) :
    (pushTok s).1 = { s with
      tokH := fun j => if j = s.tfresh
        then ⟨(s.heap 0).next, s.topTok, false⟩ else s.tokH j
      topTok := some s.tfresh
      tfresh := s.tfresh + 1 } := by
  simp [pushTok, touchSig_alive s halive]

theorem run_acts_nil (v : Bool) (tbl : Nat → List Act) (f : Nat) (s : St)
    (hf : 1 ≤ f) :
    run v tbl f s (Mode.acts []) = (s, [], none) := by
  obtain ⟨g, rfl⟩ : ∃ g, f = g + 1 := ⟨f - 1, by omega⟩
  rfl

theorem run_acts_throw (v : Bool) (tbl : Nat → List Act) (f : Nat) (s : St)
    (hf : 1 ≤ f) :
    run v tbl f s (Mode.acts [Act.throwErr]) = (s, [], some Exc.thrown) := by
  obtain ⟨g, rfl⟩ : ∃ g, f = g + 1 := ⟨f - 1, by omega⟩
  rfl

theorem run_acts_disc (v : Bool) (tbl : Nat → List Act) (f : Nat) (s : St)
    (c : Nat) (hf : 2 ≤ f) :
    run v tbl f s (Mode.acts [Act.disconnect c]) = (discStep v s c, [], none) := by
  obtain ⟨g, rfl⟩ : ∃ g, f = g + 2 := ⟨f - 2, by omega⟩
  rfl

theorem run_acts_destroy (v : Bool) (tbl : Nat → List Act) (f : Nat) (s : St)
    (hf : 2 ≤ f) :
    run v tbl f s (Mode.acts [Act.destroySig]) = (destroyStep v s, [], none) := by
  obtain ⟨g, rfl⟩ : ∃ g, f = g + 2 := ⟨f - 2, by omega⟩
  rfl

/-- `disconnect` on a linked connection in a single-token state: unlink,
clear the slot, patch the one token (reading the node's `next` pointer
after the unlink, exactly as the source does), and in variant A null the
back-reference. -/
theorem discStep_eval (v : Bool) (s : St) (c tid : Nat)
    (hl : isLinked s.heap c)
    (halive : s.alive = true)
    (htop : s.topTok = some tid)
    (hn : (s.tokH tid).nxt = none)
    (htf : ∃ m, s.tfresh = m + 1) :
    discStep v s c = { s with
      heap := unlink s.heap c
      slot := fun j => if j = c then none else s.slot j
      csig := fun j => if v = true ∧ j = c then CSig.nullp else s.csig j
      tokH := fun j => if j = tid then
          (if (s.tokH tid).cur ≠ 0 ∧ (s.tokH tid).cur = c
           then { s.tokH tid with cur := (unlink s.heap c (s.tokH tid).cur).next }
           else s.tokH tid)
        else s.tokH j } := by
  obtain ⟨m, hm⟩ := htf
  cases s with
  | mk heap slot csig tokH topTok alive uaf fr tf =>
    simp only at halive htop hn hm hl
    subst halive htop hm
    unfold discStep
    rw [if_pos hl]
    simp only [touchSig, if_true]
    rw [tokWalk_one _ _ m tid ?_]
    · cases v with
      | true => ext <;> simp
      | false => ext <;> simp
    · by_cases hc : (tokH tid).cur ≠ 0 ∧ (tokH tid).cur = c
      · simp only [if_pos hc]
        exact hn
      · simp only [if_neg hc]
        exact hn

@[simp] theorem touchSig_heap (s : St) : (touchSig s).heap = s.heap := by
  unfold touchSig; split <;> rfl

@[simp] theorem touchSig_slot (s : St) : (touchSig s).slot = s.slot := by
  unfold touchSig; split <;> rfl

@[simp] theorem touchSig_csig (s : St) : (touchSig s).csig = s.csig := by
  unfold touchSig; split <;> rfl

@[simp] theorem touchSig_tokH (s : St) : (touchSig s).tokH = s.tokH := by
  unfold touchSig; split <;> rfl

@[simp] theorem touchSig_topTok (s : St) : (touchSig s).topTok = s.topTok := by
  unfold touchSig; split <;> rfl

@[simp] theorem touchSig_aliveF (s : St) : (touchSig s).alive = s.alive := by
  unfold touchSig; split <;> rfl

@[simp] theorem touchSig_fresh (s : St) : (touchSig s).fresh = s.fresh := by
  unfold touchSig; split <;> rfl

@[simp] theorem touchSig_tfresh (s : St) : (touchSig s).tfresh = s.tfresh := by
  unfold touchSig; split <;> rfl

/-- Resetting a node outside the ring does not disturb the
representation. -/
theorem repr_reset (h : Heap) (l : List Nat) (id : Nat) (w : Node)
    (hr : represents h 0 l) (hid : ∀ x ∈ 0 :: l, x ≠ id) :
    represents (fun j => if j = id then w else h j) 0 l := by
  refine ⟨?_, hr.2⟩
  refine chain_frame h _ 0 0 l ?_ ?_ hr.1
  · intro x hx
    rw [if_neg (hid x hx)]
  · intro x hx
    have hx' : x ∈ 0 :: l := by
      rcases List.mem_append.mp hx with h1 | h1
      · exact List.mem_cons_of_mem 0 h1
      · rw [(by simpa using h1 : x = 0)]; exact List.mem_cons_self 0 l
    rw [if_neg (hid x hx')]

/-- `connect` places the new connection at the front of the list. -/
theorem connectStep_repr (s : St) (k : Nat) (L : List Nat)
    (hr : represents s.heap 0 L)
    (hfr : ∀ x ∈ 0 :: L, x ≠ s.fresh) :
    represents (connectStep s k).1.heap 0 (s.fresh :: L) ∧
    (connectStep s k).2 = s.fresh := by
  refine ⟨?_, rfl⟩
  show represents (pushFront (touchSig _).heap 0 s.fresh) 0 (s.fresh :: L)
  rw [touchSig_heap]
  exact pushFront_repr _ 0 s.fresh L
    (repr_reset s.heap L s.fresh ⟨s.fresh, s.fresh⟩ hr hfr)
    (fun hc => (hfr s.fresh hc) rfl)

/-- The final state of a clean emission over the nop segment `L`. -/
theorem run_emit_nops (v : Bool) (tbl : Nat → List Act) (s : St) (L : List Nat)
    (hr : represents s.heap 0 L)
    (halive : s.alive = true)
    (htop : s.topTok = none)
    (hslots : ∀ x ∈ L, ∃ k, s.slot x = some k ∧ tbl k = []) :
    run v tbl (L.length + 2) s Mode.emitT =
      ({ setTok (pushTok s).1 s.tfresh ⟨0, none, false⟩ with topTok := none },
       L, none) := by
  have hrun : run v tbl (L.length + 2) s Mode.emitT
      = run v tbl (L.length + 1) (pushTok s).1 (Mode.loopT s.tfresh) := by
    rw [show L.length + 2 = (L.length + 1) + 1 from rfl]
    exact run_emitT v tbl (L.length + 1) s
  rw [hrun]
  have hp := pushTok_eval s halive
  have htid : ((pushTok s).1.tokH s.tfresh) = ⟨(s.heap 0).next, s.topTok, false⟩ := by
    rw [hp]; simp
  have halive' : (pushTok s).1.alive = true := by rw [hp]; exact halive
  have hdead' : ((pushTok s).1.tokH s.tfresh).dead = false := by rw [htid]
  have hwalk : nexts (pushTok s).1.heap (((pushTok s).1.tokH s.tfresh).cur) L 0 := by
    rw [htid]
    have hh : (pushTok s).1.heap = s.heap := by rw [hp]
    rw [hh]
    exact chain_nexts s.heap 0 0 L hr.1
  have hslots' : ∀ x ∈ L, x ≠ 0 ∧ ∃ k, (pushTok s).1.slot x = some k ∧ tbl k = [] := by
    intro x hx
    refine ⟨?_, ?_⟩
    · intro he
      exact (List.nodup_cons.mp hr.2).1 (he ▸ hx)
    · have hs : (pushTok s).1.slot = s.slot := by rw [hp]
      rw [hs]
      exact hslots x hx
  rw [run_loop_seg v tbl L 1 (pushTok s).1 s.tfresh 0 (by omega) halive' hdead'
    hwalk hslots']
  have hnxt : ((pushTok s).1.tokH s.tfresh).nxt = none := by rw [htid, ← htop]
  rw [hnxt]
  have hend := run_loop_end v tbl 0
    (setTok (pushTok s).1 s.tfresh ⟨0, none, false⟩) s.tfresh
    (by simp [setTok, halive']) (by simp) (by simp)
  rw [show (0 : Nat) + 1 = 1 from rfl] at hend
  rw [hend]
  simp [setTok]

instance chainDecidable (h : Heap) :
    (a : Nat) → (l : List Nat) → (b : Nat) → Decidable (chain h a l b)
  | _, [], _ => inferInstanceAs (Decidable (_ ∧ _))
  | _, x :: xs, b =>
    have := chainDecidable h x xs b
    inferInstanceAs (Decidable (_ ∧ _ ∧ _))

instance (h : Heap) (s : Nat) (l : List Nat) : Decidable (represents h s l) :=
  inferInstanceAs (Decidable (_ ∧ _))

/-- A concrete ring holding `l` in traversal order (sentinel `0`). -/
def mkRing (l : List Nat) : Heap :=
  l.foldl (fun h c => pushBack h 0 c) (fun i => ⟨i, i⟩)

/-- A concrete single-signal state with connections `l` and slot table
`slots`, no emission in flight. -/
def baseSt (l : List Nat) (slots : Nat → Option Nat) : St :=
  { heap := mkRing l
    slot := slots
    csig := fun _ => CSig.ptr
    tokH := fun _ => ⟨0, none, false⟩
    topTok := none
    alive := true
    uaf := false
    fresh := 50
    tfresh := 0 }

/-- Reaching a designated position: emission runs the nop-slot segment
`l₁` and continues from the token now parked at `tgt`. -/
theorem run_emit_seg (v : Bool) (tbl : Nat → List Act) (s : St)
    (l₁ : List Nat) (tgt g : Nat)
    (halive : s.alive = true)
    (htop : s.topTok = none)
    (hnx : nexts s.heap ((s.heap 0).next) l₁ tgt)
    (hslots : ∀ x ∈ l₁, x ≠ 0 ∧ ∃ k, s.slot x = some k ∧ tbl k = []) :
    run v tbl (l₁.length + g + 2) s Mode.emitT =
      ((run v tbl (g + 1)
          (setTok (pushTok s).1 s.tfresh ⟨tgt, none, false⟩)
          (Mode.loopT s.tfresh)).1,
       l₁ ++ (run v tbl (g + 1)
          (setTok (pushTok s).1 s.tfresh ⟨tgt, none, false⟩)
          (Mode.loopT s.tfresh)).2.1,
       (run v tbl (g + 1)
          (setTok (pushTok s).1 s.tfresh ⟨tgt, none, false⟩)
          (Mode.loopT s.tfresh)).2.2) := by
  have hrun : run v tbl (l₁.length + g + 2) s Mode.emitT
      = run v tbl (l₁.length + (g + 1)) (pushTok s).1 (Mode.loopT s.tfresh) := by
    rw [show l₁.length + g + 2 = (l₁.length + (g + 1)) + 1 from by omega]
    exact run_emitT v tbl _ s
  rw [hrun]
  have hp := pushTok_eval s halive
  have htid : ((pushTok s).1.tokH s.tfresh) = ⟨(s.heap 0).next, s.topTok, false⟩ := by
    rw [hp]; simp
  have halive' : (pushTok s).1.alive = true := by rw [hp]; exact halive
  have hdead' : ((pushTok s).1.tokH s.tfresh).dead = false := by rw [htid]
  have hwalk : nexts (pushTok s).1.heap (((pushTok s).1.tokH s.tfresh).cur) l₁ tgt := by
    rw [htid]
    have hh : (pushTok s).1.heap = s.heap := by rw [hp]
    rw [hh]
    exact hnx
  have hslots' : ∀ x ∈ l₁, x ≠ 0 ∧ ∃ k, (pushTok s).1.slot x = some k ∧ tbl k = [] := by
    intro x hx
    have hs : (pushTok s).1.slot = s.slot := by rw [hp]
    rw [hs]
    exact hslots x hx
  rw [run_loop_seg v tbl l₁ (g + 1) (pushTok s).1 s.tfresh tgt (by omega) halive'
    hdead' hwalk hslots']
  have hnxt : ((pushTok s).1.tokH s.tfresh).nxt = none := by rw [htid, ← htop]
  rw [hnxt]

/-- Claim C7: emission invokes exactly the currently-linked callbacks,
each once, in list order — most-recently-connected first, because
`connect` links the new connection at the front of the signal's list —
and emission on a signal with zero connections is a no-op that returns
normally. -/
theorem C7_emission_order (v : Bool) (tbl : Nat → List Act) (s : St)
    (L : List Nat)
    (hr : represents s.heap 0 L)
    (halive : s.alive = true)
    (htop : s.topTok = none)
    (hslots : ∀ x ∈ L, ∃ k, s.slot x = some k ∧ tbl k = []) :
    ((run v tbl (L.length + 2) s Mode.emitT).2.1 = L ∧
     (run v tbl (L.length + 2) s Mode.emitT).2.2 = none ∧
     (run v tbl (L.length + 2) s Mode.emitT).1.heap = s.heap ∧
     (run v tbl (L.length + 2) s Mode.emitT).1.slot = s.slot ∧
     (run v tbl (L.length + 2) s Mode.emitT).1.topTok = none ∧
     (run v tbl (L.length + 2) s Mode.emitT).1.uaf = s.uaf) ∧
    (∀ k, (∀ x ∈ 0 :: L, x ≠ s.fresh) →
      represents (connectStep s k).1.heap 0 (s.fresh :: L) ∧
      (connectStep s k).2 = s.fresh) ∧
    (L = [] →
      (run v tbl 2 s Mode.emitT).2.1 = [] ∧
      (run v tbl 2 s Mode.emitT).2.2 = none) := by
  have hres := run_emit_nops v tbl s L hr halive htop hslots
  have htu : (touchSig s).uaf = s.uaf := by rw [touchSig_alive s halive]
  refine ⟨⟨?_, ?_, ?_, ?_, ?_, ?_⟩, ?_, ?_⟩
  · rw [hres]
  · rw [hres]
  · rw [hres]; simp [setTok, pushTok]
  · rw [hres]; simp [setTok, pushTok]
  · rw [hres]
  · rw [hres]; simp [setTok, pushTok, htu]
  · intro k hk
    exact connectStep_repr s k L hr hk
  · intro hL
    subst hL
    rw [show (2 : Nat) = [].length + 2 from rfl]
    exact ⟨by rw [hres], by rw [hres]⟩

/-- The emission loop, parked on connection `c` whose program disconnects
`c` itself: `c` is invoked, disconnected (cursor already advanced, so the
token is untouched), and the remainder `l₂` still runs in order. -/
theorem run_loop_disc (v : Bool) (tbl : Nat → List Act) (s : St)
    (tid c kc : Nat) (l₂ : List Nat)
    (halive : s.alive = true)
    (htop : s.topTok = some tid)
    (htokH : s.tokH tid = ⟨c, none, false⟩)
    (htf : ∃ m, s.tfresh = m + 1)
    (hc0 : c ≠ 0)
    (hslot : s.slot c = some kc)
    (hkc : tbl kc = [Act.disconnect c])
    (hy : (s.heap c).next = l₂.headD 0)
    (hyc : l₂.headD 0 ≠ c)
    (hlinked : isLinked s.heap c)
    (hnx₂ : nexts (unlink s.heap c) (l₂.headD 0) l₂ 0)
    (hsl₂ : ∀ x ∈ l₂, x ≠ 0 ∧ x ≠ c ∧ ∃ k, s.slot x = some k ∧ tbl k = []) :
    (run v tbl (l₂.length + 2 + 1) s (Mode.loopT tid)).2.1 = c :: l₂ ∧
    (run v tbl (l₂.length + 2 + 1) s (Mode.loopT tid)).2.2 = none ∧
    (run v tbl (l₂.length + 2 + 1) s (Mode.loopT tid)).1.heap = unlink s.heap c ∧
    (run v tbl (l₂.length + 2 + 1) s (Mode.loopT tid)).1.slot
      = (fun j => if j = c then none else s.slot j) ∧
    (run v tbl (l₂.length + 2 + 1) s (Mode.loopT tid)).1.topTok = none ∧
    (run v tbl (l₂.length + 2 + 1) s (Mode.loopT tid)).1.uaf = s.uaf := by
  have hstep := run_loop_step v tbl (l₂.length + 2) s tid c kc halive
    (by rw [htokH]) hc0 hslot
  rw [show (⟨(s.heap c).next, (s.tokH tid).nxt, (s.tokH tid).dead⟩ : Token)
      = ⟨l₂.headD 0, none, false⟩ from by rw [hy, htokH]] at hstep
  have hacts : run v tbl (l₂.length + 2)
      (setTok s tid ⟨l₂.headD 0, none, false⟩) (Mode.acts (tbl kc))
      = (discStep v (setTok s tid ⟨l₂.headD 0, none, false⟩) c, [], none) := by
    rw [hkc]
    exact run_acts_disc v tbl _ _ c (by omega)
  rw [hacts] at hstep
  dsimp only at hstep
  have hBtokH : (setTok s tid ⟨l₂.headD 0, none, false⟩).tokH tid
      = ⟨l₂.headD 0, none, false⟩ := setTok_tokH_same s tid _
  have hdiscs := discStep_eval v (setTok s tid ⟨l₂.headD 0, none, false⟩) c tid
    hlinked halive htop (by rw [hBtokH]) htf
  have hcondC : ¬(((setTok s tid (⟨l₂.headD 0, none, false⟩ : Token)).tokH tid).cur ≠ 0 ∧
      ((setTok s tid (⟨l₂.headD 0, none, false⟩ : Token)).tokH tid).cur = c) := by
    rw [hBtokH]
    exact fun hh => hyc hh.2
  have hCtokH : (discStep v (setTok s tid ⟨l₂.headD 0, none, false⟩) c).tokH tid
      = ⟨l₂.headD 0, none, false⟩ := by
    rw [hdiscs]
    show (if tid = tid then _ else _) = _
    rw [if_pos rfl, if_neg hcondC]
    exact hBtokH
  have hCdead : ((discStep v (setTok s tid ⟨l₂.headD 0, none, false⟩) c).tokH
      tid).dead = false := by rw [hCtokH]
  have hCnxt : ((discStep v (setTok s tid ⟨l₂.headD 0, none, false⟩) c).tokH
      tid).nxt = none := by rw [hCtokH]
  have hCheap : (discStep v (setTok s tid ⟨l₂.headD 0, none, false⟩) c).heap
      = unlink s.heap c := by rw [hdiscs]; rfl
  have hCslot : (discStep v (setTok s tid ⟨l₂.headD 0, none, false⟩) c).slot
      = (fun j => if j = c then none else s.slot j) := by rw [hdiscs]; rfl
  have hCtop : (discStep v (setTok s tid ⟨l₂.headD 0, none, false⟩) c).topTok
      = some tid := by rw [hdiscs]; exact htop
  have hCalive : (discStep v (setTok s tid ⟨l₂.headD 0, none, false⟩) c).alive
      = true := by rw [hdiscs]; exact halive
  have hCuaf : (discStep v (setTok s tid ⟨l₂.headD 0, none, false⟩) c).uaf
      = s.uaf := by rw [hdiscs]; rfl
  simp only [hCdead, Bool.false_eq_true, if_false] at hstep
  have hsegl₂ := run_loop_seg v tbl l₂ 2
    (discStep v (setTok s tid ⟨l₂.headD 0, none, false⟩) c) tid 0
    (by omega) hCalive hCdead
    (by rw [hCheap, hCtokH]; exact hnx₂)
    (by
      intro x hx
      obtain ⟨hx0, hxc, k, hk1, hk2⟩ := hsl₂ x hx
      refine ⟨hx0, k, ?_, hk2⟩
      rw [hCslot]
      show (if x = c then none else s.slot x) = some k
      rw [if_neg hxc]
      exact hk1)
  rw [hCnxt] at hsegl₂
  have hDtokH := setTok_tokH_same
    (discStep v (setTok s tid ⟨l₂.headD 0, none, false⟩) c) tid
    (⟨0, none, false⟩ : Token)
  have hend := run_loop_end v tbl 1
    (setTok (discStep v (setTok s tid ⟨l₂.headD 0, none, false⟩) c) tid
      ⟨0, none, false⟩) tid hCalive (by rw [hDtokH]) (by rw [hDtokH])
  have hDnxt : ((setTok (discStep v (setTok s tid ⟨l₂.headD 0, none, false⟩) c)
      tid (⟨0, none, false⟩ : Token)).tokH tid).nxt = none := by rw [hDtokH]
  rw [hDnxt] at hend
  rw [show (1 : Nat) + 1 = 2 from rfl] at hend
  rw [hend] at hsegl₂
  rw [hsegl₂] at hstep
  refine ⟨?_, ?_, ?_, ?_, ?_, ?_⟩ <;> rw [hstep]
  · show [c] ++ (l₂ ++ []) = c :: l₂
    simp
  · exact hCheap
  · exact hCslot
  · exact hCuaf

/-- Claim C3: during emission the token's cursor is advanced past the
current connection before its callback is invoked, so a callback that
disconnects its own connection `c` does not cause `c` to be revisited:
the emission trace is exactly `l₁ ++ c :: l₂` (every other connection
exactly once, original order), the emission finishes normally, and
afterwards the list represents `l₁ ++ l₂` with `c`'s slot cleared. -/
theorem C3_self_disconnect (v : Bool) (tbl : Nat → List Act) (s : St)
    (l₁ l₂ : List Nat) (c kc N : Nat)
    (hr : represents s.heap 0 (l₁ ++ c :: l₂))
    (halive : s.alive = true)
    (htop : s.topTok = none)
    (hslots : ∀ x ∈ l₁ ++ l₂, ∃ k, s.slot x = some k ∧ tbl k = [])
    (hc : s.slot c = some kc)
    (hkc : tbl kc = [Act.disconnect c])
    (hN : N = l₁.length + l₂.length + 4) :
    (run v tbl N s Mode.emitT).2.1 = l₁ ++ c :: l₂ ∧
    (run v tbl N s Mode.emitT).2.2 = none ∧
    represents (run v tbl N s Mode.emitT).1.heap 0 (l₁ ++ l₂) ∧
    (run v tbl N s Mode.emitT).1.slot c = none ∧
    (run v tbl N s Mode.emitT).1.topTok = none ∧
    (run v tbl N s Mode.emitT).1.uaf = s.uaf := by
  subst hN
  obtain ⟨hnd₁, hc1, hc2, hcs, hs1, hs2, hnd₂, hdisj⟩ := ring_facts 0 c l₁ l₂ hr.2
  have hc0 : c ≠ 0 := hcs
  obtain ⟨hch₁, hch₂⟩ := (chain_append s.heap 0 c 0 l₁ l₂).mp hr.1
  have hy : (s.heap c).next = l₂.headD 0 := (chain_head s.heap c 0 l₂ hch₂).1
  have hyc : l₂.headD 0 ≠ c := by
    cases l₂ with
    | nil => exact fun he => hc0 he.symm
    | cons z zs => exact fun he => hc2 (he ▸ List.mem_cons_self z zs)
  have hlinked : isLinked s.heap c := Or.inl (by rw [hy]; exact hyc)
  have hnx₁ : nexts s.heap ((s.heap 0).next) l₁ c := chain_nexts s.heap 0 c l₁ hch₁
  have hsl₁ : ∀ x ∈ l₁, x ≠ 0 ∧ ∃ k, s.slot x = some k ∧ tbl k = [] := by
    intro x hx
    exact ⟨fun he => hs1 (he ▸ hx), hslots x (List.mem_append.mpr (Or.inl hx))⟩
  have hr' : represents (unlink s.heap c) 0 (l₁ ++ l₂) :=
    unlink_repr s.heap 0 c l₁ l₂ hr
  have hnx₂ : nexts (unlink s.heap c) (l₂.headD 0) l₂ 0 := by
    cases l₂ with
    | nil => rfl
    | cons z zs =>
      obtain ⟨_, hchz⟩ := (chain_append (unlink s.heap c) 0 z 0 l₁ zs).mp hr'.1
      exact ⟨rfl, chain_nexts _ z 0 zs hchz⟩
  have hseg := run_emit_seg v tbl s l₁ c (l₂.length + 2) halive htop hnx₁ hsl₁
  have hp := pushTok_eval s halive
  have hAheap : (setTok (pushTok s).1 s.tfresh ⟨c, none, false⟩).heap = s.heap := by
    rw [hp]; rfl
  have hAslot : (setTok (pushTok s).1 s.tfresh ⟨c, none, false⟩).slot = s.slot := by
    rw [hp]; rfl
  have hAalive : (setTok (pushTok s).1 s.tfresh ⟨c, none, false⟩).alive = true := by
    rw [hp]; exact halive
  have hAtop : (setTok (pushTok s).1 s.tfresh ⟨c, none, false⟩).topTok
      = some s.tfresh := by rw [hp]; rfl
  have hAtf : (setTok (pushTok s).1 s.tfresh ⟨c, none, false⟩).tfresh
      = s.tfresh + 1 := by rw [hp]; rfl
  have hAuaf : (setTok (pushTok s).1 s.tfresh ⟨c, none, false⟩).uaf = s.uaf := by
    rw [hp]; rfl
  have hAtokH : (setTok (pushTok s).1 s.tfresh ⟨c, none, false⟩).tokH s.tfresh
      = ⟨c, none, false⟩ := setTok_tokH_same _ _ _
  obtain ⟨hm1, hm2, hm3, hm4, hm5, hm6⟩ :=
    run_loop_disc v tbl (setTok (pushTok s).1 s.tfresh ⟨c, none, false⟩)
      s.tfresh c kc l₂ hAalive hAtop hAtokH ⟨s.tfresh, hAtf⟩ hc0
      (by rw [hAslot]; exact hc) hkc
      (by rw [hAheap]; exact hy) hyc
      (by rw [hAheap]; exact hlinked)
      (by rw [hAheap]; exact hnx₂)
      (by
        intro x hx
        refine ⟨fun he => hs2 (he ▸ hx), fun he => hc2 (he ▸ hx), ?_⟩
        obtain ⟨k, hk1, hk2⟩ := hslots x (List.mem_append.mpr (Or.inr hx))
        exact ⟨k, by rw [hAslot]; exact hk1, hk2⟩)
  have hheap : (run v tbl (l₂.length + 2 + 1)
      (setTok (pushTok s).1 s.tfresh ⟨c, none, false⟩)
      (Mode.loopT s.tfresh)).1.heap = unlink s.heap c := by
    rw [hm3, hAheap]
  have hslot4 : (run v tbl (l₂.length + 2 + 1)
      (setTok (pushTok s).1 s.tfresh ⟨c, none, false⟩)
      (Mode.loopT s.tfresh)).1.slot c = none := by
    rw [hm4]
    show (if c = c then none
      else (setTok (pushTok s).1 s.tfresh ⟨c, none, false⟩).slot c) = none
    rw [if_pos rfl]
  rw [show l₁.length + l₂.length + 4 = l₁.length + (l₂.length + 2) + 2 from by
    omega, hseg]
  refine ⟨?_, ?_, ?_, ?_, ?_, ?_⟩
  · exact congrArg (fun t => l₁ ++ t) hm1
  · exact hm2
  · exact hheap.symm ▸ hr'
  · exact hslot4
  · exact hm5
  · exact hm6.trans hAuaf

/-- Witness for C3: ring `[1, 2, 3]`, where connection `2`'s callback
disconnects connection `2` itself. -/
theorem C3_self_disconnect_witness :
    (run true (fun k => if k = 1 then [Act.disconnect 2] else []) 6
      (baseSt [1, 2, 3]
        (fun c => if c = 2 then some 1
                  else if c = 1 ∨ c = 3 then some 0 else none))
      Mode.emitT).2.1 = [1, 2, 3] ∧
    represents (run true (fun k => if k = 1 then [Act.disconnect 2] else []) 6
      (baseSt [1, 2, 3]
        (fun c => if c = 2 then some 1
                  else if c = 1 ∨ c = 3 then some 0 else none))
      Mode.emitT).1.heap 0 [1, 3] ∧
    (run true (fun k => if k = 1 then [Act.disconnect 2] else []) 6
      (baseSt [1, 2, 3]
        (fun c => if c = 2 then some 1
                  else if c = 1 ∨ c = 3 then some 0 else none))
      Mode.emitT).1.slot 2 = none := by
  have h := C3_self_disconnect true
    (fun k => if k = 1 then [Act.disconnect 2] else [])
    (baseSt [1, 2, 3]
      (fun c => if c = 2 then some 1
                else if c = 1 ∨ c = 3 then some 0 else none))
    [1] [3] 2 1 6
    (by decide) rfl rfl
    (by intro x hx; fin_cases hx <;> exact ⟨0, rfl, rfl⟩)
    rfl rfl rfl
  exact ⟨h.1, h.2.2.1, h.2.2.2.1⟩

/-- The variant-A destructor sweep touches only `heap`, `slot` and `csig`. -/
theorem clearFrontN_inv (n : Nat) : ∀ s : St,
    (clearFrontN n s).tokH = s.tokH ∧
    (clearFrontN n s).topTok = s.topTok ∧
    (clearFrontN n s).uaf = s.uaf ∧
    (clearFrontN n s).alive = s.alive ∧
    (clearFrontN n s).tfresh = s.tfresh ∧
    (clearFrontN n s).fresh = s.fresh := by
  induction n with
  | zero => intro s; exact ⟨rfl, rfl, rfl, rfl, rfl, rfl⟩
  | succ n ih =>
    intro s
    simp only [clearFrontN]
    by_cases h : (s.heap 0).next = 0
    · rw [if_pos h]
      exact ⟨rfl, rfl, rfl, rfl, rfl, rfl⟩
    · rw [if_neg h]
      exact ih _

/-- The variant-B member-list destructor sweep touches only `heap`. -/
theorem clearBackN_inv (n : Nat) : ∀ s : St,
    (clearBackN n s).tokH = s.tokH ∧
    (clearBackN n s).topTok = s.topTok ∧
    (clearBackN n s).uaf = s.uaf ∧
    (clearBackN n s).alive = s.alive ∧
    (clearBackN n s).tfresh = s.tfresh ∧
    (clearBackN n s).slot = s.slot ∧
    (clearBackN n s).csig = s.csig := by
  induction n with
  | zero => intro s; exact ⟨rfl, rfl, rfl, rfl, rfl, rfl, rfl⟩
  | succ n ih =>
    intro s
    simp only [clearBackN]
    by_cases h : (s.heap 0).next = 0
    · rw [if_pos h]
      exact ⟨rfl, rfl, rfl, rfl, rfl, rfl, rfl⟩
    · rw [if_neg h]
      exact ih _

/-- `signal::~signal`, observable bookkeeping: the token stack is walked
with the end-cursor guard, the signal dies, and neither `uaf` nor the
token-stack head is touched. -/
theorem destroyStep_fields (v : Bool) (s : St) :
    (destroyStep v s).alive = false ∧
    (destroyStep v s).tokH
      = tokWalk (fun t => if t.cur ≠ 0 then { t with dead := true } else t)
          s.tokH s.tfresh s.topTok ∧
    (destroyStep v s).uaf = s.uaf ∧
    (destroyStep v s).topTok = s.topTok := by
  unfold destroyStep
  cases v with
  | false =>
    refine ⟨rfl, ?_, ?_, ?_⟩
    · exact (clearBackN_inv _ _).1
    · exact (clearBackN_inv _ _).2.2.1
    · exact (clearBackN_inv _ _).2.1
  | true =>
    refine ⟨rfl, ?_, ?_, ?_⟩
    · exact (clearFrontN_inv _ _).1
    · exact (clearFrontN_inv _ _).2.2.1
    · exact (clearFrontN_inv _ _).2.1

/-- Claim C5: a failure raised inside a callback propagates out of the
emission, the iteration token is unlinked from the token stack on that
exit path (`top_token` restored to `none`), the unvisited connections
`l₂` are not invoked, and the signal's list and slots are untouched (so
signal and remaining connections stay valid and usable). -/
theorem C5_throw_unwinds (v : Bool) (tbl : Nat → List Act) (s : St)
    (l₁ l₂ : List Nat) (c kc N : Nat)
    (hr : represents s.heap 0 (l₁ ++ c :: l₂))
    (halive : s.alive = true)
    (htop : s.topTok = none)
    (hslots : ∀ x ∈ l₁, ∃ k, s.slot x = some k ∧ tbl k = [])
    (hc : s.slot c = some kc)
    (hkc : tbl kc = [Act.throwErr])
    (hN : N = l₁.length + 3) :
    (run v tbl N s Mode.emitT).2.1 = l₁ ++ [c] ∧
    (run v tbl N s Mode.emitT).2.2 = some Exc.thrown ∧
    (run v tbl N s Mode.emitT).1.heap = s.heap ∧
    (run v tbl N s Mode.emitT).1.slot = s.slot ∧
    (run v tbl N s Mode.emitT).1.topTok = none ∧
    represents (run v tbl N s Mode.emitT).1.heap 0 (l₁ ++ c :: l₂) ∧
    (run v tbl N s Mode.emitT).1.uaf = s.uaf := by
  subst hN
  obtain ⟨hnd₁, hc1, hc2, hcs, hs1, hs2, hnd₂, hdisj⟩ := ring_facts 0 c l₁ l₂ hr.2
  have hc0 : c ≠ 0 := hcs
  obtain ⟨hch₁, _⟩ := (chain_append s.heap 0 c 0 l₁ l₂).mp hr.1
  have hnx₁ : nexts s.heap ((s.heap 0).next) l₁ c := chain_nexts s.heap 0 c l₁ hch₁
  have hsl₁ : ∀ x ∈ l₁, x ≠ 0 ∧ ∃ k, s.slot x = some k ∧ tbl k = [] := by
    intro x hx
    exact ⟨fun he => hs1 (he ▸ hx), hslots x hx⟩
  have hseg := run_emit_seg v tbl s l₁ c 1 halive htop hnx₁ hsl₁
  have hp := pushTok_eval s halive
  have hAheap : (setTok (pushTok s).1 s.tfresh ⟨c, none, false⟩).heap = s.heap := by
    rw [hp]; rfl
  have hAslot : (setTok (pushTok s).1 s.tfresh ⟨c, none, false⟩).slot = s.slot := by
    rw [hp]; rfl
  have hAalive : (setTok (pushTok s).1 s.tfresh ⟨c, none, false⟩).alive = true := by
    rw [hp]; exact halive
  have hAuaf : (setTok (pushTok s).1 s.tfresh ⟨c, none, false⟩).uaf = s.uaf := by
    rw [hp]; rfl
  have hAtokH : (setTok (pushTok s).1 s.tfresh ⟨c, none, false⟩).tokH s.tfresh
      = ⟨c, none, false⟩ := setTok_tokH_same _ _ _
  have hstep := run_loop_step v tbl 1
    (setTok (pushTok s).1 s.tfresh ⟨c, none, false⟩) s.tfresh c kc hAalive
    (by rw [hAtokH]) hc0 (by rw [hAslot]; exact hc)
  have hacts : run v tbl 1
      (setTok (setTok (pushTok s).1 s.tfresh ⟨c, none, false⟩) s.tfresh
        ⟨((setTok (pushTok s).1 s.tfresh ⟨c, none, false⟩).heap c).next,
         ((setTok (pushTok s).1 s.tfresh ⟨c, none, false⟩).tokH s.tfresh).nxt,
         ((setTok (pushTok s).1 s.tfresh ⟨c, none, false⟩).tokH s.tfresh).dead⟩)
      (Mode.acts (tbl kc))
      = (setTok (setTok (pushTok s).1 s.tfresh ⟨c, none, false⟩) s.tfresh
        ⟨((setTok (pushTok s).1 s.tfresh ⟨c, none, false⟩).heap c).next,
         ((setTok (pushTok s).1 s.tfresh ⟨c, none, false⟩).tokH s.tfresh).nxt,
         ((setTok (pushTok s).1 s.tfresh ⟨c, none, false⟩).tokH s.tfresh).dead⟩,
        [], some Exc.thrown) := by
    rw [hkc]
    exact run_acts_throw v tbl 1 _ (by omega)
  rw [hacts] at hstep
  dsimp only at hstep
  have hBdead : ((setTok (setTok (pushTok s).1 s.tfresh ⟨c, none, false⟩) s.tfresh
      ⟨((setTok (pushTok s).1 s.tfresh ⟨c, none, false⟩).heap c).next,
       ((setTok (pushTok s).1 s.tfresh ⟨c, none, false⟩).tokH s.tfresh).nxt,
       ((setTok (pushTok s).1 s.tfresh ⟨c, none, false⟩).tokH s.tfresh).dead⟩).tokH
      s.tfresh).dead = false := by
    rw [setTok_tokH_same, hAtokH]
  have hBnxt : ((setTok (setTok (pushTok s).1 s.tfresh ⟨c, none, false⟩) s.tfresh
      ⟨((setTok (pushTok s).1 s.tfresh ⟨c, none, false⟩).heap c).next,
       ((setTok (pushTok s).1 s.tfresh ⟨c, none, false⟩).tokH s.tfresh).nxt,
       ((setTok (pushTok s).1 s.tfresh ⟨c, none, false⟩).tokH s.tfresh).dead⟩).tokH
      s.tfresh).nxt = none := by
    rw [setTok_tokH_same, hAtokH]
  have hpop := popStep_eval v
    (setTok (setTok (pushTok s).1 s.tfresh ⟨c, none, false⟩) s.tfresh
      ⟨((setTok (pushTok s).1 s.tfresh ⟨c, none, false⟩).heap c).next,
       ((setTok (pushTok s).1 s.tfresh ⟨c, none, false⟩).tokH s.tfresh).nxt,
       ((setTok (pushTok s).1 s.tfresh ⟨c, none, false⟩).tokH s.tfresh).dead⟩)
    s.tfresh hAalive hBdead
  rw [hBnxt] at hpop
  rw [hpop] at hstep
  have hm1 : (run v tbl (1 + 1)
      (setTok (pushTok s).1 s.tfresh ⟨c, none, false⟩)
      (Mode.loopT s.tfresh)).2.1 = [c] := by rw [hstep]
  have hm2 : (run v tbl (1 + 1)
      (setTok (pushTok s).1 s.tfresh ⟨c, none, false⟩)
      (Mode.loopT s.tfresh)).2.2 = some Exc.thrown := by rw [hstep]
  have hmh : (run v tbl (1 + 1)
      (setTok (pushTok s).1 s.tfresh ⟨c, none, false⟩)
      (Mode.loopT s.tfresh)).1.heap = s.heap := by rw [hstep]; exact hAheap
  have hms : (run v tbl (1 + 1)
      (setTok (pushTok s).1 s.tfresh ⟨c, none, false⟩)
      (Mode.loopT s.tfresh)).1.slot = s.slot := by rw [hstep]; exact hAslot
  have hmt : (run v tbl (1 + 1)
      (setTok (pushTok s).1 s.tfresh ⟨c, none, false⟩)
      (Mode.loopT s.tfresh)).1.topTok = none := by rw [hstep]
  have hmu : (run v tbl (1 + 1)
      (setTok (pushTok s).1 s.tfresh ⟨c, none, false⟩)
      (Mode.loopT s.tfresh)).1.uaf = s.uaf := by rw [hstep]; exact hAuaf
  rw [show l₁.length + 3 = l₁.length + 1 + 2 from by omega, hseg]
  refine ⟨congrArg (fun t => l₁ ++ t) hm1, hm2, hmh, hms, hmt, ?_, hmu⟩
  exact hmh.symm ▸ hr

/-- Witness for C5: ring `[1, 2, 3]`, connection `2`'s callback throws. -/
theorem C5_throw_unwinds_witness :
    (run true (fun k => if k = 1 then [Act.throwErr] else []) 4
      (baseSt [1, 2, 3]
        (fun c => if c = 2 then some 1
                  else if c = 1 ∨ c = 3 then some 0 else none))
      Mode.emitT).2.1 = [1, 2] ∧
    (run true (fun k => if k = 1 then [Act.throwErr] else []) 4
      (baseSt [1, 2, 3]
        (fun c => if c = 2 then some 1
                  else if c = 1 ∨ c = 3 then some 0 else none))
      Mode.emitT).2.2 = some Exc.thrown ∧
    (run true (fun k => if k = 1 then [Act.throwErr] else []) 4
      (baseSt [1, 2, 3]
        (fun c => if c = 2 then some 1
                  else if c = 1 ∨ c = 3 then some 0 else none))
      Mode.emitT).1.topTok = none := by
  have h := C5_throw_unwinds true
    (fun k => if k = 1 then [Act.throwErr] else [])
    (baseSt [1, 2, 3]
      (fun c => if c = 2 then some 1
                else if c = 1 ∨ c = 3 then some 0 else none))
    [1] [3] 2 1 4
    (by decide) rfl rfl
    (by intro x hx; fin_cases hx <;> exact ⟨0, rfl, rfl⟩)
    rfl rfl rfl
  exact ⟨h.1, h.2.1, h.2.2.2.2.1⟩

/-- Claim C10: `disconnect()` on an unlinked connection — in particular a
default-constructed one, whose node is self-linked and whose slot and
back-reference were never set — observes `is_linked() == false` and
changes nothing; iterating it any number of times is equally a no-op
(and the destructor only calls `disconnect`). -/
theorem C10_unlinked_disconnect_noop (v : Bool) (s : St) (c : Nat)
    (hnl : ¬ isLinked s.heap c) :
    discStep v s c = s ∧ ∀ n, (fun st => discStep v st c)^[n] s = s := by
  have h1 : discStep v s c = s := by
    unfold discStep
    rw [if_neg hnl]
  exact ⟨h1, fun n => @Function.iterate_fixed St (fun st => discStep v st c) s h1 n⟩

/-- Witness for C10: node `7` is outside the ring (self-linked, as a
default-constructed `list_element` is) and disconnecting it thrice does
nothing. -/
theorem C10_unlinked_disconnect_noop_witness :
    discStep true (baseSt [1] (fun _ => none)) 7 = baseSt [1] (fun _ => none) ∧
    (fun st => discStep true st 7)^[3] (baseSt [1] (fun _ => none))
      = baseSt [1] (fun _ => none) := by
  have h := C10_unlinked_disconnect_noop true (baseSt [1] (fun _ => none)) 7
    (by decide)
  exact ⟨h.1, h.2 3⟩

/-- The variant-A destructor sweep empties the ring, self-links every
former member, clears its slot and nulls its back-reference, and leaves
every other node's pointers, slot and back-reference untouched. -/
theorem clearFrontN_clears (L : List Nat) : ∀ (n : Nat) (s : St),
    represents s.heap 0 L → L.length ≤ n →
    (((clearFrontN n s).heap 0).next = 0 ∧ ((clearFrontN n s).heap 0).prev = 0) ∧
    (∀ x ∈ L, ((clearFrontN n s).heap x).next = x ∧
      ((clearFrontN n s).heap x).prev = x ∧
      (clearFrontN n s).slot x = none ∧
      (clearFrontN n s).csig x = CSig.nullp) ∧
    (∀ x, x ≠ 0 → x ∉ L →
      ((clearFrontN n s).heap x).next = (s.heap x).next ∧
      ((clearFrontN n s).heap x).prev = (s.heap x).prev ∧
      (clearFrontN n s).slot x = s.slot x ∧
      (clearFrontN n s).csig x = s.csig x) := by
  induction L with
  | nil =>
    intro n s hr _
    have h0 : (s.heap 0).next = 0 := hr.1.1
    have hp0 : (s.heap 0).prev = 0 := hr.1.2
    have hid : clearFrontN n s = s := by
      cases n with
      | zero => rfl
      | succ m =>
        simp only [clearFrontN]
        rw [if_pos h0]
    rw [hid]
    exact ⟨⟨h0, hp0⟩, fun x hx => absurd hx (List.not_mem_nil x),
      fun x _ _ => ⟨rfl, rfl, rfl, rfl⟩⟩
  | cons c rest ih =>
    intro n s hr hlen
    obtain ⟨m, rfl⟩ : ∃ m, n = m + 1 := ⟨n - 1, by
      have : 1 ≤ n := le_trans (by simp) hlen
      omega⟩
    have h1 : (s.heap 0).next = c := hr.1.1
    have h2 : (s.heap c).prev = 0 := hr.1.2.1
    have h3 : chain s.heap c rest 0 := hr.1.2.2
    have h0m : (0 : Nat) ∉ c :: rest := (List.nodup_cons.mp hr.2).1
    have hc0 : c ≠ 0 := fun he => h0m (by rw [← he]; exact List.mem_cons_self c rest)
    have hcr : c ∉ rest :=
      (List.nodup_cons.mp (List.nodup_cons.mp hr.2).2).1
    have hy : (s.heap c).next = rest.headD 0 := (chain_head s.heap c 0 rest h3).1
    have hcy : c ≠ rest.headD 0 := by
      cases rest with
      | nil => exact hc0
      | cons z zs => exact fun he => hcr (he ▸ List.mem_cons_self z zs)
    have heval := unlink_eval s.heap c 0 (rest.headD 0) h2 hy hcy
    have hstep : clearFrontN (m + 1) s = clearFrontN m
        { s with
          slot := fun j => if j = c then none else s.slot j
          csig := fun j => if j = c then CSig.nullp else s.csig j
          heap := unlink s.heap c } := by
      show (if (s.heap 0).next = 0 then s
        else clearFrontN m { s with
          slot := fun j => if j = (s.heap 0).next then none else s.slot j
          csig := fun j => if j = (s.heap 0).next then CSig.nullp else s.csig j
          heap := unlink s.heap (s.heap 0).next }) = _
      rw [h1, if_neg hc0]
    have hr' : represents (unlink s.heap c) 0 rest :=
      unlink_repr s.heap 0 c [] rest hr
    have hlen' : rest.length ≤ m := by
      simp only [List.length_cons] at hlen
      omega
    obtain ⟨hE, hM, hF⟩ := ih m
      { s with
        slot := fun j => if j = c then none else s.slot j
        csig := fun j => if j = c then CSig.nullp else s.csig j
        heap := unlink s.heap c } hr' hlen'
    rw [hstep]
    refine ⟨hE, ?_, ?_⟩
    · intro x hx
      rcases List.mem_cons.mp hx with heq | hx'
      · subst heq
        obtain ⟨hfn, hfp, hfs, hfc⟩ := hF x hc0 hcr
        refine ⟨?_, ?_, ?_, ?_⟩
        · rw [hfn]
          show (unlink s.heap x x).next = x
          rw [(heval x).1, if_pos rfl]
        · rw [hfp]
          show (unlink s.heap x x).prev = x
          rw [(heval x).2, if_pos rfl]
        · rw [hfs]
          show (if x = x then none else s.slot x) = none
          rw [if_pos rfl]
        · rw [hfc]
          show (if x = x then CSig.nullp else s.csig x) = CSig.nullp
          rw [if_pos rfl]
      · exact hM x hx'
    · intro x hx0 hxL
      have hxc : x ≠ c := fun he => hxL (he ▸ List.mem_cons_self c rest)
      have hxr : x ∉ rest := fun hm => hxL (List.mem_cons_of_mem c hm)
      have hy_ne : x ≠ rest.headD 0 := by
        cases rest with
        | nil => exact hx0
        | cons z zs => exact fun he => hxr (he ▸ List.mem_cons_self z zs)
      obtain ⟨hfn, hfp, hfs, hfc⟩ := hF x hx0 hxr
      refine ⟨?_, ?_, ?_, ?_⟩
      · rw [hfn]
        show (unlink s.heap c x).next = (s.heap x).next
        rw [(heval x).1, if_neg hxc, if_neg hx0]
      · rw [hfp]
        show (unlink s.heap c x).prev = (s.heap x).prev
        rw [(heval x).2, if_neg hxc, if_neg hy_ne]
      · rw [hfs]
        show (if x = c then none else s.slot x) = s.slot x
        rw [if_neg hxc]
      · rw [hfc]
        show (if x = c then CSig.nullp else s.csig x) = s.csig x
        rw [if_neg hxc]

/-- The variant-B member-list destructor (`pop_back` until empty) empties
the ring and self-links every former member — but, unlike variant A, it
clears no slots (`clearBackN_inv`). -/
theorem clearBackN_clears (L : List Nat) : ∀ (n : Nat) (s : St),
    represents s.heap 0 L → L.length ≤ n →
    (((clearBackN n s).heap 0).next = 0 ∧ ((clearBackN n s).heap 0).prev = 0) ∧
    (∀ x ∈ L, ((clearBackN n s).heap x).next = x ∧
      ((clearBackN n s).heap x).prev = x) ∧
    (∀ x, x ≠ 0 → x ∉ L →
      ((clearBackN n s).heap x).next = (s.heap x).next ∧
      ((clearBackN n s).heap x).prev = (s.heap x).prev) := by
  induction L using List.reverseRecOn with
  | nil =>
    intro n s hr _
    have h0 : (s.heap 0).next = 0 := hr.1.1
    have hp0 : (s.heap 0).prev = 0 := hr.1.2
    have hid : clearBackN n s = s := by
      cases n with
      | zero => rfl
      | succ m =>
        simp only [clearBackN]
        rw [if_pos h0]
    rw [hid]
    exact ⟨⟨h0, hp0⟩, fun x hx => absurd hx (List.not_mem_nil x),
      fun x _ _ => ⟨rfl, rfl⟩⟩
  | append_singleton l u ih =>
    intro n s hr hlen
    have hlen1 : l.length + 1 ≤ n := by simpa using hlen
    obtain ⟨m, rfl⟩ : ∃ m, n = m + 1 := ⟨n - 1, by omega⟩
    obtain ⟨hchl, hun, h0p⟩ := (chain_snoc s.heap 0 u 0 l).mp hr.1
    have h0m : (0 : Nat) ∉ l ++ [u] := (List.nodup_cons.mp hr.2).1
    have hu0 : u ≠ 0 := fun he => h0m (by rw [← he]; simp)
    have hndlu : (l ++ [u]).Nodup := (List.nodup_cons.mp hr.2).2
    have hul : u ∉ l := by
      intro hm
      exact ((List.nodup_append.mp hndlu).2.2 hm) (by simp)
    have hlast := chain_last s.heap 0 u l hchl
    have heval := unlink_eval s.heap u (l.getLastD 0) 0 hlast.2 hun hu0
    have hfirst : (s.heap 0).next ≠ 0 := by
      rw [(chain_head s.heap 0 0 (l ++ [u]) hr.1).1]
      cases l with
      | nil => exact hu0
      | cons z zs =>
        exact fun he => h0m (by
          rw [← he]
          exact List.mem_append_left _ (List.mem_cons_self z zs))
    have hpop : popBack s.heap 0 = unlink s.heap u := by
      unfold popBack
      rw [h0p]
    have hstep : clearBackN (m + 1) s
        = clearBackN m { s with heap := popBack s.heap 0 } := by
      show (if (s.heap 0).next = 0 then s
        else clearBackN m { s with heap := popBack s.heap 0 }) = _
      rw [if_neg hfirst]
    have hr' : represents (unlink s.heap u) 0 l := by
      have := unlink_repr s.heap 0 u l [] hr
      simpa using this
    have hlen' : l.length ≤ m := by omega
    obtain ⟨hE, hM, hF⟩ := ih m { s with heap := popBack s.heap 0 }
      (by show represents (popBack s.heap 0) 0 l; rw [hpop]; exact hr') hlen'
    rw [hstep]
    refine ⟨hE, ?_, ?_⟩
    · intro x hx
      rcases List.mem_append.mp hx with hx' | hx'
      · exact hM x hx'
      · have hxu : x = u := by simpa using hx'
        subst hxu
        have hx0 : x ≠ 0 := hu0
        obtain ⟨hfn, hfp⟩ := hF x hx0 hul
        refine ⟨?_, ?_⟩
        · rw [hfn]
          show (popBack s.heap 0 x).next = x
          rw [hpop, (heval x).1, if_pos rfl]
        · rw [hfp]
          show (popBack s.heap 0 x).prev = x
          rw [hpop, (heval x).2, if_pos rfl]
    · intro x hx0 hxL
      have hxu : x ≠ u := fun he => hxL (by rw [he]; simp)
      have hxl : x ∉ l := fun hm => hxL (List.mem_append_left _ hm)
      have hw_ne : x ≠ l.getLastD 0 := by
        intro he
        have : l.getLastD 0 ∈ 0 :: l := getLastD_mem 0 l
        rcases List.mem_cons.mp this with hz | hz
        · exact hx0 (he.trans hz)
        · exact hxl (he ▸ hz)
      obtain ⟨hfn, hfp⟩ := hF x hx0 hxl
      refine ⟨?_, ?_⟩
      · rw [hfn]
        show (popBack s.heap 0 x).next = (s.heap x).next
        rw [hpop, (heval x).1, if_neg hxu, if_neg hw_ne]
      · rw [hfp]
        show (popBack s.heap 0 x).prev = (s.heap x).prev
        rw [hpop, (heval x).2, if_neg hxu, if_neg hx0]

/-- Along a chain, `node.next.prev == node` for every node with a
successor in the chain. -/
theorem chain_next_prev (h : Heap) : ∀ (l : List Nat) (a b : Nat),
    chain h a l b → ∀ x ∈ a :: l, (h (h x).next).prev = x := by
  intro l
  induction l with
  | nil =>
    intro a b hab x hx
    obtain ⟨h1, h2⟩ := hab
    have hxa : x = a := by simpa using hx
    subst hxa
    rw [h1, h2]
  | cons y ys ih =>
    intro a b hab x hx
    obtain ⟨h1, h2, h3⟩ := hab
    rcases List.mem_cons.mp hx with rfl | hx'
    · rw [h1, h2]
    · exact ih y b h3 x hx'

/-- Along a chain, `node.prev.next == node` for every node with a
predecessor in the chain. -/
theorem chain_prev_next (h : Heap) : ∀ (l : List Nat) (a b : Nat),
    chain h a l b → ∀ x ∈ l ++ [b], (h (h x).prev).next = x := by
  intro l
  induction l with
  | nil =>
    intro a b hab x hx
    obtain ⟨h1, h2⟩ := hab
    have hxb : x = b := by simpa using hx
    subst hxb
    rw [h2, h1]
  | cons y ys ih =>
    intro a b hab x hx
    obtain ⟨h1, h2, h3⟩ := hab
    rcases List.mem_cons.mp (by simpa using hx : x ∈ y :: (ys ++ [b])) with rfl | hx'
    · rw [h2, h1]
    · exact ih y b h3 x hx'

/-- `unlink` leaves the unlinked node self-linked. -/
theorem unlink_unlinks (h : Heap) (c : Nat) (l₁ l₂ : List Nat)
    (hr : represents h 0 (l₁ ++ c :: l₂)) :
    (unlink h c c).next = c ∧ (unlink h c c).prev = c := by
  obtain ⟨hnd₁, hc1, hc2, hcs, hs1, hs2, hnd₂, hdisj⟩ := ring_facts 0 c l₁ l₂ hr.2
  obtain ⟨hch₁, hch₂⟩ := (chain_append h 0 c 0 l₁ l₂).mp hr.1
  have hy : (h c).next = l₂.headD 0 := (chain_head h c 0 l₂ hch₂).1
  have hu : (h c).prev = l₁.getLastD 0 := (chain_last h 0 c l₁ hch₁).2
  have hcy : c ≠ l₂.headD 0 := by
    cases l₂ with
    | nil => exact hcs
    | cons z zs => exact fun he => hc2 (by rw [he]; exact List.mem_cons_self z zs)
  have heval := unlink_eval h c (l₁.getLastD 0) (l₂.headD 0) hu hy hcy
  exact ⟨by rw [(heval c).1, if_pos rfl], by rw [(heval c).2, if_pos rfl]⟩

/-- `is_linked` only reads the node's own pointers. -/
theorem isLinked_congr (h₁ h₂ : Heap) (x : Nat) (he : h₁ x = h₂ x) :
    isLinked h₁ x ↔ isLinked h₂ x := by
  unfold isLinked
  rw [he]

/-- A self-linked node is not linked. -/
theorem self_node_unlinked (h : Heap) (x : Nat) (hx : h x = ⟨x, x⟩) :
    ¬ isLinked h x := by
  intro hl
  rcases hl with hl | hl
  · exact hl (by rw [hx])
  · exact hl (by rw [hx])

/-- `safe_move` of an unlinked source is a no-op (its guard). -/
theorem safeMove_unlinked (s : St) (src dst : Nat)
    (h : ¬ isLinked s.heap src) :
    safeMove s src dst = s := by
  unfold safeMove
  rw [if_neg h]

/-- `connection::safe_move` on a linked source in a single-token state:
insert the destination before the source, unlink the source, repoint the
one token if its cursor sat on the source. -/
theorem safeMove_eval (s : St) (src dst tid : Nat)
    (hl : isLinked s.heap src)
    (halive : s.alive = true)
    (htop : s.topTok = some tid)
    (hn : (s.tokH tid).nxt = none)
    (htf : ∃ m, s.tfresh = m + 1) :
    safeMove s src dst = { s with
      heap := unlink (insertAt s.heap src dst) src
      tokH := fun j => if j = tid then
          (if (s.tokH tid).cur ≠ 0 ∧ (s.tokH tid).cur = src
           then { s.tokH tid with cur := dst } else s.tokH tid)
        else s.tokH j } := by
  obtain ⟨m, hm⟩ := htf
  cases s with
  | mk heap slot csig tokH topTok alive uaf fr tf =>
    simp only at halive htop hn hm hl ⊢
    subst halive htop hm
    unfold safeMove
    rw [if_pos hl]
    simp only [touchSig, if_true]
    rw [tokWalk_one _ _ m tid ?hn]
    case hn =>
      by_cases hc : (tokH tid).cur ≠ 0 ∧ (tokH tid).cur = src
      · simp only [if_pos hc]
        exact hn
      · simp only [if_neg hc]
        exact hn

/-- Full specification of `safe_move` on a linked source: the destination
takes exactly the source's former position, the source ends up unlinked,
slots/back-references/stack are untouched, and the single active token is
repointed iff its cursor sat on the source. -/
theorem safeMove_spec (t : St) (l₁ l₂ : List Nat) (src dst tid : Nat)
    (hr : represents t.heap 0 (l₁ ++ src :: l₂))
    (halive : t.alive = true)
    (htop : t.topTok = some tid)
    (hnxt : (t.tokH tid).nxt = none)
    (htf : ∃ m, t.tfresh = m + 1)
    (hd : dst ∉ 0 :: (l₁ ++ src :: l₂)) :
    represents (safeMove t src dst).heap 0 (l₁ ++ dst :: l₂) ∧
    ¬ isLinked (safeMove t src dst).heap src ∧
    (safeMove t src dst).slot = t.slot ∧
    (safeMove t src dst).csig = t.csig ∧
    (safeMove t src dst).topTok = t.topTok ∧
    (safeMove t src dst).uaf = t.uaf ∧
    (safeMove t src dst).fresh = t.fresh ∧
    ((t.tokH tid).cur = src → ((safeMove t src dst).tokH tid).cur = dst) ∧
    (∀ j, (t.tokH j).cur ≠ src → (safeMove t src dst).tokH j = t.tokH j) := by
  obtain ⟨hnd₁, hc1, hc2, hcs, hs1, hs2, hnd₂, hdisj⟩ :=
    ring_facts 0 src l₁ l₂ hr.2
  obtain ⟨hch₁, hch₂⟩ := (chain_append t.heap 0 src 0 l₁ l₂).mp hr.1
  have hy : (t.heap src).next = l₂.headD 0 := (chain_head t.heap src 0 l₂ hch₂).1
  have hyc : l₂.headD 0 ≠ src := by
    cases l₂ with
    | nil => exact fun he => hcs he.symm
    | cons z zs => exact fun he => hc2 (he ▸ List.mem_cons_self z zs)
  have hlinked : isLinked t.heap src := Or.inl (by rw [hy]; exact hyc)
  have hsm := safeMove_eval t src dst tid hlinked halive htop hnxt htf
  have hr₂ := insertAt_repr t.heap 0 src dst l₁ l₂ hr hd
  have hr₂' : represents (insertAt t.heap src dst) 0
      ((l₁ ++ [dst]) ++ src :: l₂) := by
    simpa [List.append_assoc] using hr₂
  have hr₃ := unlink_repr (insertAt t.heap src dst) 0 src (l₁ ++ [dst]) l₂ hr₂'
  have hrepr : represents (unlink (insertAt t.heap src dst) src) 0
      (l₁ ++ dst :: l₂) := by
    simpa [List.append_assoc] using hr₃
  have hulk := unlink_unlinks (insertAt t.heap src dst) src (l₁ ++ [dst]) l₂ hr₂'
  refine ⟨?_, ?_, ?_, ?_, ?_, ?_, ?_, ?_, ?_⟩
  · rw [hsm]
    exact hrepr
  · rw [hsm]
    intro hl
    rcases hl with hl | hl
    · exact hl hulk.1
    · exact hl hulk.2
  · exact (congrArg St.slot hsm).trans rfl
  · exact (congrArg St.csig hsm).trans rfl
  · exact (congrArg St.topTok hsm).trans rfl
  · exact (congrArg St.uaf hsm).trans rfl
  · exact (congrArg St.fresh hsm).trans rfl
  · intro hcur
    have hP : (safeMove t src dst).tokH tid
        = (if (t.tokH tid).cur ≠ 0 ∧ (t.tokH tid).cur = src
           then { t.tokH tid with cur := dst } else t.tokH tid) := by
      rw [hsm]
      show (if tid = tid then _ else _) = _
      rw [if_pos rfl]
    rw [hP, if_pos ⟨fun h0 => hcs (hcur.symm.trans h0), hcur⟩]
  · intro j hj
    have hPj : (safeMove t src dst).tokH j
        = (if j = tid then
            (if (t.tokH tid).cur ≠ 0 ∧ (t.tokH tid).cur = src
             then { t.tokH tid with cur := dst } else t.tokH tid)
           else t.tokH j) := by
      rw [hsm]
    by_cases hjt : j = tid
    · subst hjt
      rw [hPj, if_pos rfl, if_neg (fun hc => hj hc.2)]
    · rw [hPj, if_neg hjt]

/-- Well-formedness of the per-signal token stack: starting from `top`,
the `nxt` links run exactly through the ids in `stk` and end at `none` —
the shape the source maintains for `top_token`. -/
def stackOk (tokH : Nat → Token) : Option Nat → List Nat → Prop
  | top, [] => top = none
  | top, x :: xs => top = some x ∧ stackOk tokH ((tokH x).nxt) xs

/-- `stackOk` only reads the token map at the stack's members. -/
theorem stackOk_congr (tokH tokH' : Nat → Token) :
    ∀ (stk : List Nat) (top : Option Nat),
      (∀ y ∈ stk, tokH' y = tokH y) →
      stackOk tokH top stk → stackOk tokH' top stk := by
  intro stk
  induction stk with
  | nil =>
    intro top _ h
    exact h
  | cons x xs ih =>
    intro top hagree hok
    obtain ⟨h1, h2⟩ := hok
    refine ⟨h1, ?_⟩
    rw [hagree x (List.mem_cons_self x xs)]
    exact ih ((tokH x).nxt)
      (fun y hy => hagree y (List.mem_cons_of_mem x hy)) h2

/-- Walking a well-formed token stack applies the update to exactly the
stacked tokens and leaves every other token untouched, provided the
update preserves the `nxt` links and the fuel covers the stack. -/
theorem tokWalk_stack (g : Token → Token) (hgn : ∀ t, (g t).nxt = t.nxt) :
    ∀ (stk : List Nat) (tokH : Nat → Token) (top : Option Nat) (n : Nat),
      stackOk tokH top stk → stk.Nodup → stk.length ≤ n →
      tokWalk g tokH n top =
        fun j => if j ∈ stk then g (tokH j) else tokH j := by
  intro stk
  induction stk with
  | nil =>
    intro tokH top n hok _ _
    have htop : top = none := hok
    subst htop
    funext j
    show tokWalk g tokH n none j
      = if j ∈ ([] : List Nat) then g (tokH j) else tokH j
    rw [if_neg (List.not_mem_nil j)]
    cases n with
    | zero => rfl
    | succ k => rfl
  | cons x xs ih =>
    intro tokH top n hok hnd hlen
    obtain ⟨htop, hok'⟩ := hok
    subst htop
    obtain ⟨m, rfl⟩ : ∃ m, n = m + 1 := by
      cases n with
      | zero =>
        exfalso
        simp only [List.length_cons] at hlen
        omega
      | succ k => exact ⟨k, rfl⟩
    have hxnotin : x ∉ xs := (List.nodup_cons.mp hnd).1
    have hlen' : xs.length ≤ m := by
      simp only [List.length_cons] at hlen
      omega
    have hok'' : stackOk (fun i => if i = x then g (tokH x) else tokH i)
        ((tokH x).nxt) xs := by
      refine stackOk_congr tokH (fun i => if i = x then g (tokH x) else tokH i)
        xs ((tokH x).nxt) ?_ hok'
      intro y hy
      have hyx : y ≠ x := fun he => hxnotin (he ▸ hy)
      show (if y = x then g (tokH x) else tokH y) = tokH y
      rw [if_neg hyx]
    show tokWalk g (fun j => if j = x then g (tokH x) else tokH j) m
        ((if x = x then g (tokH x) else tokH x) : Token).nxt = _
    rw [if_pos rfl, hgn (tokH x)]
    rw [ih (fun i => if i = x then g (tokH x) else tokH i) ((tokH x).nxt) m
      hok'' (List.nodup_cons.mp hnd).2 hlen']
    funext j
    show (if j ∈ xs then g (if j = x then g (tokH x) else tokH j)
          else (if j = x then g (tokH x) else tokH j))
        = (if j ∈ x :: xs then g (tokH j) else tokH j)
    by_cases hjx : j = x
    · subst hjx
      rw [if_neg hxnotin, if_pos rfl, if_pos (List.mem_cons_self j xs)]
    · by_cases hjm : j ∈ xs
      · rw [if_pos hjm, if_neg hjx, if_pos (List.mem_cons_of_mem x hjm)]
      · have hnotc : j ∉ x :: xs := by
          intro hc
          rcases List.mem_cons.mp hc with h1 | h1
          · exact hjx h1
          · exact hjm h1
        rw [if_neg hjm, if_neg hjx, if_neg hnotc]

/-- `connection::safe_move` on a linked source with an arbitrary
well-formed token stack `stk`: insert the destination before the source,
unlink the source, and repoint exactly the stacked tokens whose cursor
sat on the source. -/
theorem safeMove_eval_stack (s : St) (src dst : Nat) (stk : List Nat)
    (hl : isLinked s.heap src)
    (halive : s.alive = true)
    (hstk : stackOk s.tokH s.topTok stk)
    (hnd : stk.Nodup)
    (hlen : stk.length ≤ s.tfresh) :
    safeMove s src dst = { s with
      heap := unlink (insertAt s.heap src dst) src
      tokH := fun j => if j ∈ stk then
          (if (s.tokH j).cur ≠ 0 ∧ (s.tokH j).cur = src
           then { s.tokH j with cur := dst } else s.tokH j)
        else s.tokH j } := by
  have hgn : ∀ u : Token,
      ((if u.cur ≠ 0 ∧ u.cur = src then { u with cur := dst } else u)
        : Token).nxt = u.nxt := by
    intro u
    by_cases hc : u.cur ≠ 0 ∧ u.cur = src
    · rw [if_pos hc]
    · rw [if_neg hc]
  cases s with
  | mk heap slot csig tokH topTok alive uaf fr tf =>
    simp only at halive hstk hlen hl ⊢
    subst halive
    unfold safeMove
    rw [if_pos hl]
    simp only [touchSig, if_true]
    rw [tokWalk_stack
      (fun t => if t.cur ≠ 0 ∧ t.cur = src then { t with cur := dst } else t)
      hgn stk tokH topTok tf hstk hnd hlen]

/-- Full specification of `safe_move` on a linked source with an
arbitrary well-formed token stack: the destination takes exactly the
source's former position, the source ends up unlinked, slots are
untouched, every stacked token whose cursor sat on the source is
repointed to the destination, and every other token is unchanged. -/
theorem safeMove_stack (t : St) (l₁ l₂ : List Nat) (src dst : Nat)
    (stk : List Nat)
    (hr : represents t.heap 0 (l₁ ++ src :: l₂))
    (halive : t.alive = true)
    (hstk : stackOk t.tokH t.topTok stk)
    (hnd : stk.Nodup)
    (hlen : stk.length ≤ t.tfresh)
    (hd : dst ∉ 0 :: (l₁ ++ src :: l₂)) :
    represents (safeMove t src dst).heap 0 (l₁ ++ dst :: l₂) ∧
    ¬ isLinked (safeMove t src dst).heap src ∧
    (safeMove t src dst).slot = t.slot ∧
    (∀ j ∈ stk, (t.tokH j).cur = src →
      ((safeMove t src dst).tokH j).cur = dst) ∧
    (∀ j, (t.tokH j).cur ≠ src → (safeMove t src dst).tokH j = t.tokH j) := by
  obtain ⟨hnd₁, hc1, hc2, hcs, hs1, hs2, hnd₂, hdisj⟩ :=
    ring_facts 0 src l₁ l₂ hr.2
  obtain ⟨hch₁, hch₂⟩ := (chain_append t.heap 0 src 0 l₁ l₂).mp hr.1
  have hy : (t.heap src).next = l₂.headD 0 := (chain_head t.heap src 0 l₂ hch₂).1
  have hyc : l₂.headD 0 ≠ src := by
    cases l₂ with
    | nil => exact fun he => hcs he.symm
    | cons z zs => exact fun he => hc2 (he ▸ List.mem_cons_self z zs)
  have hlinked : isLinked t.heap src := Or.inl (by rw [hy]; exact hyc)
  have hsm := safeMove_eval_stack t src dst stk hlinked halive hstk hnd hlen
  have hr₂ := insertAt_repr t.heap 0 src dst l₁ l₂ hr hd
  have hr₂' : represents (insertAt t.heap src dst) 0
      ((l₁ ++ [dst]) ++ src :: l₂) := by
    simpa [List.append_assoc] using hr₂
  have hr₃ := unlink_repr (insertAt t.heap src dst) 0 src (l₁ ++ [dst]) l₂ hr₂'
  have hrepr : represents (unlink (insertAt t.heap src dst) src) 0
      (l₁ ++ dst :: l₂) := by
    simpa [List.append_assoc] using hr₃
  have hulk := unlink_unlinks (insertAt t.heap src dst) src (l₁ ++ [dst]) l₂ hr₂'
  refine ⟨?_, ?_, ?_, ?_, ?_⟩
  · rw [hsm]
    exact hrepr
  · rw [hsm]
    intro hl
    rcases hl with hl | hl
    · exact hl hulk.1
    · exact hl hulk.2
  · exact (congrArg St.slot hsm).trans rfl
  · intro j hj hcur
    have hP : (safeMove t src dst).tokH j
        = (if j ∈ stk then
            (if (t.tokH j).cur ≠ 0 ∧ (t.tokH j).cur = src
             then { t.tokH j with cur := dst } else t.tokH j)
           else t.tokH j) := by
      rw [hsm]
    rw [hP, if_pos hj, if_pos ⟨fun h0 => hcs (hcur.symm.trans h0), hcur⟩]
  · intro j hj
    have hP : (safeMove t src dst).tokH j
        = (if j ∈ stk then
            (if (t.tokH j).cur ≠ 0 ∧ (t.tokH j).cur = src
             then { t.tokH j with cur := dst } else t.tokH j)
           else t.tokH j) := by
      rw [hsm]
    by_cases hjs : j ∈ stk
    · rw [hP, if_pos hjs, if_neg (fun hc => hj hc.2)]
    · rw [hP, if_neg hjs]

/-- Move-constructing from an unlinked connection: the new handle is also
unlinked (the `safe_move` guard fires and the fresh node stays
self-linked). -/
theorem moveCtor_unlinked (s : St) (u : Nat)
    (hu : ¬ isLinked s.heap u) (hud : u ≠ s.fresh) :
    (moveCtorStep s u).2 = s.fresh ∧
    ¬ isLinked (moveCtorStep s u).1.heap s.fresh := by
  have hHu : ((fun j => if j = s.fresh then (⟨s.fresh, s.fresh⟩ : Node)
      else s.heap j) : Heap) u = s.heap u := if_neg hud
  have hnl₁ : ¬ isLinked
      (fun j => if j = s.fresh then (⟨s.fresh, s.fresh⟩ : Node) else s.heap j)
      u :=
    fun hl => hu ((isLinked_congr _ s.heap u hHu).mp hl)
  have hcol : (moveCtorStep s u).1 = ({ s with
      heap := fun j => if j = s.fresh then (⟨s.fresh, s.fresh⟩ : Node) else s.heap j
      csig := fun j => if j = s.fresh then s.csig u else s.csig j
      slot := fun j => if j = s.fresh then s.slot u else s.slot j
      fresh := s.fresh + 1 } : St) :=
    safeMove_unlinked _ u s.fresh hnl₁
  refine ⟨rfl, ?_⟩
  rw [hcol]
  exact self_node_unlinked _ s.fresh (if_pos rfl)

/-- Claim C6 (amended): moving a linked connection `src` — by move
construction or by move assignment onto an unlinked handle — places the
destination at exactly `src`'s former list position (same neighbours,
same order), leaves `src` unlinked, gives the destination the callback,
and repoints every token of an arbitrary well-formed iteration-token
stack whose cursor sat on `src`, leaving all other tokens untouched;
moving an unlinked connection yields an unlinked destination.  Move
assignment also empties the source (`slot = std::move(other.slot)`), so
there the claim's "unlinked and empty" holds in full; but the move
constructor initialises `slot(other.slot)` by copy, so there the
moved-from `src` keeps its callback (see the counterexample) and is NOT
empty. -/
theorem C6_move_semantics (s : St) (l₁ l₂ : List Nat) (src : Nat)
    (stk : List Nat)
    (hr : represents s.heap 0 (l₁ ++ src :: l₂))
    (halive : s.alive = true)
    (hstk : stackOk s.tokH s.topTok stk)
    (hndk : stk.Nodup)
    (hlen : stk.length ≤ s.tfresh)
    (hfr : ∀ x ∈ 0 :: (l₁ ++ src :: l₂), x ≠ s.fresh) :
    ((moveCtorStep s src).2 = s.fresh ∧
     represents (moveCtorStep s src).1.heap 0 (l₁ ++ s.fresh :: l₂) ∧
     ¬ isLinked (moveCtorStep s src).1.heap src ∧
     (moveCtorStep s src).1.slot s.fresh = s.slot src ∧
     (∀ j ∈ stk, (s.tokH j).cur = src →
       ((moveCtorStep s src).1.tokH j).cur = s.fresh) ∧
     (∀ j, (s.tokH j).cur ≠ src →
       (moveCtorStep s src).1.tokH j = s.tokH j) ∧
     (moveCtorStep s src).1.slot src = s.slot src) ∧
    (∀ (v : Bool) (dst : Nat), ¬ isLinked s.heap dst →
      dst ∉ 0 :: (l₁ ++ src :: l₂) →
      represents (moveAssignStep v s dst src).heap 0 (l₁ ++ dst :: l₂) ∧
      ¬ isLinked (moveAssignStep v s dst src).heap src ∧
      (moveAssignStep v s dst src).slot dst = s.slot src ∧
      (moveAssignStep v s dst src).slot src = none ∧
      (∀ j ∈ stk, (s.tokH j).cur = src →
        ((moveAssignStep v s dst src).tokH j).cur = dst) ∧
      (∀ j, (s.tokH j).cur ≠ src →
        (moveAssignStep v s dst src).tokH j = s.tokH j)) ∧
    (∀ u, ¬ isLinked s.heap u → u ≠ s.fresh →
      ¬ isLinked (moveCtorStep s u).1.heap (moveCtorStep s u).2) := by
  refine ⟨?_, ?_, ?_⟩
  · have hsrcd : src ≠ s.fresh := hfr src (by simp)
    have hr₁ : represents ({ s with
        heap := fun j => if j = s.fresh then (⟨s.fresh, s.fresh⟩ : Node)
                         else s.heap j
        csig := fun j => if j = s.fresh then s.csig src else s.csig j
        slot := fun j => if j = s.fresh then s.slot src else s.slot j
        fresh := s.fresh + 1 } : St).heap 0 (l₁ ++ src :: l₂) :=
      repr_reset s.heap (l₁ ++ src :: l₂) s.fresh ⟨s.fresh, s.fresh⟩ hr hfr
    obtain ⟨hm1, hm2, hm3, hm7, hm8⟩ := safeMove_stack
      ({ s with
        heap := fun j => if j = s.fresh then (⟨s.fresh, s.fresh⟩ : Node)
                         else s.heap j
        csig := fun j => if j = s.fresh then s.csig src else s.csig j
        slot := fun j => if j = s.fresh then s.slot src else s.slot j
        fresh := s.fresh + 1 } : St) l₁ l₂ src s.fresh stk
      hr₁ halive hstk hndk hlen (fun hm => hfr s.fresh hm rfl)
    refine ⟨rfl, hm1, hm2, ?_, ?_, ?_, ?_⟩
    · exact (congrFun hm3 s.fresh).trans (if_pos rfl)
    · intro j hj hcur
      exact hm7 j hj hcur
    · intro j hj
      exact hm8 j hj
    · exact (congrFun hm3 src).trans (if_neg hsrcd)
  · intro v dst hdl hdr
    have hds : dst ≠ src := fun he => hdr (by
      rw [he]
      exact List.mem_cons_of_mem 0
        (List.mem_append.mpr (Or.inr (List.mem_cons_self src l₂))))
    have hnoop : discStep v s dst = s := by
      unfold discStep
      rw [if_neg hdl]
    have hstep : moveAssignStep v s dst src
        = safeMove ({ s with
            csig := fun j => if j = dst then s.csig src else s.csig j
            slot := fun j => if j = dst then s.slot src
                             else if j = src then none else s.slot j } : St)
          src dst := by
      unfold moveAssignStep
      rw [if_neg hds, hnoop]
    obtain ⟨hm1, hm2, hm3, hm7, hm8⟩ := safeMove_stack
      ({ s with
          csig := fun j => if j = dst then s.csig src else s.csig j
          slot := fun j => if j = dst then s.slot src
                           else if j = src then none else s.slot j } : St)
      l₁ l₂ src dst stk hr halive hstk hndk hlen hdr
    refine ⟨?_, ?_, ?_, ?_, ?_, ?_⟩
    · rw [hstep]
      exact hm1
    · rw [hstep]
      exact hm2
    · rw [hstep]
      exact (congrFun hm3 dst).trans (if_pos rfl)
    · rw [hstep]
      refine (congrFun hm3 src).trans ?_
      show (if src = dst then s.slot src
            else if src = src then none else s.slot src) = none
      rw [if_neg (fun he => hds he.symm), if_pos rfl]
    · intro j hj hcur
      rw [hstep]
      exact hm7 j hj hcur
    · intro j hj
      rw [hstep]
      exact hm8 j hj
  · intro u hu hud
    have h := moveCtor_unlinked s u hu hud
    rw [h.1]
    exact h.2

/-- A concrete state for exercising C6: ring `[1, 2, 3]`, two stacked
active tokens (ids `0` then `1`) both with their cursor on connection
`2`. -/
def mvSt : St :=
  { baseSt [1, 2, 3] (fun c => if c ≤ 3 then some 0 else none) with
      topTok := some 0
      tokH := fun j => if j = 0 then (⟨2, some 1, false⟩ : Token)
              else (⟨2, none, false⟩ : Token)
      tfresh := 2 }

/-- Witness for C6: on `mvSt`, move construction from `2` yields handle
`50` in `2`'s old position with both stacked tokens repointed; move
assignment onto the unlinked handle `10` puts `10` there, transfers the
callback and empties the source's slot. -/
theorem C6_move_semantics_witness :
    (moveCtorStep mvSt 2).2 = 50 ∧
    represents (moveCtorStep mvSt 2).1.heap 0 [1, 50, 3] ∧
    ((moveCtorStep mvSt 2).1.tokH 0).cur = 50 ∧
    ((moveCtorStep mvSt 2).1.tokH 1).cur = 50 ∧
    (moveCtorStep mvSt 2).1.slot 2 = some 0 ∧
    represents (moveAssignStep true mvSt 10 2).heap 0 [1, 10, 3] ∧
    (moveAssignStep true mvSt 10 2).slot 10 = some 0 ∧
    (moveAssignStep true mvSt 10 2).slot 2 = none ∧
    ((moveAssignStep true mvSt 10 2).tokH 1).cur = 10 := by
  have h := C6_move_semantics mvSt [1] [3] 2 [0, 1]
    (by decide) rfl ⟨rfl, rfl, rfl⟩ (by decide) (by decide)
    (by intro x hx; fin_cases hx <;> decide)
  have ha := h.2.1 true 10 (by decide) (by decide)
  exact ⟨h.1.1, h.1.2.1, h.1.2.2.2.2.1 0 (by decide) rfl,
    h.1.2.2.2.2.1 1 (by decide) rfl, h.1.2.2.2.2.2.2,
    ha.1, ha.2.2.1, ha.2.2.2.1, ha.2.2.2.2.1 1 (by decide) rfl⟩

/-- Counterexample to C6 as stated: the move constructor's
`slot(other.slot)` is a copy, so the moved-from connection `1` is
unlinked afterwards but still holds its callback — not "empty". -/
theorem C6_moved_from_keeps_slot :
    (moveCtorStep (baseSt [1] (fun c => if c = 1 then some 9 else none))
      1).1.slot 1 = some 9 ∧
    ¬ isLinked (moveCtorStep (baseSt [1]
      (fun c => if c = 1 then some 9 else none)) 1).1.heap 1 ∧
    (moveCtorStep (baseSt [1] (fun c => if c = 1 then some 9 else none))
      1).1.slot 50 = some 9 := by
  refine ⟨rfl, ?_, rfl⟩
  decide

/-- Claim C4 (amended): destroying the signal unlinks every remaining
connection in both variants — the ring becomes empty, every former member
is self-linked, and a later `disconnect()` on any of them observes
`is_linked() == false` and is a guaranteed no-op, never touching the
destroyed signal.  But only variant A (`signals.h`) also clears the
callbacks and back-references; variant B (`part_000`), whose destructor
relies on the member list's destructor, keeps the slots (see the
counterexample), so "its callback is cleared" does not hold there. -/
theorem C4_destructor_clears (v : Bool) (s : St) (L : List Nat)
    (hr : represents s.heap 0 L)
    (hlen : L.length ≤ s.fresh) :
    (∀ x ∈ L, ¬ isLinked (destroyStep v s).heap x) ∧
    represents (destroyStep v s).heap 0 [] ∧
    (∀ x ∈ L, discStep v (destroyStep v s) x = destroyStep v s) ∧
    (v = true → ∀ x ∈ L,
      (destroyStep v s).slot x = none ∧
      (destroyStep v s).csig x = CSig.nullp) := by
  cases v with
  | true =>
    obtain ⟨hE, hM, _⟩ := clearFrontN_clears L s.fresh
      { s with tokH := (tokWalk
          (fun t => if t.cur ≠ 0 then { t with dead := true } else t)
          s.tokH s.tfresh s.topTok) } hr hlen
    have hnl : ∀ x ∈ L, ¬ isLinked (destroyStep true s).heap x := by
      intro x hx hl
      obtain ⟨hn, hp, _, _⟩ := hM x hx
      rcases hl with hl | hl
      · exact hl hn
      · exact hl hp
    refine ⟨hnl, ⟨⟨hE.1, hE.2⟩, by simp⟩, ?_, ?_⟩
    · intro x hx
      show (if isLinked (destroyStep true s).heap x then _ else destroyStep true s)
        = destroyStep true s
      rw [if_neg (hnl x hx)]
    · intro _ x hx
      obtain ⟨_, _, hs, hc⟩ := hM x hx
      exact ⟨hs, hc⟩
  | false =>
    obtain ⟨hE, hM, _⟩ := clearBackN_clears L s.fresh
      { s with tokH := (tokWalk
          (fun t => if t.cur ≠ 0 then { t with dead := true } else t)
          s.tokH s.tfresh s.topTok) } hr hlen
    have hnl : ∀ x ∈ L, ¬ isLinked (destroyStep false s).heap x := by
      intro x hx hl
      obtain ⟨hn, hp⟩ := hM x hx
      rcases hl with hl | hl
      · exact hl hn
      · exact hl hp
    refine ⟨hnl, ⟨⟨hE.1, hE.2⟩, by simp⟩, ?_, fun hv => absurd hv (by simp)⟩
    intro x hx
    show (if isLinked (destroyStep false s).heap x then _ else destroyStep false s)
      = destroyStep false s
    rw [if_neg (hnl x hx)]

/-- Witness for C4: destroying a two-connection signal in variant A
unlinks connection `1` and clears its slot; `disconnect` on it afterwards
is a no-op. -/
theorem C4_destructor_clears_witness :
    ¬ isLinked (destroyStep true (baseSt [1, 2]
      (fun c => if c = 1 ∨ c = 2 then some 0 else none))).heap 1 ∧
    (destroyStep true (baseSt [1, 2]
      (fun c => if c = 1 ∨ c = 2 then some 0 else none))).slot 1 = none ∧
    discStep true (destroyStep true (baseSt [1, 2]
        (fun c => if c = 1 ∨ c = 2 then some 0 else none))) 1
      = destroyStep true (baseSt [1, 2]
        (fun c => if c = 1 ∨ c = 2 then some 0 else none)) := by
  have h := C4_destructor_clears true
    (baseSt [1, 2] (fun c => if c = 1 ∨ c = 2 then some 0 else none))
    [1, 2] (by decide) (by decide)
  exact ⟨h.1 1 (by decide), (h.2.2.2 rfl 1 (by decide)).1, h.2.2.1 1 (by decide)⟩

/-- Counterexample to C4 as stated for `part_000`: its destructor never
clears the slots — after destruction the outliving connection `1` is
unlinked but still holds its callback, while variant A clears it. -/
theorem C4_part000_keeps_callbacks :
    (destroyStep false (baseSt [1]
      (fun c => if c = 1 then some 5 else none))).slot 1 = some 5 ∧
    ¬ isLinked (destroyStep false (baseSt [1]
      (fun c => if c = 1 then some 5 else none))).heap 1 ∧
    (destroyStep true (baseSt [1]
      (fun c => if c = 1 then some 5 else none))).slot 1 = none := by
  refine ⟨rfl, ?_, rfl⟩
  decide

/-- Claim C2 (amended): when a callback destroys the signal while the
cursor is not yet at `end()` — i.e. the destroyed callback is not the
last connection, `l₂ ≠ []` — the emission stops immediately after that
callback returns (trace `l₁ ++ [c]`, the connections in `l₂` are never
invoked), control returns normally, and no token-stack bookkeeping
touches the destroyed signal (`uaf` unchanged).  The original claim's
"including while invoking the last connection" fails: see the
counterexample, where the destructor's cursor-at-end guard skips the
token and the token pop then touches the dead signal. -/
theorem C2_destroy_mid_emission (v : Bool) (tbl : Nat → List Act) (s : St)
    (l₁ l₂ : List Nat) (c kc N : Nat)
    (hr : represents s.heap 0 (l₁ ++ c :: l₂))
    (halive : s.alive = true)
    (htop : s.topTok = none)
    (hslots : ∀ x ∈ l₁, ∃ k, s.slot x = some k ∧ tbl k = [])
    (hc : s.slot c = some kc)
    (hkc : tbl kc = [Act.destroySig])
    (hne : l₂ ≠ [])
    (hN : N = l₁.length + 4) :
    (run v tbl N s Mode.emitT).2.1 = l₁ ++ [c] ∧
    (run v tbl N s Mode.emitT).2.2 = none ∧
    (run v tbl N s Mode.emitT).1.alive = false ∧
    (run v tbl N s Mode.emitT).1.uaf = s.uaf := by
  subst hN
  obtain ⟨hnd₁, hc1, hc2, hcs, hs1, hs2, hnd₂, hdisj⟩ := ring_facts 0 c l₁ l₂ hr.2
  have hc0 : c ≠ 0 := hcs
  obtain ⟨hch₁, hch₂⟩ := (chain_append s.heap 0 c 0 l₁ l₂).mp hr.1
  have hy : (s.heap c).next = l₂.headD 0 := (chain_head s.heap c 0 l₂ hch₂).1
  have hy0 : l₂.headD 0 ≠ 0 := by
    cases l₂ with
    | nil => exact absurd rfl hne
    | cons z zs => exact fun he => hs2 (he ▸ List.mem_cons_self z zs)
  have hnx₁ : nexts s.heap ((s.heap 0).next) l₁ c := chain_nexts s.heap 0 c l₁ hch₁
  have hsl₁ : ∀ x ∈ l₁, x ≠ 0 ∧ ∃ k, s.slot x = some k ∧ tbl k = [] := by
    intro x hx
    exact ⟨fun he => hs1 (he ▸ hx), hslots x hx⟩
  have hseg := run_emit_seg v tbl s l₁ c 2 halive htop hnx₁ hsl₁
  have hp := pushTok_eval s halive
  have hAheap : (setTok (pushTok s).1 s.tfresh ⟨c, none, false⟩).heap = s.heap := by
    rw [hp]; rfl
  have hAslot : (setTok (pushTok s).1 s.tfresh ⟨c, none, false⟩).slot = s.slot := by
    rw [hp]; rfl
  have hAalive : (setTok (pushTok s).1 s.tfresh ⟨c, none, false⟩).alive = true := by
    rw [hp]; exact halive
  have hAtop : (setTok (pushTok s).1 s.tfresh ⟨c, none, false⟩).topTok
      = some s.tfresh := by rw [hp]; rfl
  have hAtf : (setTok (pushTok s).1 s.tfresh ⟨c, none, false⟩).tfresh
      = s.tfresh + 1 := by rw [hp]; rfl
  have hAuaf : (setTok (pushTok s).1 s.tfresh ⟨c, none, false⟩).uaf = s.uaf := by
    rw [hp]; rfl
  have hAtokH : (setTok (pushTok s).1 s.tfresh ⟨c, none, false⟩).tokH s.tfresh
      = ⟨c, none, false⟩ := setTok_tokH_same _ _ _
  have hstep := run_loop_step v tbl 2
    (setTok (pushTok s).1 s.tfresh ⟨c, none, false⟩) s.tfresh c kc hAalive
    (by rw [hAtokH]) hc0 (by rw [hAslot]; exact hc)
  rw [show (⟨((setTok (pushTok s).1 s.tfresh ⟨c, none, false⟩).heap c).next,
      ((setTok (pushTok s).1 s.tfresh ⟨c, none, false⟩).tokH s.tfresh).nxt,
      ((setTok (pushTok s).1 s.tfresh ⟨c, none, false⟩).tokH s.tfresh).dead⟩ : Token)
      = ⟨l₂.headD 0, none, false⟩ from by rw [hAheap, hy, hAtokH]] at hstep
  have hacts : run v tbl 2
      (setTok (setTok (pushTok s).1 s.tfresh ⟨c, none, false⟩) s.tfresh
        ⟨l₂.headD 0, none, false⟩) (Mode.acts (tbl kc))
      = (destroyStep v (setTok (setTok (pushTok s).1 s.tfresh ⟨c, none, false⟩)
          s.tfresh ⟨l₂.headD 0, none, false⟩), [], none) := by
    rw [hkc]
    exact run_acts_destroy v tbl 2 _ (by omega)
  rw [hacts] at hstep
  dsimp only at hstep
  have hBtokH : ((setTok (setTok (pushTok s).1 s.tfresh ⟨c, none, false⟩) s.tfresh
      (⟨l₂.headD 0, none, false⟩ : Token)).tokH s.tfresh)
      = ⟨l₂.headD 0, none, false⟩ := setTok_tokH_same _ _ _
  obtain ⟨hda, hdt, hdu, _⟩ := destroyStep_fields v
    (setTok (setTok (pushTok s).1 s.tfresh ⟨c, none, false⟩) s.tfresh
      ⟨l₂.headD 0, none, false⟩)
  rw [show (setTok (setTok (pushTok s).1 s.tfresh ⟨c, none, false⟩) s.tfresh
      (⟨l₂.headD 0, none, false⟩ : Token)).tfresh = s.tfresh + 1 from hAtf] at hdt
  rw [show (setTok (setTok (pushTok s).1 s.tfresh ⟨c, none, false⟩) s.tfresh
      (⟨l₂.headD 0, none, false⟩ : Token)).topTok = some s.tfresh from hAtop] at hdt
  rw [tokWalk_one _ _ s.tfresh s.tfresh
    (by rw [hBtokH]; by_cases hcz : (⟨l₂.headD 0, none, false⟩ : Token).cur ≠ 0
        · rw [if_pos hcz]
        · rw [if_neg hcz])] at hdt
  have hdead : ((destroyStep v (setTok (setTok (pushTok s).1 s.tfresh
      ⟨c, none, false⟩) s.tfresh ⟨l₂.headD 0, none, false⟩)).tokH
      s.tfresh).dead = true := by
    rw [hdt]
    show ((if s.tfresh = s.tfresh then _ else _ : Token)).dead = true
    rw [if_pos rfl, hBtokH]
    show ((if (⟨l₂.headD 0, none, false⟩ : Token).cur ≠ 0 then _ else _ : Token)).dead = true
    rw [if_pos hy0]
  have hfin : run v tbl (2 + 1)
      (setTok (pushTok s).1 s.tfresh ⟨c, none, false⟩) (Mode.loopT s.tfresh)
      = (destroyStep v (setTok (setTok (pushTok s).1 s.tfresh ⟨c, none, false⟩)
          s.tfresh ⟨l₂.headD 0, none, false⟩), [c], none) := by
    rw [hstep, if_pos hdead]
  rw [show l₁.length + 4 = l₁.length + 2 + 2 from by omega, hseg]
  refine ⟨?_, ?_, ?_, ?_⟩
  · exact congrArg (fun t => l₁ ++ t) (by rw [hfin])
  · rw [hfin]
  · show (run v tbl (2 + 1) _ (Mode.loopT s.tfresh)).1.alive = false
    rw [hfin]
    exact hda
  · show (run v tbl (2 + 1) _ (Mode.loopT s.tfresh)).1.uaf = s.uaf
    rw [hfin]
    exact hdu.trans hAuaf

/-- Witness for C2: ring `[1, 2]`, connection `1`'s callback destroys the
signal; connection `2` is never invoked and the dead signal is not
touched. -/
theorem C2_destroy_mid_emission_witness :
    (run true (fun k => if k = 1 then [Act.destroySig] else []) 4
      (baseSt [1, 2]
        (fun c => if c = 1 then some 1 else if c = 2 then some 0 else none))
      Mode.emitT).2.1 = [1] ∧
    (run true (fun k => if k = 1 then [Act.destroySig] else []) 4
      (baseSt [1, 2]
        (fun c => if c = 1 then some 1 else if c = 2 then some 0 else none))
      Mode.emitT).2.2 = none ∧
    (run true (fun k => if k = 1 then [Act.destroySig] else []) 4
      (baseSt [1, 2]
        (fun c => if c = 1 then some 1 else if c = 2 then some 0 else none))
      Mode.emitT).1.uaf = false := by
  have h := C2_destroy_mid_emission true
    (fun k => if k = 1 then [Act.destroySig] else [])
    (baseSt [1, 2]
      (fun c => if c = 1 then some 1 else if c = 2 then some 0 else none))
    [] [2] 1 1 4
    (by decide) rfl rfl
    (by intro x hx; exact absurd hx (List.not_mem_nil x))
    rfl rfl (by decide) rfl
  exact ⟨h.1, h.2.1, h.2.2.2⟩

/-- Counterexample to C2 as stated: destroying the signal while invoking
the LAST connection (cursor already at `end()`).  The destructor's guard
`tok->current != connections.end()` skips the active token, so after the
callback the loop exits normally and the token pop reads the destroyed
signal's `top_token` — in both variants the dead signal is touched
(`uaf`), contradicting "no token-stack bookkeeping on the destroyed
signal is attempted ... without touching the destroyed signal's state". -/
theorem C2_destroy_last_touches_dead :
    (run true (fun k => if k = 0 then [Act.destroySig] else []) 6
      (baseSt [1] (fun c => if c = 1 then some 0 else none))
      Mode.emitT).2.1 = [1] ∧
    (run true (fun k => if k = 0 then [Act.destroySig] else []) 6
      (baseSt [1] (fun c => if c = 1 then some 0 else none))
      Mode.emitT).2.2 = none ∧
    (run true (fun k => if k = 0 then [Act.destroySig] else []) 6
      (baseSt [1] (fun c => if c = 1 then some 0 else none))
      Mode.emitT).1.alive = false ∧
    (run true (fun k => if k = 0 then [Act.destroySig] else []) 6
      (baseSt [1] (fun c => if c = 1 then some 0 else none))
      Mode.emitT).1.uaf = true ∧
    (run false (fun k => if k = 0 then [Act.destroySig] else []) 6
      (baseSt [1] (fun c => if c = 1 then some 0 else none))
      Mode.emitT).1.uaf = true := by
  exact ⟨rfl, rfl, rfl, rfl, rfl⟩

/-- Claim C1 is false in the code: `disconnect` unlinks FIRST and patches
token cursors AFTERWARDS, so `++tok->current` on the already self-linked
node leaves the cursor stuck on the disconnected connection.  With ring
`[1, 2, 3]` and connection `1` disconnecting connection `2` (the next in
line), the emission invokes only `[1]` — connection `3` is skipped too —
and then dies with `bad_function_call` from the cleared slot, in both
variants; the spec's promised behaviour (trace `[1, 3]`, normal return)
does not occur. -/
theorem C1_disconnect_next_bug :
    ∀ v : Bool,
      (run v (fun k => if k = 1 then [Act.disconnect 2] else []) 6
        (baseSt [1, 2, 3]
          (fun c => if c = 1 then some 1
                    else if c = 2 ∨ c = 3 then some 0 else none))
        Mode.emitT).2.1 = [1] ∧
      (run v (fun k => if k = 1 then [Act.disconnect 2] else []) 6
        (baseSt [1, 2, 3]
          (fun c => if c = 1 then some 1
                    else if c = 2 ∨ c = 3 then some 0 else none))
        Mode.emitT).2.2 = some Exc.badCall := by
  intro v
  cases v <;> exact ⟨rfl, rfl⟩

/-- Claim C8: after any sequence of
`push_front`/`push_back`/`pop_front`/`pop_back`/`insert`/`erase`
operations (executed under the list contract), the circular chain is
consistent: it represents the abstract contents, forward traversal from
the sentinel visits exactly the linked entities in order, reverse
traversal visits them in reverse order, `node.next.prev == node` and
`node.prev.next == node` for every linked node (sentinel included), and
`empty()` holds iff `begin() == end()`; moreover `splice` moves a range
between two rings keeping both consistent, and an empty splice range is a
no-op. -/
theorem C8_list_integrity :
    (∀ (ops : List LOp) (h : Heap) (l l' : List Nat),
      represents h 0 l → specLOps 0 l ops = some l' →
      represents (applyLOps h 0 ops) 0 l' ∧
      traverseFwd (applyLOps h 0 ops) 0 (l'.length + 1) = l' ∧
      traverseBwd (applyLOps h 0 ops) 0 (l'.length + 1) = l'.reverse ∧
      (∀ x ∈ 0 :: l',
        ((applyLOps h 0 ops) ((applyLOps h 0 ops) x).next).prev = x ∧
        ((applyLOps h 0 ops) ((applyLOps h 0 ops) x).prev).next = x) ∧
      (emptyL (applyLOps h 0 ops) 0 ↔ l' = []) ∧
      (emptyL (applyLOps h 0 ops) 0 ↔
        beginI (applyLOps h 0 ops) 0 = endI (applyLOps h 0 ops) 0)) ∧
    (∀ (h : Heap) (s₁ s₂ fst : Nat) (a₁ a₂ b₁ mr b₂ : List Nat),
      represents h s₁ (a₁ ++ a₂) →
      represents h s₂ (b₁ ++ (fst :: mr) ++ b₂) →
      (∀ x ∈ s₁ :: (a₁ ++ a₂), x ∉ s₂ :: (b₁ ++ (fst :: mr) ++ b₂)) →
      represents (splice h (a₂.headD s₁) fst (b₂.headD s₂)) s₁
        (a₁ ++ (fst :: mr) ++ a₂) ∧
      represents (splice h (a₂.headD s₁) fst (b₂.headD s₂)) s₂ (b₁ ++ b₂)) ∧
    (∀ (h : Heap) (p f : Nat), splice h p f f = h) := by
  refine ⟨?_, ?_, ?_⟩
  · intro ops h l l' hr hspec
    have hr' := applyLOps_repr 0 ops h l l' hr hspec
    refine ⟨hr', traverseFwd_repr _ 0 l' hr', traverseBwd_repr _ 0 l' hr', ?_,
      (repr_empty_iff _ 0 l' hr').1, (repr_empty_iff _ 0 l' hr').2⟩
    intro x hx
    refine ⟨chain_next_prev _ l' 0 0 hr'.1 x hx, ?_⟩
    apply chain_prev_next _ l' 0 0 hr'.1 x
    rcases List.mem_cons.mp hx with rfl | hx'
    · exact List.mem_append_right _ (by simp)
    · exact List.mem_append_left _ hx'
  · intro h s₁ s₂ fst a₁ a₂ b₁ mr b₂ h1 h2 h3
    exact splice_repr h s₁ s₂ fst a₁ a₂ b₁ mr b₂ h1 h2 h3
  · intro h p f
    exact splice_self h p f

/-- Witness for C8: a concrete operation sequence
`push_back 1; push_back 2; push_back 3; erase 2; push_front 4` on an
initially empty list. -/
theorem C8_list_integrity_witness :
    traverseFwd (applyLOps (fun i => (⟨i, i⟩ : Node)) 0
      [LOp.pushB 1, LOp.pushB 2, LOp.pushB 3, LOp.ers 2, LOp.pushF 4]) 0 4
      = [4, 1, 3] ∧
    traverseBwd (applyLOps (fun i => (⟨i, i⟩ : Node)) 0
      [LOp.pushB 1, LOp.pushB 2, LOp.pushB 3, LOp.ers 2, LOp.pushF 4]) 0 4
      = [3, 1, 4] := by
  have h := C8_list_integrity.1
    [LOp.pushB 1, LOp.pushB 2, LOp.pushB 3, LOp.ers 2, LOp.pushF 4]
    (fun i => (⟨i, i⟩ : Node)) [] [4, 1, 3]
    (by decide) (by decide)
  exact ⟨h.2.1, h.2.2.1⟩

/-- Observable equality of two signal states: all components agree except
possibly the connections' private `sig` back-references (`csig`), which no
operation ever reads. -/
def Eqv (a b : St) : Prop :=
  a.heap = b.heap ∧ a.slot = b.slot ∧ a.tokH = b.tokH ∧ a.topTok = b.topTok ∧
  a.alive = b.alive ∧ a.uaf = b.uaf ∧ a.fresh = b.fresh ∧ a.tfresh = b.tfresh

/-- No token has been marked by a destroyed signal. -/
def noDead (s : St) : Prop := ∀ t, (s.tokH t).dead = false

theorem noDead_of_eqv (a b : St) (h : Eqv a b) (hd : noDead a) : noDead b := by
  intro t
  rw [← congrFun h.2.2.1 t]
  exact hd t

theorem alive_of_eqv (a b : St) (h : Eqv a b) (ha : a.alive = true) :
    b.alive = true := h.2.2.2.2.1 ▸ ha

/-- A token-stack walk whose update never touches the `dead` mark leaves
every `dead` mark unchanged. -/
theorem tokWalk_dead (g : Token → Token) (hg : ∀ t, (g t).dead = t.dead) :
    ∀ (n : Nat) (tokH : Nat → Token) (top : Option Nat) (j : Nat),
      (tokWalk g tokH n top j).dead = (tokH j).dead := by
  intro n
  induction n with
  | zero => intro tokH top j; rfl
  | succ m ih =>
    intro tokH top j
    cases top with
    | none => rfl
    | some t =>
      show (tokWalk g (fun i => if i = t then g (tokH t) else tokH i) m
        ((if t = t then g (tokH t) else tokH t).nxt) j).dead = _
      rw [ih]
      by_cases hj : j = t
      · rw [if_pos hj, hj, hg]
      · rw [if_neg hj]

theorem touchSig_eqv (a b : St) (h : Eqv a b) : Eqv (touchSig a) (touchSig b) := by
  obtain ⟨h1, h2, h3, h4, h5, h6, h7, h8⟩ := h
  unfold touchSig Eqv
  rw [h5]
  by_cases hb : b.alive
  · rw [if_pos hb, if_pos hb]
    exact ⟨h1, h2, h3, h4, h5, h6, h7, h8⟩
  · rw [if_neg hb, if_neg hb]
    exact ⟨h1, h2, h3, h4, rfl, rfl, h7, h8⟩

theorem setTok_eqv (a b : St) (tid : Nat) (t : Token) (h : Eqv a b) :
    Eqv (setTok a tid t) (setTok b tid t) := by
  obtain ⟨h1, h2, h3, h4, h5, h6, h7, h8⟩ := h
  refine ⟨h1, h2, ?_, h4, h5, h6, h7, h8⟩
  funext j
  show (if j = tid then t else a.tokH j) = (if j = tid then t else b.tokH j)
  rw [h3]

theorem pushTok_eqv (a b : St) (h : Eqv a b) :
    Eqv (pushTok a).1 (pushTok b).1 ∧ (pushTok a).2 = (pushTok b).2 := by
  have h8 : a.tfresh = b.tfresh := h.2.2.2.2.2.2.2
  obtain ⟨t1, t2, t3, t4, t5, t6, t7, t8⟩ := touchSig_eqv a b h
  refine ⟨⟨t1, t2, ?_, ?_, t5, t6, t7, ?_⟩, h8⟩
  · funext j
    show (if j = a.tfresh then (⟨((touchSig a).heap 0).next, (touchSig a).topTok,
        false⟩ : Token) else (touchSig a).tokH j) = _
    rw [h8, t1, t4, t3]
    rfl
  · show some a.tfresh = some b.tfresh
    rw [h8]
  · show a.tfresh + 1 = b.tfresh + 1
    rw [h8]

theorem popStep_nodead (v : Bool) (s : St) (tid : Nat)
    (hd : (s.tokH tid).dead = false) :
    popStep v s tid = { touchSig s with topTok := (s.tokH tid).nxt } := by
  cases v <;> simp [popStep, hd]

theorem popStep_eqv (v₁ v₂ : Bool) (a b : St) (tid : Nat) (h : Eqv a b)
    (hd : (a.tokH tid).dead = false) :
    Eqv (popStep v₁ a tid) (popStep v₂ b tid) := by
  have hdb : (b.tokH tid).dead = false := by
    rw [← congrFun h.2.2.1 tid]
    exact hd
  rw [popStep_nodead v₁ a tid hd, popStep_nodead v₂ b tid hdb]
  obtain ⟨t1, t2, t3, t4, t5, t6, t7, t8⟩ := touchSig_eqv a b h
  exact ⟨t1, t2, t3, by rw [h.2.2.1], t5, t6, t7, t8⟩

/-- `disconnect` acts identically in the two variants on the observable
state: only the `csig` write differs. -/
theorem discStep_eqv (v₁ v₂ : Bool) (a b : St) (c : Nat) (h : Eqv a b) :
    Eqv (discStep v₁ a c) (discStep v₂ b c) := by
  cases a with
  | mk ha sa ca ta pa la ua fa tfa =>
    cases b with
    | mk hb sb cb tb pb lb ub fb tfb =>
      obtain ⟨h1, h2, h3, h4, h5, h6, h7, h8⟩ := h
      simp only at h1 h2 h3 h4 h5 h6 h7 h8
      subst h1 h2 h3 h4 h5 h6 h7 h8
      unfold discStep
      by_cases hl : isLinked ha c
      · simp only [if_pos hl]
        cases v₁ <;> cases v₂ <;> cases la <;>
          exact ⟨rfl, rfl, rfl, rfl, rfl, rfl, rfl, rfl⟩
      · simp only [if_neg hl]
        exact ⟨rfl, rfl, rfl, rfl, rfl, rfl, rfl, rfl⟩

theorem connectStep_eqv (a b : St) (k : Nat) (h : Eqv a b) :
    Eqv (connectStep a k).1 (connectStep b k).1 ∧
    (connectStep a k).2 = (connectStep b k).2 := by
  cases a with
  | mk ha sa ca ta pa la ua fa tfa =>
    cases b with
    | mk hb sb cb tb pb lb ub fb tfb =>
      obtain ⟨h1, h2, h3, h4, h5, h6, h7, h8⟩ := h
      simp only at h1 h2 h3 h4 h5 h6 h7 h8
      subst h1 h2 h3 h4 h5 h6 h7 h8
      unfold connectStep
      cases la <;> exact ⟨⟨rfl, rfl, rfl, rfl, rfl, rfl, rfl, rfl⟩, rfl⟩

theorem safeMove_eqv (a b : St) (src dst : Nat) (h : Eqv a b) :
    Eqv (safeMove a src dst) (safeMove b src dst) := by
  cases a with
  | mk ha sa ca ta pa la ua fa tfa =>
    cases b with
    | mk hb sb cb tb pb lb ub fb tfb =>
      obtain ⟨h1, h2, h3, h4, h5, h6, h7, h8⟩ := h
      simp only at h1 h2 h3 h4 h5 h6 h7 h8
      subst h1 h2 h3 h4 h5 h6 h7 h8
      unfold safeMove
      by_cases hl : isLinked ha src
      · simp only [if_pos hl]
        cases la <;> exact ⟨rfl, rfl, rfl, rfl, rfl, rfl, rfl, rfl⟩
      · simp only [if_neg hl]
        exact ⟨rfl, rfl, rfl, rfl, rfl, rfl, rfl, rfl⟩

theorem moveCtorStep_eqv (a b : St) (src : Nat) (h : Eqv a b) :
    Eqv (moveCtorStep a src).1 (moveCtorStep b src).1 ∧
    (moveCtorStep a src).2 = (moveCtorStep b src).2 := by
  cases a with
  | mk ha sa ca ta pa la ua fa tfa =>
    cases b with
    | mk hb sb cb tb pb lb ub fb tfb =>
      obtain ⟨h1, h2, h3, h4, h5, h6, h7, h8⟩ := h
      simp only at h1 h2 h3 h4 h5 h6 h7 h8
      subst h1 h2 h3 h4 h5 h6 h7 h8
      refine ⟨?_, rfl⟩
      exact safeMove_eqv _ _ src fa ⟨rfl, rfl, rfl, rfl, rfl, rfl, rfl, rfl⟩

theorem moveAssignStep_eqv (v₁ v₂ : Bool) (a b : St) (dst src : Nat)
    (h : Eqv a b) :
    Eqv (moveAssignStep v₁ a dst src) (moveAssignStep v₂ b dst src) := by
  unfold moveAssignStep
  by_cases hds : dst = src
  · rw [if_pos hds, if_pos hds]
    exact h
  · rw [if_neg hds, if_neg hds]
    obtain ⟨d1, d2, d3, d4, d5, d6, d7, d8⟩ := discStep_eqv v₁ v₂ a b dst h
    apply safeMove_eqv
    refine ⟨d1, ?_, d3, d4, d5, d6, d7, d8⟩
    funext j
    show (if j = dst then (discStep v₁ a dst).slot src
      else if j = src then none else (discStep v₁ a dst).slot j)
      = (if j = dst then (discStep v₂ b dst).slot src
      else if j = src then none else (discStep v₂ b dst).slot j)
    rw [d2]

theorem noDead_setTok (s : St) (tid : Nat) (t : Token) (ht : t.dead = false)
    (h : noDead s) : noDead (setTok s tid t) := by
  intro j
  show ((if j = tid then t else s.tokH j)).dead = false
  by_cases hj : j = tid
  · rw [if_pos hj]
    exact ht
  · rw [if_neg hj]
    exact h j

theorem noDead_pushTok (s : St) (h : noDead s) : noDead (pushTok s).1 := by
  intro j
  show ((if j = s.tfresh then (⟨((touchSig s).heap 0).next, (touchSig s).topTok,
      false⟩ : Token) else (touchSig s).tokH j)).dead = false
  by_cases hj : j = s.tfresh
  · rw [if_pos hj]
  · rw [if_neg hj, touchSig_tokH]
    exact h j

theorem noDead_popStep (v : Bool) (s : St) (tid : Nat) (h : noDead s) :
    noDead (popStep v s tid) := by
  rw [popStep_nodead v s tid (h tid)]
  intro j
  show ((touchSig s).tokH j).dead = false
  rw [touchSig_tokH]
  exact h j

theorem noDead_discStep (v : Bool) (s : St) (c : Nat) (h : noDead s) :
    noDead (discStep v s c) := by
  intro j
  unfold discStep
  by_cases hl : isLinked s.heap c
  · simp only [if_pos hl]
    have hg : ∀ u : Token, ((if u.cur ≠ 0 ∧ u.cur = c
        then { u with cur := (unlink s.heap c u.cur).next } else u) : Token).dead
        = u.dead := by
      intro u
      by_cases hc : u.cur ≠ 0 ∧ u.cur = c
      · rw [if_pos hc]
      · rw [if_neg hc]
    cases v <;>
      (show (tokWalk (fun u => if u.cur ≠ 0 ∧ u.cur = c
          then { u with cur := (unlink s.heap c u.cur).next } else u)
          (touchSig { s with
            heap := unlink s.heap c
            slot := fun i => if i = c then none else s.slot i }).tokH
          (touchSig { s with
            heap := unlink s.heap c
            slot := fun i => if i = c then none else s.slot i }).tfresh
          (touchSig { s with
            heap := unlink s.heap c
            slot := fun i => if i = c then none else s.slot i }).topTok
          j).dead = false
       rw [tokWalk_dead _ hg, touchSig_tokH]
       exact h j)
  · simp only [if_neg hl]
    exact h j

theorem noDead_connectStep (s : St) (k : Nat) (h : noDead s) :
    noDead (connectStep s k).1 := by
  intro j
  show ((touchSig _).tokH j).dead = false
  rw [touchSig_tokH]
  exact h j

theorem noDead_safeMove (s : St) (src dst : Nat) (h : noDead s) :
    noDead (safeMove s src dst) := by
  intro j
  unfold safeMove
  by_cases hl : isLinked s.heap src
  · simp only [if_pos hl]
    have hg : ∀ u : Token, ((if u.cur ≠ 0 ∧ u.cur = src
        then { u with cur := dst } else u) : Token).dead = u.dead := by
      intro u
      by_cases hc : u.cur ≠ 0 ∧ u.cur = src
      · rw [if_pos hc]
      · rw [if_neg hc]
    show (tokWalk (fun u => if u.cur ≠ 0 ∧ u.cur = src
        then { u with cur := dst } else u)
        (touchSig s).tokH (touchSig s).tfresh (touchSig s).topTok j).dead = false
    rw [tokWalk_dead _ hg, touchSig_tokH]
    exact h j
  · simp only [if_neg hl]
    exact h j

theorem noDead_moveCtorStep (s : St) (src : Nat) (h : noDead s) :
    noDead (moveCtorStep s src).1 :=
  noDead_safeMove _ src s.fresh (fun t => h t)

theorem noDead_moveAssignStep (v : Bool) (s : St) (dst src : Nat)
    (h : noDead s) : noDead (moveAssignStep v s dst src) := by
  unfold moveAssignStep
  by_cases hds : dst = src
  · rw [if_pos hds]
    exact h
  · rw [if_neg hds]
    exact noDead_safeMove _ src dst (fun t => noDead_discStep v s dst h t)

theorem alive_discStep (v : Bool) (s : St) (c : Nat) :
    (discStep v s c).alive = s.alive := by
  unfold discStep
  by_cases hl : isLinked s.heap c
  · simp only [if_pos hl]
    cases v <;>
      (show (touchSig _).alive = s.alive
       rw [touchSig_aliveF])
  · simp only [if_neg hl]

theorem alive_connectStep (s : St) (k : Nat) :
    (connectStep s k).1.alive = s.alive := by
  show (touchSig _).alive = s.alive
  rw [touchSig_aliveF]

theorem alive_pushTok (s : St) : (pushTok s).1.alive = s.alive := by
  show (touchSig s).alive = s.alive
  rw [touchSig_aliveF]

theorem alive_popStep (v : Bool) (s : St) (tid : Nat)
    (h : noDead s) : (popStep v s tid).alive = s.alive := by
  rw [popStep_nodead v s tid (h tid)]
  show (touchSig s).alive = s.alive
  rw [touchSig_aliveF]

theorem alive_safeMove (s : St) (src dst : Nat) :
    (safeMove s src dst).alive = s.alive := by
  unfold safeMove
  by_cases hl : isLinked s.heap src
  · simp only [if_pos hl]
    show (touchSig s).alive = s.alive
    rw [touchSig_aliveF]
  · simp only [if_neg hl]

theorem alive_moveCtorStep (s : St) (src : Nat) :
    (moveCtorStep s src).1.alive = s.alive :=
  (alive_safeMove _ src s.fresh).trans rfl

theorem alive_moveAssignStep (v : Bool) (s : St) (dst src : Nat) :
    (moveAssignStep v s dst src).alive = s.alive := by
  unfold moveAssignStep
  by_cases hds : dst = src
  · rw [if_pos hds]
  · rw [if_neg hds]
    exact (alive_safeMove _ src dst).trans (alive_discStep v s dst)

/-- Exiting the emission loop with `bad_function_call` when the captured
connection's slot is empty. -/
theorem run_loop_badcall (v : Bool) (tbl : Nat → List Act) (f : Nat) (s : St)
    (tid x : Nat)
    (halive : s.alive = true)
    (hcur : (s.tokH tid).cur = x) (hx0 : x ≠ 0)
    (hslot : s.slot x = none) :
    run v tbl (f + 1) s (Mode.loopT tid) =
      (popStep v (setTok s tid
        ⟨(s.heap x).next, (s.tokH tid).nxt, (s.tokH tid).dead⟩) tid,
       [], some Exc.badCall) := by
  show (let s₀ := touchSig s
        let t := s₀.tokH tid
        if t.cur = 0 then (popStep v s₀ tid, [], none)
        else
          let copy := t.cur
          let s₁ := setTok s₀ tid { t with cur := (s₀.heap copy).next }
          match s₁.slot copy with
          | none => (popStep v s₁ tid, [], some Exc.badCall)
          | some k =>
            match run v tbl f s₁ (Mode.acts (tbl k)) with
            | (s₂, tr, some e) => (popStep v s₂ tid, copy :: tr, some e)
            | (s₂, tr, none) =>
              if (s₂.tokH tid).dead then (s₂, copy :: tr, none)
              else
                match run v tbl f s₂ (Mode.loopT tid) with
                | (s₃, tr', e') => (s₃, copy :: tr ++ tr', e')) = _
  rw [touchSig_alive s halive]
  simp only [hcur, if_neg hx0]
  have hsl : (setTok s tid
      ⟨(s.heap x).next, (s.tokH tid).nxt, (s.tokH tid).dead⟩).slot x = none := hslot
  rw [hsl]

/-- A nested `emit` inside a callback program. -/
theorem run_acts_emit (v : Bool) (tbl : Nat → List Act) (f : Nat) (s : St)
    (rest : List Act) :
    run v tbl (f + 1) s (Mode.acts (Act.emit :: rest)) =
      (match run v tbl f s Mode.emitT with
       | (s', tr, some e) => (s', tr, some e)
       | (s', tr, none) =>
         match run v tbl f s' (Mode.acts rest) with
         | (s'', tr', e') => (s'', tr ++ tr', e')) := rfl

/-- The bisimulation: in a destroy-free world the two variants run in
lock-step — same callbacks invoked in the same order, same failure
behaviour, and observationally equal states throughout. -/
theorem run_eqv (tbl : Nat → List Act)
    (htbl : ∀ k, Act.destroySig ∉ tbl k) :
    ∀ (f : Nat) (a b : St) (m : Mode),
      Eqv a b → noDead a → a.alive = true →
      (∀ l, m = Mode.acts l → Act.destroySig ∉ l) →
      (run true tbl f a m).2 = (run false tbl f b m).2 ∧
      Eqv (run true tbl f a m).1 (run false tbl f b m).1 ∧
      noDead (run true tbl f a m).1 ∧
      (run true tbl f a m).1.alive = true := by
  intro f
  induction f with
  | zero =>
    intro a b m hab hd hal _
    exact ⟨rfl, hab, hd, hal⟩
  | succ f ih =>
    intro a b m hab hd hal hm
    match m with
    | Mode.acts [] =>
      exact ⟨rfl, hab, hd, hal⟩
    | Mode.acts (x :: rest) =>
      have hrest : ∀ l, Mode.acts rest = Mode.acts l → Act.destroySig ∉ l := by
        intro l hl
        injection hl with h'
        rw [← h']
        exact fun hmem => hm (x :: rest) rfl (List.mem_cons_of_mem x hmem)
      match x with
      | Act.nop =>
        exact ih a b (Mode.acts rest) hab hd hal hrest
      | Act.throwErr =>
        exact ⟨rfl, hab, hd, hal⟩
      | Act.disconnect c =>
        exact ih (discStep true a c) (discStep false b c) (Mode.acts rest)
          (discStep_eqv true false a b c hab) (noDead_discStep true a c hd)
          ((alive_discStep true a c).trans hal) hrest
      | Act.connectNew k =>
        exact ih (connectStep a k).1 (connectStep b k).1 (Mode.acts rest)
          (connectStep_eqv a b k hab).1 (noDead_connectStep a k hd)
          ((alive_connectStep a k).trans hal) hrest
      | Act.moveFrom src =>
        exact ih (moveCtorStep a src).1 (moveCtorStep b src).1 (Mode.acts rest)
          (moveCtorStep_eqv a b src hab).1 (noDead_moveCtorStep a src hd)
          ((alive_moveCtorStep a src).trans hal) hrest
      | Act.moveAssign dst src =>
        exact ih (moveAssignStep true a dst src) (moveAssignStep false b dst src)
          (Mode.acts rest)
          (moveAssignStep_eqv true false a b dst src hab)
          (noDead_moveAssignStep true a dst src hd)
          ((alive_moveAssignStep true a dst src).trans hal) hrest
      | Act.destroySig =>
        exact absurd (List.mem_cons_self _ _) (hm (Act.destroySig :: rest) rfl)
      | Act.emit =>
        have h₁ := ih a b Mode.emitT hab hd hal (fun l hl => nomatch hl)
        rw [run_acts_emit true tbl f a rest, run_acts_emit false tbl f b rest]
        rcases hva : run true tbl f a Mode.emitT with ⟨sa, tra, ea⟩
        rcases hvb : run false tbl f b Mode.emitT with ⟨sb, trb, eb⟩
        rw [hva, hvb] at h₁
        obtain ⟨h₁t, h₁E, h₁d, h₁a⟩ := h₁
        have htr : tra = trb := congrArg Prod.fst h₁t
        have hex : ea = eb := congrArg Prod.snd h₁t
        subst htr hex
        dsimp only
        cases ea with
        | some e =>
          exact ⟨rfl, h₁E, h₁d, h₁a⟩
        | none =>
          dsimp only
          have h₂ := ih sa sb (Mode.acts rest) h₁E h₁d h₁a hrest
          rcases hwa : run true tbl f sa (Mode.acts rest) with ⟨sa2, tra2, ea2⟩
          rcases hwb : run false tbl f sb (Mode.acts rest) with ⟨sb2, trb2, eb2⟩
          rw [hwa, hwb] at h₂
          obtain ⟨h₂t, h₂E, h₂d, h₂a⟩ := h₂
          have htr2 : tra2 = trb2 := congrArg Prod.fst h₂t
          have hex2 : ea2 = eb2 := congrArg Prod.snd h₂t
          subst htr2 hex2
          exact ⟨rfl, h₂E, h₂d, h₂a⟩
    | Mode.emitT =>
      have h8 : a.tfresh = b.tfresh := hab.2.2.2.2.2.2.2
      have hkey := ih (pushTok a).1 (pushTok b).1 (Mode.loopT a.tfresh)
        (pushTok_eqv a b hab).1 (noDead_pushTok a hd)
        ((alive_pushTok a).trans hal) (fun l hl => nomatch hl)
      have hrunb : run false tbl (f + 1) b Mode.emitT
          = run false tbl f (pushTok b).1 (Mode.loopT a.tfresh) := by
        rw [show Mode.loopT a.tfresh = Mode.loopT b.tfresh from by rw [h8]]
        rfl
      rw [hrunb]
      exact hkey
    | Mode.loopT tid =>
      have htokb : b.tokH tid = a.tokH tid := (congrFun hab.2.2.1 tid).symm
      have halb : b.alive = true := alive_of_eqv a b hab hal
      have hdb : noDead b := noDead_of_eqv a b hab hd
      by_cases hcur0 : (a.tokH tid).cur = 0
      · have hcurb : (b.tokH tid).cur = 0 := by rw [htokb]; exact hcur0
        rw [run_loop_end true tbl f a tid hal (hd tid) hcur0,
            run_loop_end false tbl f b tid halb (hdb tid) hcurb]
        refine ⟨rfl, ⟨hab.1, hab.2.1, hab.2.2.1, ?_, hab.2.2.2.2.1,
          hab.2.2.2.2.2.1, hab.2.2.2.2.2.2.1, hab.2.2.2.2.2.2.2⟩,
          fun t => hd t, hal⟩
        show (a.tokH tid).nxt = (b.tokH tid).nxt
        rw [htokb]
      · have hcurb : (b.tokH tid).cur = (a.tokH tid).cur := by rw [htokb]
        have htokeq : (⟨(b.heap ((a.tokH tid).cur)).next, (b.tokH tid).nxt,
            (b.tokH tid).dead⟩ : Token)
            = ⟨(a.heap ((a.tokH tid).cur)).next, (a.tokH tid).nxt,
               (a.tokH tid).dead⟩ := by
          rw [htokb, ← hab.1]
        cases hsl : a.slot ((a.tokH tid).cur) with
        | none =>
          have hslb : b.slot ((a.tokH tid).cur) = none := by
            rw [← congrFun hab.2.1 ((a.tokH tid).cur)]
            exact hsl
          rw [run_loop_badcall true tbl f a tid ((a.tokH tid).cur) hal rfl
                hcur0 hsl,
              run_loop_badcall false tbl f b tid ((a.tokH tid).cur) halb hcurb
                hcur0 hslb,
              htokeq]
          have hndset : noDead (setTok a tid
              ⟨(a.heap ((a.tokH tid).cur)).next, (a.tokH tid).nxt,
               (a.tokH tid).dead⟩) :=
            noDead_setTok a tid _ (hd tid) hd
          refine ⟨rfl, ?_, ?_, ?_⟩
          · exact popStep_eqv true false _ _ tid (setTok_eqv a b tid _ hab)
              (by rw [setTok_tokH_same]; exact hd tid)
          · exact noDead_popStep true _ tid hndset
          · exact (alive_popStep true _ tid hndset).trans hal
        | some k =>
          have hslb : b.slot ((a.tokH tid).cur) = some k := by
            rw [← congrFun hab.2.1 ((a.tokH tid).cur)]
            exact hsl
          rw [run_loop_step true tbl f a tid ((a.tokH tid).cur) k hal rfl
                hcur0 hsl,
              run_loop_step false tbl f b tid ((a.tokH tid).cur) k halb hcurb
                hcur0 hslb,
              htokeq]
          have hset : Eqv (setTok a tid
              ⟨(a.heap ((a.tokH tid).cur)).next, (a.tokH tid).nxt,
               (a.tokH tid).dead⟩)
              (setTok b tid
              ⟨(a.heap ((a.tokH tid).cur)).next, (a.tokH tid).nxt,
               (a.tokH tid).dead⟩) := setTok_eqv a b tid _ hab
          have hnd' : noDead (setTok a tid
              ⟨(a.heap ((a.tokH tid).cur)).next, (a.tokH tid).nxt,
               (a.tokH tid).dead⟩) := noDead_setTok a tid _ (hd tid) hd
          have h₂ := ih _ _ (Mode.acts (tbl k)) hset hnd' hal
            (fun l hl => by injection hl with h'; rw [← h']; exact htbl k)
          rcases hwa : run true tbl f (setTok a tid
              ⟨(a.heap ((a.tokH tid).cur)).next, (a.tokH tid).nxt,
               (a.tokH tid).dead⟩) (Mode.acts (tbl k)) with ⟨sa2, tra2, ea2⟩
          rcases hwb : run false tbl f (setTok b tid
              ⟨(a.heap ((a.tokH tid).cur)).next, (a.tokH tid).nxt,
               (a.tokH tid).dead⟩) (Mode.acts (tbl k)) with ⟨sb2, trb2, eb2⟩
          rw [hwa, hwb] at h₂
          obtain ⟨h₂t, h₂E, h₂d, h₂a⟩ := h₂
          have htr2 : tra2 = trb2 := congrArg Prod.fst h₂t
          have hex2 : ea2 = eb2 := congrArg Prod.snd h₂t
          subst htr2 hex2
          cases ea2 with
          | some e =>
            exact ⟨rfl, popStep_eqv true false sa2 sb2 tid h₂E (h₂d tid),
              noDead_popStep true sa2 tid h₂d,
              (alive_popStep true sa2 tid h₂d).trans h₂a⟩
          | none =>
            have hda2 : (sa2.tokH tid).dead = false := h₂d tid
            have hdb2 : (sb2.tokH tid).dead = false :=
              noDead_of_eqv sa2 sb2 h₂E h₂d tid
            simp only [hda2, hdb2, Bool.false_eq_true, if_false]
            have h₃ := ih sa2 sb2 (Mode.loopT tid) h₂E h₂d h₂a
              (fun l hl => nomatch hl)
            rcases hza : run true tbl f sa2 (Mode.loopT tid) with ⟨sa3, tra3, ea3⟩
            rcases hzb : run false tbl f sb2 (Mode.loopT tid) with ⟨sb3, trb3, eb3⟩
            rw [hza, hzb] at h₃
            obtain ⟨h₃t, h₃E, h₃d, h₃a⟩ := h₃
            have htr3 : tra3 = trb3 := congrArg Prod.fst h₃t
            have hex3 : ea3 = eb3 := congrArg Prod.snd h₃t
            subst htr3 hex3
            exact ⟨rfl, h₃E, h₃d, h₃a⟩

/-- Claim C9: as long as no reachable callback destroys the signal, the
`signals.h` implementation (variant `true`) and the `part_000`
implementation (variant `false`) are observationally equivalent from any
common live starting state: every emission or callback program invokes
the same callbacks in the same order, produces the same failure outcome,
and leaves the connection list, slot table, token stack and all other
observable state identical — the final states can differ only in the
connections' private `sig` back-references, which neither variant ever
reads. -/
theorem C9_variant_equivalence (tbl : Nat → List Act) (f : Nat) (s : St)
    (m : Mode)
    (htbl : ∀ k, Act.destroySig ∉ tbl k)
    (hm : ∀ l, m = Mode.acts l → Act.destroySig ∉ l)
    (hd : noDead s)
    (halive : s.alive = true) :
    (run true tbl f s m).2.1 = (run false tbl f s m).2.1 ∧
    (run true tbl f s m).2.2 = (run false tbl f s m).2.2 ∧
    Eqv (run true tbl f s m).1 (run false tbl f s m).1 := by
  have h := run_eqv tbl htbl f s s m
    ⟨rfl, rfl, rfl, rfl, rfl, rfl, rfl, rfl⟩ hd halive hm
  exact ⟨congrArg Prod.fst h.1, congrArg Prod.snd h.1, h.2.1⟩

/-- Witness for C9: an emission over ring `[1, 2]` whose first callback
disconnects connection `2` — both variants invoke `[1]` and agree. -/
theorem C9_variant_equivalence_witness :
    (run true (fun k => if k = 1 then [Act.disconnect 2] else []) 6
      (baseSt [1, 2]
        (fun c => if c = 1 then some 1 else if c = 2 then some 0 else none))
      Mode.emitT).2.1
      = (run false (fun k => if k = 1 then [Act.disconnect 2] else []) 6
      (baseSt [1, 2]
        (fun c => if c = 1 then some 1 else if c = 2 then some 0 else none))
      Mode.emitT).2.1 ∧
    (run true (fun k => if k = 1 then [Act.disconnect 2] else []) 6
      (baseSt [1, 2]
        (fun c => if c = 1 then some 1 else if c = 2 then some 0 else none))
      Mode.emitT).2.2
      = (run false (fun k => if k = 1 then [Act.disconnect 2] else []) 6
      (baseSt [1, 2]
        (fun c => if c = 1 then some 1 else if c = 2 then some 0 else none))
      Mode.emitT).2.2 := by
  have h := C9_variant_equivalence
    (fun k => if k = 1 then [Act.disconnect 2] else []) 6
    (baseSt [1, 2]
      (fun c => if c = 1 then some 1 else if c = 2 then some 0 else none))
    Mode.emitT
    (by
      intro k
      by_cases hk : k = 1
      · subst hk
        decide
      · show Act.destroySig ∉ (if k = 1 then [Act.disconnect 2] else [])
        rw [if_neg hk]
        decide)
    (fun l hl => nomatch hl)
    (fun t => rfl) rfl
  exact ⟨h.1, h.2.1⟩

/-- Witness for C7 at a concrete three-connection signal. -/
theorem C7_emission_order_witness :
    (run true (fun _ => []) 5
      (baseSt [1, 2, 3] (fun c => if c ≤ 3 then some 0 else none))
      Mode.emitT).2.1 = [1, 2, 3] ∧
    (run true (fun _ => []) 5
      (baseSt [1, 2, 3] (fun c => if c ≤ 3 then some 0 else none))
      Mode.emitT).2.2 = none :=
  have h := C7_emission_order true (fun _ => [])
    (baseSt [1, 2, 3] (fun c => if c ≤ 3 then some 0 else none)) [1, 2, 3]
    (by decide) rfl rfl
    (by intro x hx; fin_cases hx <;> exact ⟨0, rfl, rfl⟩)
  ⟨h.1.1, h.1.2.1⟩

end Signals
